import Mathlib

/-!
Verification of the B+ tree engines of this repository against its
natural-language specification.

The repository contains two engines:

* the standalone C engine (`src/c/src/bplustree.c`), operating on `int`
  keys and values, with parent pointers, a leaf split routine, an
  explicitly unimplemented branch split (it returns
  `BPTREE_ERROR_INVALID_STATE`), and a removal routine restricted to
  trees whose root is a leaf; and

* the CPython extension engine (`src/python/bplustree_c_src/node_ops.c`,
  `tree_ops.c`), with a complete recursive insertion (leaf split and
  branch split) and a leaf-only deletion without rebalancing.

Both engines are shallowly embedded below: nodes become inductive trees
over lists, array shifting (`memmove` / explicit loops) becomes
`List.take`/`List.drop` surgery at the computed index, `malloc` is
modelled as always succeeding (allocation failure is a nondeterministic
event outside the embedding), and C `int` / Python integer keys and
values are modelled as `Int`.  Machine integer overflow is immaterial
here: the engines only compare keys and never perform arithmetic on
them.  Binary searches are embedded with an explicit fuel argument
(initialised to the array length, which bounds the number of halving
steps) so that every definition is structurally recursive and hence
executable in the kernel.
-/

namespace BPlusVerify

/-! ## Generic sorted-list groundwork -/

/-- Strict sortedness of a key list, as an executable check. -/
def chainLt : List Int → Bool
  | [] => true
  | [_] => true
  | a :: b :: t => a < b && chainLt (b :: t)

theorem chainLt_iff : ∀ {l : List Int}, chainLt l = true ↔ l.Pairwise (· < ·)
  | [] => by simp [chainLt]
  | [a] => by simp [chainLt]
  | a :: b :: t => by
    rw [chainLt, List.pairwise_cons]
    constructor
    · intro h
      have h1 : (a < b) ∧ chainLt (b :: t) = true := by
        simpa [Bool.and_eq_true] using h
      have ht := chainLt_iff.mp h1.2
      refine ⟨?_, ht⟩
      intro x hx
      rcases List.mem_cons.mp hx with hx | hx
      · simpa [hx] using h1.1
      · have hb := (List.pairwise_cons.mp ht).1 x hx
        exact lt_trans h1.1 hb
    · intro h
      have hab : a < b := h.1 b (by simp)
      have ht : chainLt (b :: t) = true := chainLt_iff.mpr h.2
      simp [Bool.and_eq_true, hab, ht]

/-- Lower bound check against an optional inclusive lower bound. -/
def inLo (lo : Option Int) (k : Int) : Bool :=
  match lo with
  | none => true
  | some a => a ≤ k

/-- Upper bound check against an optional exclusive upper bound. -/
def inHi (hi : Option Int) (k : Int) : Bool :=
  match hi with
  | none => true
  | some b => k < b

theorem inLo_none (k : Int) : inLo none k = true := rfl

theorem inHi_none (k : Int) : inHi none k = true := rfl

theorem inLo_some {a k : Int} : inLo (some a) k = true ↔ a ≤ k := by
  simp [inLo]

theorem inHi_some {b k : Int} : inHi (some b) k = true ↔ k < b := by
  simp [inHi]

/-- Weakening: a lower bound may be dropped. -/
theorem inLo_weaken {lo : Option Int} {a k : Int}
    (h : inLo (some a) k = true) (hlo : inLo lo a = true) : inLo lo k = true := by
  cases lo with
  | none => rfl
  | some x =>
    rw [inLo_some] at h hlo ⊢
    exact le_trans hlo h

theorem inHi_weaken {hi : Option Int} {b k : Int}
    (h : inHi (some b) k = true) (hhi : inHi hi b = true) : inHi hi k = true := by
  cases hi with
  | none => rfl
  | some x =>
    rw [inHi_some] at h hhi ⊢
    exact lt_trans h hhi

/-! ## Binary search

Both engines use a lower-bound binary search over the sorted key slots
(`binary_search_keys` in `src/c/src/bplustree.c`, `node_find_position`
in `src/python/bplustree_c_src/node_ops.c`; the two mid-point formulas
`left + (right - left)/2` and `(left + right)/2` agree on `Nat`), and
the C engine additionally uses an exact-match search
(`binary_search_exact`).  The `while (left < right)` loops are embedded
with a fuel argument initialised to the array length, which bounds the
number of iterations, so that the definitions reduce in the kernel. -/

def bsGo (keys : List Int) (target : Int) : Nat → Nat → Nat → Nat
  | 0, left, _ => left
  | fuel + 1, left, right =>
    if left < right then
      let mid := left + (right - left) / 2
      if keys.getD mid 0 < target then bsGo keys target fuel (mid + 1) right
      else bsGo keys target fuel left mid
    else left

/-- `binary_search_keys` / `node_find_position`: index of the first key
that is not `< target` (the lower bound / leftmost insertion point). -/
def binary_search_keys (keys : List Int) (target : Int) : Nat :=
  bsGo keys target keys.length 0 keys.length

def bsExactGo (keys : List Int) (target : Int) : Nat → Nat → Nat → Option Nat
  | 0, _, _ => none
  | fuel + 1, left, right =>
    if left < right then
      let mid := left + (right - left) / 2
      if keys.getD mid 0 < target then bsExactGo keys target fuel (mid + 1) right
      else if target < keys.getD mid 0 then bsExactGo keys target fuel left mid
      else some mid
    else none

/-- `binary_search_exact`: index of the key equal to `target`, or `none`
(the C code returns `SIZE_MAX`) when absent. -/
def binary_search_exact (keys : List Int) (target : Int) : Option Nat :=
  bsExactGo keys target keys.length 0 keys.length

/-- Sorted lists are monotone position-wise. -/
theorem sorted_getD_mono {keys : List Int} (hs : keys.Pairwise (· < ·))
    {i j : Nat} (hij : i ≤ j) (hj : j < keys.length) :
    keys.getD i 0 ≤ keys.getD j 0 := by
  rcases Nat.eq_or_lt_of_le hij with rfl | hlt
  · exact le_refl _
  · have hi : i < keys.length := lt_trans hlt hj
    have := List.pairwise_iff_getElem.mp hs i j hi hj hlt
    rw [List.getD_eq_getElem keys 0 hi, List.getD_eq_getElem keys 0 hj]
    exact le_of_lt this

theorem bsGo_spec (keys : List Int) (target : Int)
    (hs : keys.Pairwise (· < ·)) :
    ∀ fuel l r, l ≤ r → r ≤ keys.length → r - l ≤ fuel →
    (∀ i, i < l → keys.getD i 0 < target) →
    (∀ i, r ≤ i → i < keys.length → ¬ keys.getD i 0 < target) →
    l ≤ bsGo keys target fuel l r ∧ bsGo keys target fuel l r ≤ r ∧
    (∀ i, i < bsGo keys target fuel l r → keys.getD i 0 < target) ∧
    (∀ i, bsGo keys target fuel l r ≤ i → i < keys.length →
      ¬ keys.getD i 0 < target) := by
  intro fuel
  induction fuel with
  | zero =>
    intro l r hlr hr hfuel hlo hhi
    have : l = r := by omega
    subst this
    exact ⟨le_refl _, le_refl _, hlo, hhi⟩
  | succ fuel ih =>
    intro l r hlr hr hfuel hlo hhi
    rw [bsGo]
    by_cases h : l < r
    · simp only [if_pos h]
      set mid := l + (r - l) / 2 with hmid
      have hmidlt : mid < r := by omega
      have hmidge : l ≤ mid := by omega
      have hmidlen : mid < keys.length := lt_of_lt_of_le hmidlt hr
      by_cases hc : keys.getD mid 0 < target
      · simp only [if_pos hc]
        refine (ih (mid + 1) r (by omega) hr (by omega) ?_ hhi).imp
          (fun h1 => by omega) (fun h2 => h2)
        intro i hi
        exact lt_of_le_of_lt (sorted_getD_mono hs (by omega) hmidlen) hc
      · simp only [if_neg hc]
        refine (ih l mid hmidge (le_of_lt hmidlen) (by omega) hlo ?_).imp
          (fun h1 => h1) (fun h2 => ⟨le_trans h2.1 (le_of_lt hmidlt), h2.2⟩)
        intro i hi hilen hcon
        exact hc (lt_of_le_of_lt (sorted_getD_mono hs hi hilen) hcon)
    · simp only [if_neg h]
      have : l = r := by omega
      subst this
      exact ⟨le_refl _, le_refl _, hlo, hhi⟩

/-- Characterisation of the lower-bound search on a sorted key list. -/
theorem binary_search_keys_spec (keys : List Int) (target : Int)
    (hs : keys.Pairwise (· < ·)) :
    binary_search_keys keys target ≤ keys.length ∧
    (∀ i, i < binary_search_keys keys target → keys.getD i 0 < target) ∧
    (∀ i, binary_search_keys keys target ≤ i → i < keys.length →
      ¬ keys.getD i 0 < target) := by
  have := bsGo_spec keys target hs keys.length 0 keys.length
    (Nat.zero_le _) (le_refl _) (by omega)
    (fun i hi => absurd hi (Nat.not_lt_zero i))
    (fun i hi hilen => absurd hilen (by omega))
  exact ⟨this.2.1, this.2.2⟩

theorem bsExactGo_spec (keys : List Int) (target : Int)
    (hs : keys.Pairwise (· < ·)) :
    ∀ fuel l r, l ≤ r → r ≤ keys.length → r - l ≤ fuel →
    (∀ i, i < keys.length → keys.getD i 0 = target → l ≤ i ∧ i < r) →
    (match bsExactGo keys target fuel l r with
     | some i => i < keys.length ∧ keys.getD i 0 = target
     | none => ∀ i, i < keys.length → keys.getD i 0 ≠ target) := by
  intro fuel
  induction fuel with
  | zero =>
    intro l r hlr hr hfuel hwin
    have : l = r := by omega
    subst this
    simp only [bsExactGo]
    intro i hilen hieq
    have := hwin i hilen hieq
    omega
  | succ fuel ih =>
    intro l r hlr hr hfuel hwin
    rw [bsExactGo]
    by_cases h : l < r
    · simp only [if_pos h]
      set mid := l + (r - l) / 2 with hmid
      have hmidlt : mid < r := by omega
      have hmidge : l ≤ mid := by omega
      have hmidlen : mid < keys.length := lt_of_lt_of_le hmidlt hr
      by_cases hc : keys.getD mid 0 < target
      · simp only [if_pos hc]
        refine ih (mid + 1) r (by omega) hr (by omega) ?_
        intro i hilen hieq
        have hgt : mid < i := by
          by_contra hcon
          have := sorted_getD_mono hs (Nat.le_of_not_lt hcon) hmidlen
          omega
        exact ⟨hgt, (hwin i hilen hieq).2⟩
      · simp only [if_neg hc]
        by_cases hc2 : target < keys.getD mid 0
        · simp only [if_pos hc2]
          refine ih l mid hmidge (le_of_lt hmidlen) (by omega) ?_
          intro i hilen hieq
          have hlt : i < mid := by
            by_contra hcon
            have := sorted_getD_mono hs (Nat.le_of_not_lt hcon) hilen
            omega
          exact ⟨(hwin i hilen hieq).1, hlt⟩
        · simp only [if_neg hc2]
          exact ⟨hmidlen, by omega⟩
    · simp only [if_neg h]
      have : l = r := by omega
      subst this
      intro i hilen hieq
      have := hwin i hilen hieq
      omega

/-- Characterisation of the exact-match search on a sorted key list. -/
theorem binary_search_exact_spec (keys : List Int) (target : Int)
    (hs : keys.Pairwise (· < ·)) :
    match binary_search_exact keys target with
    | some i => i < keys.length ∧ keys.getD i 0 = target
    | none => ∀ i, i < keys.length → keys.getD i 0 ≠ target := by
  exact bsExactGo_spec keys target hs keys.length 0 keys.length
    (Nat.zero_le _) (le_refl _) (by omega)
    (fun i hilen _ => ⟨Nat.zero_le _, hilen⟩)

/-! ### Derived views of the lower bound -/

theorem binary_search_keys_le (keys : List Int) (target : Int)
    (hs : keys.Pairwise (· < ·)) :
    binary_search_keys keys target ≤ keys.length :=
  (binary_search_keys_spec keys target hs).1

theorem take_lowerBound_lt (keys : List Int) (target : Int)
    (hs : keys.Pairwise (· < ·)) :
    ∀ x ∈ keys.take (binary_search_keys keys target), x < target := by
  intro x hx
  obtain ⟨i, hi, hxe⟩ := List.mem_take_iff_getElem.mp hx
  have hilen : i < keys.length := by omega
  have h1 := (binary_search_keys_spec keys target hs).2.1 i (by omega)
  rwa [List.getD_eq_getElem keys 0 hilen, hxe] at h1

theorem drop_lowerBound_ge (keys : List Int) (target : Int)
    (hs : keys.Pairwise (· < ·)) :
    ∀ x ∈ keys.drop (binary_search_keys keys target), target ≤ x := by
  intro x hx
  obtain ⟨j, hj, hxe⟩ := List.mem_iff_getElem.mp hx
  rw [List.length_drop] at hj
  have hlen : binary_search_keys keys target + j < keys.length := by omega
  have h1 := (binary_search_keys_spec keys target hs).2.2
    (binary_search_keys keys target + j) (by omega) hlen
  rw [List.getD_eq_getElem keys 0 hlen] at h1
  rw [List.getElem_drop] at hxe
  rw [hxe] at h1
  omega

/-- Membership at the lower bound: on a sorted list, `target` occurs iff
it sits exactly at the lower-bound index. -/
theorem mem_iff_lowerBound (keys : List Int) (target : Int)
    (hs : keys.Pairwise (· < ·)) :
    target ∈ keys ↔
      (binary_search_keys keys target < keys.length ∧
       keys.getD (binary_search_keys keys target) 0 = target) := by
  constructor
  · intro hmem
    rcases List.mem_iff_getElem.mp hmem with ⟨j, hj, hje⟩
    have hple := binary_search_keys_le keys target hs
    set p := binary_search_keys keys target with hp
    have hjp : p ≤ j := by
      by_contra hcon
      have := (binary_search_keys_spec keys target hs).2.1 j (by omega)
      rw [List.getD_eq_getElem keys 0 hj, hje] at this
      omega
    have hnotlt := (binary_search_keys_spec keys target hs).2.2 p
    have hplen : p < keys.length := lt_of_le_of_lt hjp hj
    have h2 := hnotlt (le_refl _) hplen
    have h3 := sorted_getD_mono hs hjp hj
    rw [List.getD_eq_getElem keys 0 hj, hje] at h3
    constructor
    · exact hplen
    · omega
  · intro ⟨hlt, heq⟩
    rw [List.getD_eq_getElem keys 0 hlt] at heq
    exact heq ▸ List.getElem_mem hlt

/-! ## The sorted association-list model

`linsert` / `lerase` give the insert-or-update and remove-first
semantics on an association list; both engines are proved to refine
them on their flattened leaf contents. -/

def linsert (k v : Int) : List (Int × Int) → List (Int × Int)
  | [] => [(k, v)]
  | e :: t =>
    if k < e.1 then (k, v) :: e :: t
    else if k = e.1 then (k, v) :: t
    else e :: linsert k v t

def lerase (k : Int) : List (Int × Int) → List (Int × Int)
  | [] => []
  | e :: t => if e.1 = k then t else e :: lerase k t

/-- Association-list lookup (first match wins). -/
def lookupKV (l : List (Int × Int)) (k : Int) : Option Int :=
  (l.find? (fun e => e.1 == k)).map (·.2)

theorem lookupKV_nil (q : Int) : lookupKV [] q = none := rfl

theorem lookupKV_cons_pos {e : Int × Int} {l : List (Int × Int)} {q : Int}
    (h : e.1 = q) : lookupKV (e :: l) q = some e.2 := by
  rw [lookupKV, List.find?_cons_of_pos _ (by simp [h])]
  rfl

theorem lookupKV_cons_neg {e : Int × Int} {l : List (Int × Int)} {q : Int}
    (h : e.1 ≠ q) : lookupKV (e :: l) q = lookupKV l q := by
  rw [lookupKV, List.find?_cons_of_neg _ (by simp [h]), lookupKV]

theorem mem_keys_linsert {x k v : Int} :
    ∀ {l : List (Int × Int)},
      (x ∈ (linsert k v l).map Prod.fst ↔ x = k ∨ x ∈ l.map Prod.fst)
  | [] => by simp [linsert]
  | e :: t => by
    rw [linsert]
    by_cases h1 : k < e.1
    · simp [h1]
    · by_cases h2 : k = e.1
      · subst h2
        rw [if_neg h1, if_pos rfl]
        simp only [List.map_cons, List.mem_cons]
        tauto
      · rw [if_neg h1, if_neg h2]
        simp only [List.map_cons, List.mem_cons]
        rw [mem_keys_linsert (l := t)]
        tauto

theorem linsert_sorted {k v : Int} :
    ∀ {l : List (Int × Int)}, (l.map Prod.fst).Pairwise (· < ·) →
      ((linsert k v l).map Prod.fst).Pairwise (· < ·)
  | [], _ => by simp [linsert]
  | e :: t, hs => by
    have hhead : ∀ x ∈ t.map Prod.fst, e.1 < x := by
      rw [List.map_cons, List.pairwise_cons] at hs
      exact hs.1
    have htail : (t.map Prod.fst).Pairwise (· < ·) := by
      rw [List.map_cons, List.pairwise_cons] at hs
      exact hs.2
    rw [linsert]
    by_cases h1 : k < e.1
    · rw [if_pos h1, List.map_cons]
      refine List.pairwise_cons.mpr ⟨?_, by simpa using hs⟩
      intro x hx
      rcases List.mem_cons.mp (by simpa using hx : x ∈ e.1 :: t.map Prod.fst)
        with rfl | hx
      · exact h1
      · exact lt_trans h1 (hhead x hx)
    · by_cases h2 : k = e.1
      · subst h2
        rw [if_neg h1, if_pos rfl, List.map_cons]
        exact List.pairwise_cons.mpr ⟨hhead, htail⟩
      · have h3 : e.1 < k := by omega
        rw [if_neg h1, if_neg h2, List.map_cons]
        refine List.pairwise_cons.mpr ⟨?_, linsert_sorted htail⟩
        intro x hx
        rcases mem_keys_linsert.mp hx with rfl | hx
        · exact h3
        · exact hhead x hx

theorem length_linsert_of_mem {k v : Int} :
    ∀ {l : List (Int × Int)}, (l.map Prod.fst).Pairwise (· < ·) →
      k ∈ l.map Prod.fst → (linsert k v l).length = l.length
  | [], _, h => by simp at h
  | e :: t, hs, h => by
    have hhead : ∀ x ∈ t.map Prod.fst, e.1 < x := by
      rw [List.map_cons, List.pairwise_cons] at hs
      exact hs.1
    have htail : (t.map Prod.fst).Pairwise (· < ·) := by
      rw [List.map_cons, List.pairwise_cons] at hs
      exact hs.2
    rw [List.map_cons] at h
    rw [linsert]
    rcases List.mem_cons.mp h with rfl | hmem
    · simp [lt_irrefl]
    · have hgt : e.1 < k := hhead k hmem
      rw [if_neg (by omega), if_neg (by omega), List.length_cons,
        List.length_cons, length_linsert_of_mem htail hmem]

theorem length_linsert_of_not_mem {k v : Int} :
    ∀ {l : List (Int × Int)}, k ∉ l.map Prod.fst →
      (linsert k v l).length = l.length + 1
  | [], _ => by simp [linsert]
  | e :: t, h => by
    rw [List.map_cons, List.mem_cons] at h
    push_neg at h
    rw [linsert]
    by_cases h1 : k < e.1
    · simp [h1]
    · rw [if_neg h1, if_neg h.1, List.length_cons, List.length_cons,
        length_linsert_of_not_mem h.2]

theorem lookupKV_linsert_self {k v : Int} :
    ∀ {l : List (Int × Int)}, lookupKV (linsert k v l) k = some v
  | [] => by rw [linsert, lookupKV_cons_pos rfl]
  | e :: t => by
    rw [linsert]
    by_cases h1 : k < e.1
    · rw [if_pos h1, lookupKV_cons_pos rfl]
    · by_cases h2 : k = e.1
      · rw [if_neg h1, if_pos h2, lookupKV_cons_pos rfl]
      · rw [if_neg h1, if_neg h2, lookupKV_cons_neg (by omega)]
        exact lookupKV_linsert_self (l := t)

theorem lookupKV_linsert_ne {k v q : Int} (hne : q ≠ k) :
    ∀ {l : List (Int × Int)}, lookupKV (linsert k v l) q = lookupKV l q
  | [] => by
    rw [linsert, lookupKV_cons_neg (by omega)]
  | e :: t => by
    rw [linsert]
    by_cases h1 : k < e.1
    · rw [if_pos h1, lookupKV_cons_neg (by omega)]
    · by_cases h2 : k = e.1
      · subst h2
        rw [if_neg h1, if_pos rfl, lookupKV_cons_neg (by omega),
          lookupKV_cons_neg (by omega)]
      · by_cases h3 : e.1 = q
        · rw [if_neg h1, if_neg h2, lookupKV_cons_pos h3, lookupKV_cons_pos h3]
        · rw [if_neg h1, if_neg h2, lookupKV_cons_neg h3, lookupKV_cons_neg h3]
          exact lookupKV_linsert_ne hne (l := t)

theorem lookupKV_isSome_iff {q : Int} :
    ∀ {l : List (Int × Int)}, (lookupKV l q).isSome = true ↔ q ∈ l.map Prod.fst
  | [] => by simp [lookupKV]
  | e :: t => by
    by_cases h : e.1 = q
    · rw [lookupKV_cons_pos h]
      simp [h.symm]
    · rw [lookupKV_cons_neg h, List.map_cons, List.mem_cons,
        lookupKV_isSome_iff (l := t)]
      have : ¬ q = e.1 := fun hq => h hq.symm
      tauto

theorem linsert_all_big {k v : Int} {l : List (Int × Int)}
    (h : ∀ e ∈ l, k < e.1) : linsert k v l = (k, v) :: l := by
  cases l with
  | nil => rfl
  | cons e t => rw [linsert, if_pos (h e (by simp))]

theorem linsert_append_left {k v : Int} :
    ∀ {a b : List (Int × Int)}, (∀ e ∈ a, e.1 < k) →
      linsert k v (a ++ b) = a ++ linsert k v b
  | [], _, _ => by simp
  | e :: t, b, h => by
    have he : e.1 < k := h e (by simp)
    rw [List.cons_append, linsert, if_neg (by omega), if_neg (by omega),
      linsert_append_left (fun x hx => h x (List.mem_cons_of_mem e hx))]
    rfl

theorem linsert_append_right {k v : Int} :
    ∀ {a b : List (Int × Int)}, (∀ e ∈ b, k < e.1) →
      linsert k v (a ++ b) = linsert k v a ++ b
  | [], b, h => by
    rw [List.nil_append, linsert_all_big h]
    rfl
  | e :: t, b, h => by
    rw [List.cons_append, linsert, linsert]
    by_cases h1 : k < e.1
    · rw [if_pos h1, if_pos h1]
      rfl
    · by_cases h2 : k = e.1
      · rw [if_neg h1, if_pos h2, if_neg h1, if_pos h2]
        rfl
      · rw [if_neg h1, if_neg h2, if_neg h1, if_neg h2,
          linsert_append_right (b := b) h]
        rfl

/-- On a sorted list without `k`, `linsert` is exactly the positional
insertion at the lower bound that the engines implement. -/
theorem linsert_eq_insert_at {k v : Int} {es : List (Int × Int)}
    (hs : (es.map Prod.fst).Pairwise (· < ·))
    (hnm : k ∉ es.map Prod.fst) :
    linsert k v es =
      es.take (binary_search_keys (es.map Prod.fst) k) ++
        (k, v) :: es.drop (binary_search_keys (es.map Prod.fst) k) := by
  set p := binary_search_keys (es.map Prod.fst) k with hp
  have htake : ∀ e ∈ es.take p, e.1 < k := by
    intro e he
    apply take_lowerBound_lt (es.map Prod.fst) k hs
    rw [← List.map_take]
    exact List.mem_map_of_mem _ he
  have hdrop : ∀ e ∈ es.drop p, k < e.1 := by
    intro e he
    have hge : k ≤ e.1 := by
      apply drop_lowerBound_ge (es.map Prod.fst) k hs
      rw [← List.map_drop]
      exact List.mem_map_of_mem _ he
    have hne : e.1 ≠ k := by
      intro hcon
      exact hnm (hcon ▸ List.mem_map_of_mem Prod.fst (List.mem_of_mem_drop he))
    omega
  calc linsert k v es
      = linsert k v (es.take p ++ es.drop p) := by rw [List.take_append_drop]
    _ = es.take p ++ linsert k v (es.drop p) := linsert_append_left htake
    _ = es.take p ++ (k, v) :: es.drop p := by rw [linsert_all_big hdrop]

/-- On a sorted list whose `p`-th key is `k`, `linsert` is exactly the
in-place value overwrite that the engines implement. -/
theorem linsert_eq_set {k v : Int} :
    ∀ {es : List (Int × Int)} {p : Nat},
      (es.map Prod.fst).Pairwise (· < ·) →
      (h : p < es.length) →
      (es.get ⟨p, h⟩).1 = k →
      linsert k v es = es.take p ++ (k, v) :: es.drop (p + 1)
  | [], p, _, h, _ => by simp at h
  | e :: t, 0, _, _, hpk => by
    simp only [List.get] at hpk
    rw [linsert, if_neg (by omega), if_pos hpk.symm]
    rfl
  | e :: t, p + 1, hs, h, hpk => by
    have hhead : ∀ x ∈ t.map Prod.fst, e.1 < x := by
      rw [List.map_cons, List.pairwise_cons] at hs
      exact hs.1
    have htail : (t.map Prod.fst).Pairwise (· < ·) := by
      rw [List.map_cons, List.pairwise_cons] at hs
      exact hs.2
    have hlen : p < t.length := by simpa using h
    have hget : (t.get ⟨p, hlen⟩).1 = k := hpk
    have hk : e.1 < k := by
      have : (t.get ⟨p, hlen⟩).1 ∈ t.map Prod.fst :=
        List.mem_map_of_mem _ (List.get_mem t p hlen)
      rw [hget] at this
      exact hhead k this
    rw [linsert, if_neg (by omega), if_neg (by omega),
      linsert_eq_set htail hlen hget]
    rfl

theorem lerase_of_not_mem {k : Int} :
    ∀ {l : List (Int × Int)}, k ∉ l.map Prod.fst → lerase k l = l
  | [], _ => rfl
  | e :: t, h => by
    rw [List.map_cons, List.mem_cons] at h
    push_neg at h
    rw [lerase, if_neg (fun hc => h.1 hc.symm), lerase_of_not_mem h.2]

theorem length_lerase_of_mem {k : Int} :
    ∀ {l : List (Int × Int)}, k ∈ l.map Prod.fst →
      l.length = (lerase k l).length + 1
  | [], h => by simp at h
  | e :: t, h => by
    rw [lerase]
    by_cases h1 : e.1 = k
    · rw [if_pos h1]
      rfl
    · rw [List.map_cons, List.mem_cons] at h
      rcases h with rfl | hmem
      · exact absurd rfl h1
      · rw [if_neg h1, List.length_cons, List.length_cons,
          length_lerase_of_mem hmem]

theorem lerase_sublist (k : Int) : ∀ l : List (Int × Int), (lerase k l).Sublist l
  | [] => List.Sublist.refl _
  | e :: t => by
    rw [lerase]
    by_cases h1 : e.1 = k
    · rw [if_pos h1]
      exact List.sublist_cons_self e t
    · rw [if_neg h1]
      exact List.Sublist.cons₂ e (lerase_sublist k t)

theorem lerase_sorted {k : Int} {l : List (Int × Int)}
    (hs : (l.map Prod.fst).Pairwise (· < ·)) :
    ((lerase k l).map Prod.fst).Pairwise (· < ·) :=
  List.Pairwise.sublist (List.Sublist.map Prod.fst (lerase_sublist k l)) hs

theorem mem_keys_lerase {x k : Int} :
    ∀ {l : List (Int × Int)}, (l.map Prod.fst).Pairwise (· < ·) →
      (x ∈ (lerase k l).map Prod.fst ↔ x ∈ l.map Prod.fst ∧ x ≠ k)
  | [], _ => by simp [lerase]
  | e :: t, hs => by
    have hhead : ∀ y ∈ t.map Prod.fst, e.1 < y := by
      rw [List.map_cons, List.pairwise_cons] at hs
      exact hs.1
    have htail : (t.map Prod.fst).Pairwise (· < ·) := by
      rw [List.map_cons, List.pairwise_cons] at hs
      exact hs.2
    rw [lerase]
    by_cases h1 : e.1 = k
    · rw [if_pos h1]
      constructor
      · intro hx
        have hlt := hhead x hx
        refine ⟨by simp [hx], ?_⟩
        omega
      · intro ⟨hx, hne⟩
        rw [List.map_cons] at hx
        rcases List.mem_cons.mp hx with heq | hx2
        · omega
        · exact hx2
    · rw [if_neg h1, List.map_cons, List.map_cons, List.mem_cons, List.mem_cons,
        mem_keys_lerase htail]
      constructor
      · intro hx
        rcases hx with rfl | ⟨hx1, hx2⟩
        · exact ⟨Or.inl rfl, fun hc => h1 hc⟩
        · exact ⟨Or.inr hx1, hx2⟩
      · intro ⟨hx, hne⟩
        rcases hx with rfl | hx
        · exact Or.inl rfl
        · exact Or.inr ⟨hx, hne⟩

theorem lookupKV_lerase_self {k : Int} {l : List (Int × Int)}
    (hs : (l.map Prod.fst).Pairwise (· < ·)) :
    lookupKV (lerase k l) k = none := by
  have : ¬ (lookupKV (lerase k l) k).isSome = true := by
    rw [lookupKV_isSome_iff, mem_keys_lerase hs]
    simp
  rw [← Option.not_isSome_iff_eq_none]
  exact this

/-- On a sorted list whose `p`-th key is `k`, `lerase` is exactly the
positional removal (left shift) that the engines implement. -/
theorem lerase_eq_remove_at {k : Int} :
    ∀ {es : List (Int × Int)} {p : Nat},
      (es.map Prod.fst).Pairwise (· < ·) →
      (h : p < es.length) →
      (es.get ⟨p, h⟩).1 = k →
      lerase k es = es.take p ++ es.drop (p + 1)
  | [], p, _, h, _ => by simp at h
  | e :: t, 0, _, _, hpk => by
    simp only [List.get] at hpk
    rw [lerase, if_pos hpk]
    rfl
  | e :: t, p + 1, hs, h, hpk => by
    have hhead : ∀ x ∈ t.map Prod.fst, e.1 < x := by
      rw [List.map_cons, List.pairwise_cons] at hs
      exact hs.1
    have htail : (t.map Prod.fst).Pairwise (· < ·) := by
      rw [List.map_cons, List.pairwise_cons] at hs
      exact hs.2
    have hlen : p < t.length := by simpa using h
    have hget : (t.get ⟨p, hlen⟩).1 = k := hpk
    have hk : e.1 < k := by
      have : (t.get ⟨p, hlen⟩).1 ∈ t.map Prod.fst :=
        List.mem_map_of_mem _ (List.get_mem t p hlen)
      rw [hget] at this
      exact hhead k this
    rw [lerase, if_neg (by omega), lerase_eq_remove_at htail hlen hget]
    rfl

theorem lookupKV_append_skip_left {a b : List (Int × Int)} {q : Int}
    (h : ∀ e ∈ a, e.1 ≠ q) : lookupKV (a ++ b) q = lookupKV b q := by
  induction a with
  | nil => rfl
  | cons e t ih =>
    rw [List.cons_append, lookupKV_cons_neg (h e (by simp))]
    exact ih (fun x hx => h x (List.mem_cons_of_mem e hx))

theorem lookupKV_eq_none_of_not_mem {l : List (Int × Int)} {q : Int}
    (h : q ∉ l.map Prod.fst) : lookupKV l q = none := by
  rw [← Option.not_isSome_iff_eq_none]
  rw [lookupKV_isSome_iff]
  exact h

theorem lookupKV_append_skip_right {a b : List (Int × Int)} {q : Int}
    (h : ∀ e ∈ b, e.1 ≠ q) : lookupKV (a ++ b) q = lookupKV a q := by
  induction a with
  | nil =>
    rw [List.nil_append, lookupKV_nil]
    apply lookupKV_eq_none_of_not_mem
    intro hc
    rcases List.mem_map.mp hc with ⟨e, he, hfst⟩
    exact h e he hfst
  | cons e t ih =>
    by_cases h1 : e.1 = q
    · rw [List.cons_append, lookupKV_cons_pos h1, lookupKV_cons_pos h1]
    · rw [List.cons_append, lookupKV_cons_neg h1, lookupKV_cons_neg h1]
      exact ih

/-! ## The CPython extension engine

Embedding of `src/python/bplustree_c_src/node_ops.c` and `tree_ops.c`.
A `BPlusNode` is a leaf (key/value slots) or a branch (separator keys
plus `num_keys + 1` children); the per-node `capacity` field is shared
tree-wide, so it is passed as a parameter.  Keys and values are Python
objects ordered by `fast_compare_lt`; totally ordered integer keys are
modelled as `Int` (comparison errors of non-comparable objects cannot
occur and the corresponding `-1` error paths are unreachable in the
embedding). -/

inductive PNode where
  | leaf (entries : List (Int × Int))
  | branch (keys : List Int) (children : List PNode)

structure PTree where
  root : PNode
  capacity : Nat
  size : Nat

/-- `node_find_position`: lower-bound binary search over a node's keys
(the Python engine's `(left + right) / 2` midpoint equals the fuelled
helper's `left + (right - left) / 2` on `Nat`). -/
def node_find_position (keys : List Int) (k : Int) : Nat :=
  binary_search_keys keys k

/-- The bisect-right descent rule shared by `tree_find_leaf` and
`tree_insert_recursive`: find the lower bound, then advance one child
to the right when the separator at that position equals the key. -/
def childIndex (ks : List Int) (k : Int) : Nat :=
  let pos := node_find_position ks k
  if pos < ks.length && ks.getD pos 0 == k then pos + 1 else pos

/-- Result of `node_insert_leaf`: value overwritten in place (`-2` in
the C source), plain insertion (`0`), or split (`1`, with the new right
node and the promoted key). -/
inductive LeafIns where
  | updated (entries : List (Int × Int))
  | inserted (entries : List (Int × Int))
  | split (left right : List (Int × Int)) (splitKey : Int)

/-- `node_insert_leaf` (node_ops.c:172-287).  The split path builds the
temp arrays `existing[0:pos] ++ [(k,v)] ++ existing[pos:]` and cuts them
at `mid = capacity / 2`; the promoted key is the first key of the new
right node. -/
def node_insert_leaf (capacity : Nat) (es : List (Int × Int)) (k v : Int) :
    LeafIns :=
  let pos := node_find_position (es.map Prod.fst) k
  if pos < es.length && (es.map Prod.fst).getD pos 0 == k then
    -- the stored key equals `k`, so overwriting the value slot keeps `(k, v)`
    .updated (es.set pos (k, v))
  else if capacity ≤ es.length then
    let temp := es.take pos ++ (k, v) :: es.drop pos
    let mid := capacity / 2
    .split (temp.take mid) (temp.drop mid) ((temp.drop mid).headD (k, v)).1
  else
    .inserted (es.take pos ++ (k, v) :: es.drop pos)

/-- Result of `node_insert_branch`. -/
inductive BranchIns where
  | inserted (keys : List Int) (children : List PNode)
  | split (keys : List Int) (children : List PNode)
      (rightKeys : List Int) (rightChildren : List PNode) (splitKey : Int)

/-- `node_insert_branch` (tree_ops.c:126-211).  On overflow the temp
arrays hold `capacity + 1` keys and `capacity + 2` children; the key at
`mid = capacity / 2` is promoted and kept in neither half. -/
def node_insert_branch (capacity : Nat) (ks : List Int) (cs : List PNode)
    (key : Int) (rightChild : PNode) : BranchIns :=
  let pos := node_find_position ks key
  if capacity ≤ ks.length then
    let tempKeys := ks.take pos ++ key :: ks.drop pos
    let tempChildren := cs.take (pos + 1) ++ rightChild :: cs.drop (pos + 1)
    let mid := capacity / 2
    .split (tempKeys.take mid) (tempChildren.take (mid + 1))
      (tempKeys.drop (mid + 1)) (tempChildren.drop (mid + 1))
      (tempKeys.getD mid key)
  else
    .inserted (ks.take pos ++ key :: ks.drop pos)
      (cs.take (pos + 1) ++ rightChild :: cs.drop (pos + 1))

/-- Result of `tree_insert_recursive`: update (no size change), plain
insert, or a split propagating upward. -/
inductive InsRec where
  | updated (n : PNode)
  | ok (n : PNode)
  | split (n : PNode) (newNode : PNode) (splitKey : Int)

/-- Result of the child-list walk inside the branch case. -/
inductive InsGoRes where
  | updated (cs : List PNode)
  | ok (cs : List PNode)
  | split (cs : List PNode) (newChild : PNode) (splitKey : Int)

mutual

/-- `tree_insert_recursive` (tree_ops.c:39-71): recurse into the child
selected by the bisect-right rule; a child split is absorbed by
`node_insert_branch`. -/
def tree_insert_recursive (c : Nat) : PNode → Int → Int → InsRec
  | .leaf es, k, v =>
    match node_insert_leaf c es k v with
    | .updated es2 => .updated (.leaf es2)
    | .inserted es2 => .ok (.leaf es2)
    | .split l r sk => .split (.leaf l) (.leaf r) sk
  | .branch ks cs, k, v =>
    match insGo c cs (childIndex ks k) k v with
    | .updated cs2 => .updated (.branch ks cs2)
    | .ok cs2 => .ok (.branch ks cs2)
    | .split cs2 nn sk =>
      match node_insert_branch c ks cs2 sk nn with
      | .inserted ks2 cs3 => .ok (.branch ks2 cs3)
      | .split ks2 cs3 rks rcs sk2 =>
        .split (.branch ks2 cs3) (.branch rks rcs) sk2

/-- Walk to the selected child (the C code indexes the child array
directly; walking the list to position `n` is its list counterpart). -/
def insGo (c : Nat) : List PNode → Nat → Int → Int → InsGoRes
  | [], _, _, _ => .ok []
  | ch :: rest, 0, k, v =>
    match tree_insert_recursive c ch k v with
    | .updated ch2 => .updated (ch2 :: rest)
    | .ok ch2 => .ok (ch2 :: rest)
    | .split ch2 nn sk => .split (ch2 :: rest) nn sk
  | ch :: rest, n + 1, k, v =>
    match insGo c rest n k v with
    | .updated cs2 => .updated (ch :: cs2)
    | .ok cs2 => .ok (ch :: cs2)
    | .split cs2 nn sk => .split (ch :: cs2) nn sk

end

/-- `tree_insert` (tree_ops.c:74-103): run the recursion from the root;
on result `-2` (update) the size is left unchanged, otherwise it is
incremented; a root split builds the new root
`branch [splitKey] [oldRoot, newNode]`. -/
def tree_insert (t : PTree) (k v : Int) : PTree :=
  match tree_insert_recursive t.capacity t.root k v with
  | .updated r => ⟨r, t.capacity, t.size⟩
  | .ok r => ⟨r, t.capacity, t.size + 1⟩
  | .split r nn sk => ⟨.branch [sk] [r, nn], t.capacity, t.size + 1⟩

mutual

/-- `tree_find_leaf` (tree_ops.c:11-36): descend with the bisect-right
rule to the leaf owning the key; the embedding returns that leaf's
entries. -/
def tree_find_leaf : PNode → Int → List (Int × Int)
  | .leaf es, _ => es
  | .branch ks cs, k => findGo cs (childIndex ks k) k

def findGo : List PNode → Nat → Int → List (Int × Int)
  | [], _, _ => []
  | ch :: _, 0, k => tree_find_leaf ch k
  | _ :: rest, n + 1, k => findGo rest n k

end

/-- `node_get` (node_ops.c:326-345): exact lookup at the lower bound. -/
def node_get (es : List (Int × Int)) (k : Int) : Option Int :=
  let pos := node_find_position (es.map Prod.fst) k
  if pos < es.length && (es.map Prod.fst).getD pos 0 == k then
    some ((es.getD pos (k, 0)).2)
  else none

/-- `tree_get` (tree_ops.c:119-123). -/
def tree_get (t : PTree) (k : Int) : Option Int :=
  node_get (tree_find_leaf t.root k) k

/-- `node_delete` (node_ops.c:290-323): remove the entry at the lower
bound when its key matches, shifting the rest left; `none` = not found
(return code `0`). -/
def node_delete (es : List (Int × Int)) (k : Int) : Option (List (Int × Int)) :=
  let pos := node_find_position (es.map Prod.fst) k
  if pos < es.length && (es.map Prod.fst).getD pos 0 == k then
    some (es.take pos ++ es.drop (pos + 1))
  else none

mutual

/-- Path-rebuilding form of `tree_delete` (tree_ops.c:106-116): the C
code mutates the leaf found by `tree_find_leaf` through a pointer; the
embedding rebuilds the spine along the same descent.  `none` = not
found, in which case the source performs no mutation at all. -/
def tree_delete_rec : PNode → Int → Option PNode
  | .leaf es, k => (node_delete es k).map PNode.leaf
  | .branch ks cs, k => (delGo cs (childIndex ks k) k).map (PNode.branch ks)

def delGo : List PNode → Nat → Int → Option (List PNode)
  | [], _, _ => none
  | ch :: rest, 0, k => (tree_delete_rec ch k).map (· :: rest)
  | ch :: rest, n + 1, k => (delGo rest n k).map (ch :: ·)

end

def tree_delete (t : PTree) (k : Int) : PTree × Bool :=
  match tree_delete_rec t.root k with
  | some r => (⟨r, t.capacity, t.size - 1⟩, true)
  | none => (t, false)

/-- A fresh tree (`BPlusTree_init`): one empty leaf as root, size 0;
the module rejects capacities below `MIN_CAPACITY = 4`. -/
def pnew (capacity : Nat) : PTree := ⟨.leaf [], capacity, 0⟩

mutual

/-- The leaf chain, in order: the in-place `next` pointers always link
the leaves in left-to-right tree order. -/
def pleaves : PNode → List (List (Int × Int))
  | .leaf es => [es]
  | .branch _ cs => pleavesGo cs

def pleavesGo : List PNode → List (List (Int × Int))
  | [] => []
  | ch :: rest => pleaves ch ++ pleavesGo rest

end

/-- All entries of a subtree, in leaf-chain order. -/
def toListN (n : PNode) : List (Int × Int) := (pleaves n).flatten

mutual

/-- Well-formedness of a subtree within the open-below/closed-above
key window `(lo, hi]`-style bounds (`lo` inclusive, `hi` exclusive):
sorted keys, counts within capacity, and `num_keys + 1` children per
branch with separator-consistent subtree windows. -/
def wfN (c : Nat) (lo hi : Option Int) : PNode → Bool
  | .leaf es => chainLt (es.map Prod.fst) && es.length ≤ c &&
      (es.map Prod.fst).all (fun x => inLo lo x && inHi hi x)
  | .branch ks cs => 1 ≤ ks.length && ks.length ≤ c && chainLt ks &&
      ks.all (fun x => inLo lo x && inHi hi x) && wfSeq c lo hi ks cs

def wfSeq (c : Nat) (lo hi : Option Int) : List Int → List PNode → Bool
  | [], [ch] => wfN c lo hi ch
  | s :: ks, ch :: chs => wfN c lo (some s) ch && wfSeq c (some s) hi ks chs
  | [], [] => false
  | [], _ :: _ :: _ => false
  | _ :: _, [] => false

end

/-- Tree-level invariant: root well-formed over the unbounded window,
capacity at least the module minimum, and the stored `size` agreeing
with the entry count. -/
def wfT (t : PTree) : Bool :=
  4 ≤ t.capacity && wfN t.capacity none none t.root &&
    t.size = (toListN t.root).length

/-! ### Bridging the list walkers to indexed access -/

/-- Default child used to state proof-free indexed access (the engines
never index out of range on well-formed trees). -/
def childD (cs : List PNode) (i : Nat) : PNode := cs.getD i (.leaf [])

theorem childD_cons_zero (ch : PNode) (rest : List PNode) :
    childD (ch :: rest) 0 = ch := rfl

theorem childD_cons_succ (ch : PNode) (rest : List PNode) (n : Nat) :
    childD (ch :: rest) (n + 1) = childD rest n := rfl

theorem findGo_eq (k : Int) : ∀ (cs : List PNode) (i : Nat), i < cs.length →
    findGo cs i k = tree_find_leaf (childD cs i) k
  | ch :: _, 0, _ => rfl
  | _ :: rest, n + 1, h =>
    findGo_eq k rest n (Nat.succ_lt_succ_iff.mp h)

theorem insGo_eq (c : Nat) (k v : Int) :
    ∀ (cs : List PNode) (i : Nat), i < cs.length →
    insGo c cs i k v =
      match tree_insert_recursive c (childD cs i) k v with
      | .updated ch2 => .updated (cs.set i ch2)
      | .ok ch2 => .ok (cs.set i ch2)
      | .split ch2 nn sk => .split (cs.set i ch2) nn sk
  | ch :: rest, 0, _ => by
    rw [insGo, childD_cons_zero]
    cases tree_insert_recursive c ch k v <;> rfl
  | ch :: rest, n + 1, h => by
    rw [insGo, insGo_eq c k v rest n (Nat.succ_lt_succ_iff.mp h), childD_cons_succ]
    cases tree_insert_recursive c (childD rest n) k v <;> rfl

theorem delGo_eq (k : Int) : ∀ (cs : List PNode) (i : Nat), i < cs.length →
    delGo cs i k = (tree_delete_rec (childD cs i) k).map (fun ch2 => cs.set i ch2)
  | ch :: rest, 0, _ => by
    rw [delGo, childD_cons_zero]
    cases tree_delete_rec ch k <;> rfl
  | ch :: rest, n + 1, h => by
    rw [delGo, delGo_eq k rest n (Nat.succ_lt_succ_iff.mp h), childD_cons_succ]
    cases tree_delete_rec (childD rest n) k <;> rfl

theorem pleavesGo_append :
    ∀ (a b : List PNode), pleavesGo (a ++ b) = pleavesGo a ++ pleavesGo b
  | [], _ => rfl
  | ch :: rest, b => by
    rw [List.cons_append, pleavesGo, pleavesGo, pleavesGo_append rest b,
      List.append_assoc]

theorem pleavesGo_mem :
    ∀ {cs : List PNode} {es : List (Int × Int)},
      es ∈ pleavesGo cs → ∃ ch ∈ cs, es ∈ pleaves ch
  | [], _, h => by simp [pleavesGo] at h
  | ch :: rest, es, h => by
    rw [pleavesGo, List.mem_append] at h
    rcases h with h | h
    · exact ⟨ch, by simp, h⟩
    · rcases pleavesGo_mem h with ⟨ch2, hch2, hes⟩
      exact ⟨ch2, List.mem_cons_of_mem ch hch2, hes⟩

/-- Entries of a subtree, via its leaves. -/
theorem mem_toListN_of_pleaves {n : PNode} {es : List (Int × Int)}
    {e : Int × Int} (hes : es ∈ pleaves n) (he : e ∈ es) : e ∈ toListN n := by
  rw [toListN]
  exact List.mem_flatten.mpr ⟨es, hes, he⟩

theorem toListN_leaf (es : List (Int × Int)) : toListN (.leaf es) = es := by
  simp [toListN, pleaves]

/-! ### Unfolding the well-formedness checks -/

theorem wfN_leaf_iff {c : Nat} {lo hi : Option Int} {es : List (Int × Int)} :
    wfN c lo hi (.leaf es) = true ↔
      ((es.map Prod.fst).Pairwise (· < ·) ∧ es.length ≤ c ∧
       ∀ x ∈ es.map Prod.fst, inLo lo x = true ∧ inHi hi x = true) := by
  rw [wfN]
  simp only [Bool.and_eq_true, List.all_eq_true, chainLt_iff, decide_eq_true_eq]
  tauto

theorem wfN_branch_iff {c : Nat} {lo hi : Option Int} {ks : List Int}
    {cs : List PNode} :
    wfN c lo hi (.branch ks cs) = true ↔
      (1 ≤ ks.length ∧ ks.length ≤ c ∧ ks.Pairwise (· < ·) ∧
       (∀ x ∈ ks, inLo lo x = true ∧ inHi hi x = true) ∧
       wfSeq c lo hi ks cs = true) := by
  rw [wfN]
  simp only [Bool.and_eq_true, List.all_eq_true, chainLt_iff, decide_eq_true_eq]
  tauto

theorem wfSeq_length {c : Nat} :
    ∀ {ks : List Int} {cs : List PNode} {lo hi : Option Int},
      wfSeq c lo hi ks cs = true → cs.length = ks.length + 1
  | [], [_], _, _, _ => rfl
  | [], [], _, _, h => by exact absurd h (by rw [wfSeq]; simp)
  | [], _ :: _ :: _, _, _, h => by exact absurd h (by rw [wfSeq]; simp)
  | _ :: _, [], _, _, h => by exact absurd h (by rw [wfSeq]; simp)
  | s :: ks, ch :: cs, lo, hi, h => by
    rw [wfSeq, Bool.and_eq_true] at h
    rw [List.length_cons, List.length_cons, wfSeq_length h.2]

/-! ### The descent index -/

/-- Characterisation of the bisect-right child index on sorted keys:
separators before it are `≤ k`, separators from it on are `> k`. -/
theorem childIndex_spec (ks : List Int) (k : Int) (hs : ks.Pairwise (· < ·)) :
    childIndex ks k ≤ ks.length ∧
    (∀ j, j < childIndex ks k → j < ks.length → ks.getD j 0 ≤ k) ∧
    (∀ j, childIndex ks k ≤ j → j < ks.length → k < ks.getD j 0) := by
  have hspec := binary_search_keys_spec ks k hs
  rw [childIndex]
  set pos := node_find_position ks k with hpos
  have hposle : pos ≤ ks.length := hspec.1
  by_cases hb : pos < ks.length ∧ ks.getD pos 0 = k
  · rw [if_pos (by
      simp only [Bool.and_eq_true, decide_eq_true_eq, beq_iff_eq]
      exact ⟨hb.1, hb.2⟩)]
    refine ⟨by omega, ?_, ?_⟩
    · intro j hj hjlen
      rcases Nat.lt_or_ge j pos with hlt | hge
      · exact le_of_lt (hspec.2.1 j hlt)
      · have : j = pos := by omega
        subst this
        omega
    · intro j hj hjlen
      have hjpos : pos < j := by omega
      have := List.pairwise_iff_getElem.mp hs pos j hb.1 hjlen hjpos
      rw [← List.getD_eq_getElem ks 0 hb.1, ← List.getD_eq_getElem ks 0 hjlen]
        at this
      omega
  · have hcond : ¬ (pos < ks.length && ks.getD pos 0 == k) = true := by
      simp only [Bool.and_eq_true, decide_eq_true_eq, beq_iff_eq]
      tauto
    rw [if_neg hcond]
    refine ⟨hposle, ?_, ?_⟩
    · intro j hj _
      exact le_of_lt (hspec.2.1 j hj)
    · intro j hj hjlen
      have hgej := hspec.2.2 j hj hjlen
      by_cases hjp : j = pos
      · have hne : ks.getD pos 0 ≠ k := fun hc => hb ⟨hjp ▸ hjlen, hc⟩
        subst hjp
        omega
      · have hposlen : pos < ks.length := by omega
        have hne : ks.getD pos 0 ≠ k := fun hc => hb ⟨hposlen, hc⟩
        have hgep := hspec.2.2 pos (le_refl _) hposlen
        have hmono := List.pairwise_iff_getElem.mp hs pos j hposlen hjlen (by omega)
        rw [← List.getD_eq_getElem ks 0 hposlen, ← List.getD_eq_getElem ks 0 hjlen]
          at hmono
        omega

/-- The lower bound is determined by its pointwise characterisation. -/
theorem binary_search_keys_eq_of (ks : List Int) (x : Int) (i : Nat)
    (hs : ks.Pairwise (· < ·)) (hile : i ≤ ks.length)
    (hlt : ∀ j, j < i → ks.getD j 0 < x)
    (hge : ∀ j, i ≤ j → j < ks.length → ¬ ks.getD j 0 < x) :
    binary_search_keys ks x = i := by
  have hspec := binary_search_keys_spec ks x hs
  by_contra hne
  rcases Nat.lt_or_ge (binary_search_keys ks x) i with hlt2 | hge2
  · have h1 := hlt (binary_search_keys ks x) hlt2
    have h2 := hspec.2.2 (binary_search_keys ks x) (le_refl _) (by omega)
    omega
  · have hik : i < binary_search_keys ks x := by omega
    have h1 := hspec.2.1 i hik
    have h2 := hge i (le_refl _) (by
      have := hspec.1
      omega)
    omega

/-- Strong induction over the nested node type. -/
theorem PNode.strongInduction (P : PNode → Prop)
    (hleaf : ∀ es, P (.leaf es))
    (hbranch : ∀ ks cs, (∀ ch ∈ cs, P ch) → P (.branch ks cs)) :
    ∀ n, P n := by
  intro n
  have key : ∀ m : Nat, ∀ n : PNode, sizeOf n ≤ m → P n := by
    intro m
    induction m with
    | zero =>
      intro n hn
      cases n <;> simp at hn <;> omega
    | succ m ih =>
      intro n hn
      cases n with
      | leaf es => exact hleaf es
      | branch ks cs =>
        refine hbranch ks cs (fun ch hch => ih ch ?_)
        have := List.sizeOf_lt_of_mem hch
        simp at hn
        omega
  exact key (sizeOf n) n (le_refl _)

/-- Every entry of a well-formed subtree lies in its key window. -/
theorem wfN_entry_bounds :
    ∀ (n : PNode) {c : Nat} {lo hi : Option Int}, wfN c lo hi n = true →
      ∀ e ∈ toListN n, inLo lo e.1 = true ∧ inHi hi e.1 = true := by
  intro n
  induction n using PNode.strongInduction with
  | hleaf es =>
    intro c lo hi hwf e he
    rw [toListN_leaf] at he
    exact (wfN_leaf_iff.mp hwf).2.2 e.1 (List.mem_map_of_mem _ he)
  | hbranch ks cs hih =>
    intro c lo hi hwf e he
    obtain ⟨-, -, hsorted, hksb, hseq⟩ := wfN_branch_iff.mp hwf
    have inner : ∀ (ks2 : List Int) (cs2 : List PNode) (lo2 : Option Int),
        (∀ ch ∈ cs2, ch ∈ cs) → wfSeq c lo2 hi ks2 cs2 = true →
        (∀ s ∈ ks2, inLo lo2 s = true ∧ inHi hi s = true) →
        ks2.Pairwise (· < ·) →
        ∀ ch ∈ cs2, ∀ e2 ∈ toListN ch,
          inLo lo2 e2.1 = true ∧ inHi hi e2.1 = true := by
      intro ks2
      induction ks2 with
      | nil =>
        intro cs2 lo2 hmem hseq2 _ _ ch hch e2 he2
        match cs2, hch with
        | [ch0], hch =>
          rw [wfSeq] at hseq2
          have : ch = ch0 := by simpa using hch
          subst this
          exact hih ch (hmem ch (by simp)) hseq2 e2 he2
      | cons s ks2 ihk =>
        intro cs2 lo2 hmem hseq2 hbnd hsort2 ch hch e2 he2
        match cs2, hch with
        | ch0 :: cs2, hch =>
          rw [wfSeq, Bool.and_eq_true] at hseq2
          rcases List.mem_cons.mp hch with rfl | hch2
          · have hb := hih ch (hmem ch (by simp)) hseq2.1 e2 he2
            exact ⟨hb.1, inHi_weaken hb.2 (hbnd s (by simp)).2⟩
          · have htl := ihk cs2 (some s)
              (fun x hx => hmem x (List.mem_cons_of_mem ch0 hx)) hseq2.2
              (fun x hx => ⟨by
                  rw [inLo_some]
                  exact le_of_lt ((List.pairwise_cons.mp hsort2).1 x hx),
                (hbnd x (List.mem_cons_of_mem s hx)).2⟩)
              (List.pairwise_cons.mp hsort2).2
              ch hch2 e2 he2
            exact ⟨inLo_weaken htl.1 (hbnd s (by simp)).1, htl.2⟩
    have he2 : ∃ es ∈ pleavesGo cs, e ∈ es := by
      rw [toListN] at he
      have := List.mem_flatten.mp he
      simpa [pleaves] using this
    obtain ⟨es, hes, hees⟩ := he2
    obtain ⟨ch, hch, hesch⟩ := pleavesGo_mem hes
    exact inner ks cs lo (fun x hx => hx) hseq
      (fun s hsm => hksb s hsm) hsorted ch hch e
      (mem_toListN_of_pleaves hesch hees)

/-- Entry bounds across a separator/child sequence. -/
theorem wfSeq_entry_bounds {c : Nat} {hi : Option Int} :
    ∀ {ks2 : List Int} {cs2 : List PNode} {lo2 : Option Int},
      wfSeq c lo2 hi ks2 cs2 = true →
      (∀ s ∈ ks2, inLo lo2 s = true ∧ inHi hi s = true) →
      ks2.Pairwise (· < ·) →
      ∀ ch ∈ cs2, ∀ e ∈ toListN ch, inLo lo2 e.1 = true ∧ inHi hi e.1 = true := by
  intro ks2
  induction ks2 with
  | nil =>
    intro cs2 lo2 hseq2 _ _ ch hch e2 he2
    match cs2, hch with
    | [ch0], hch =>
      rw [wfSeq] at hseq2
      have : ch = ch0 := by simpa using hch
      subst this
      exact wfN_entry_bounds ch hseq2 e2 he2
  | cons s ks2 ihk =>
    intro cs2 lo2 hseq2 hbnd hsort2 ch hch e2 he2
    match cs2, hch with
    | ch0 :: cs2, hch =>
      rw [wfSeq, Bool.and_eq_true] at hseq2
      rcases List.mem_cons.mp hch with rfl | hch2
      · have hb := wfN_entry_bounds ch hseq2.1 e2 he2
        exact ⟨hb.1, inHi_weaken hb.2 (hbnd s (by simp)).2⟩
      · have htl := ihk hseq2.2
          (fun x hx => ⟨by
              rw [inLo_some]
              exact le_of_lt ((List.pairwise_cons.mp hsort2).1 x hx),
            (hbnd x (List.mem_cons_of_mem s hx)).2⟩)
          (List.pairwise_cons.mp hsort2).2
          ch hch2 e2 he2
        exact ⟨inLo_weaken htl.1 (hbnd s (by simp)).1, htl.2⟩

theorem splice_take_drop {α : Type} :
    ∀ (cs : List α) (i : Nat) (a b : α), i < cs.length →
      (cs.set i a).take (i + 1) ++ b :: (cs.set i a).drop (i + 1) =
        cs.take i ++ a :: b :: cs.drop (i + 1)
  | _ :: _, 0, _, _, _ => rfl
  | ch :: rest, i + 1, a, b, h => by
    have := splice_take_drop rest i a b (Nat.succ_lt_succ_iff.mp h)
    simp only [List.set_cons_succ, List.take_succ_cons, List.drop_succ_cons,
      List.cons_append, List.cons.injEq, true_and]
    exact this

/-- The zipper view of a separator/child sequence at child index `i`:
the child's own key window, the window's relation to the separators,
key bounds for the leaves on either side, and rebuilding principles
for replacing the child or for splicing in a split child pair. -/
theorem wfSeq_zipper {c : Nat} {hi : Option Int} :
    ∀ (cs : List PNode) (ks : List Int) (lo : Option Int) (i : Nat),
      wfSeq c lo hi ks cs = true → ks.Pairwise (· < ·) →
      (∀ x ∈ ks, inLo lo x = true ∧ inHi hi x = true) →
      i < cs.length →
      ∃ loI hiI : Option Int,
        wfN c loI hiI (childD cs i) = true ∧
        (i = 0 → loI = lo) ∧
        (0 < i → loI = some (ks.getD (i - 1) 0)) ∧
        (i = ks.length → hiI = hi) ∧
        (i < ks.length → hiI = some (ks.getD i 0)) ∧
        (∀ es ∈ pleavesGo (cs.take i), ∀ e ∈ es, inHi loI e.1 = true) ∧
        (∀ es ∈ pleavesGo (cs.drop (i + 1)), ∀ e ∈ es, inLo hiI e.1 = true) ∧
        (∀ ch2, wfN c loI hiI ch2 = true →
          wfSeq c lo hi ks (cs.set i ch2) = true) ∧
        (∀ sk chL chR, wfN c loI (some sk) chL = true →
          wfN c (some sk) hiI chR = true →
          wfSeq c lo hi (ks.take i ++ sk :: ks.drop i)
            (cs.take i ++ chL :: chR :: cs.drop (i + 1)) = true)
  | [], ks, lo, i, _, _, _, hi2 => absurd hi2 (by simp)
  | ch :: cs2, [], lo, i, hseq, _, _, hilen => by
    match cs2, hseq with
    | [], hseq =>
      rw [wfSeq] at hseq
      have hi0 : i = 0 := by simpa using hilen
      subst hi0
      refine ⟨lo, hi, hseq, fun _ => rfl, fun hcon => absurd hcon (by omega),
        fun _ => rfl, fun hcon => absurd hcon (by simp), ?_, ?_, ?_, ?_⟩
      · intro es hes
        simp [pleavesGo] at hes
      · intro es hes
        simp [pleavesGo] at hes
      · intro ch2 hch2
        rw [List.set_cons_zero, wfSeq]
        exact hch2
      · intro sk chL chR hL hR
        simp only [List.take_nil, List.drop_nil, List.nil_append,
          List.take_zero, List.drop_succ_cons, List.drop_zero]
        rw [wfSeq, Bool.and_eq_true]
        exact ⟨hL, by rw [wfSeq]; exact hR⟩
  | ch :: cs2, s :: ks2, lo, 0, hseq, hsort, hksb, hilen => by
    rw [wfSeq, Bool.and_eq_true] at hseq
    have hlen2 := wfSeq_length hseq.2
    refine ⟨lo, some s, hseq.1, fun _ => rfl, by omega, by
        intro hcon
        rw [List.length_cons] at hcon
        omega,
      ?_, ?_, ?_, ?_, ?_⟩
    · intro _
      rfl
    · intro es hes
      simp [pleavesGo] at hes
    · intro es hes e he
      rw [List.drop_succ_cons, List.drop_zero] at hes
      obtain ⟨ch2, hch2, hes2⟩ := pleavesGo_mem hes
      exact (wfSeq_entry_bounds hseq.2
        (fun x hx => ⟨by
            rw [inLo_some]
            exact le_of_lt ((List.pairwise_cons.mp hsort).1 x hx),
          (hksb x (List.mem_cons_of_mem s hx)).2⟩)
        (List.pairwise_cons.mp hsort).2 ch2 hch2 e
        (mem_toListN_of_pleaves hes2 he)).1
    · intro ch2 hch2
      rw [List.set_cons_zero, wfSeq, Bool.and_eq_true]
      exact ⟨hch2, hseq.2⟩
    · intro sk chL chR hL hR
      simp only [List.take_zero, List.drop_zero, List.nil_append]
      rw [wfSeq, Bool.and_eq_true]
      refine ⟨hL, ?_⟩
      rw [wfSeq, Bool.and_eq_true]
      exact ⟨hR, hseq.2⟩
  | ch :: cs2, s :: ks2, lo, j + 1, hseq, hsort, hksb, hilen => by
    rw [wfSeq, Bool.and_eq_true] at hseq
    have hlen2 := wfSeq_length hseq.2
    have hjlen : j < cs2.length := by
      rw [List.length_cons] at hilen
      omega
    have hsort2 := (List.pairwise_cons.mp hsort).2
    have hshead := (List.pairwise_cons.mp hsort).1
    obtain ⟨loI, hiI, h1, h2, h3, h4, h5, h6, h7, h8, h9⟩ :=
      wfSeq_zipper cs2 ks2 (some s) j hseq.2 hsort2
        (fun x hx => ⟨by
            rw [inLo_some]
            exact le_of_lt (hshead x hx),
          (hksb x (List.mem_cons_of_mem s hx)).2⟩) hjlen
    have hloIs : inLo loI s = false ∨ (∀ x : Int, inLo loI x = true → s ≤ x) := by
      rcases Nat.eq_zero_or_pos j with rfl | hjpos
      · rw [h2 rfl]
        right
        intro x hx
        rw [inLo_some] at hx
        exact hx
      · rw [h3 hjpos]
        right
        intro x hx
        rw [inLo_some] at hx
        have hkm : ks2.getD (j - 1) 0 ∈ ks2 := by
          have hjl : j - 1 < ks2.length := by omega
          rw [List.getD_eq_getElem ks2 0 hjl]
          exact List.getElem_mem hjl
        exact le_trans (le_of_lt (hshead _ hkm)) hx
    refine ⟨loI, hiI, h1, by omega, ?_, ?_, ?_, ?_, ?_, ?_, ?_⟩
    · intro _
      rcases Nat.eq_zero_or_pos j with rfl | hjpos
      · rw [h2 rfl]
        rfl
      · rw [h3 hjpos]
        have : j + 1 - 1 = (j - 1) + 1 := by omega
        rw [this]
        rfl
    · intro hjk
      rw [List.length_cons] at hjk
      exact h4 (by omega)
    · intro hjk
      rw [List.length_cons] at hjk
      rw [h5 (by omega)]
      rfl
    · intro es hes e he
      rw [List.take_succ_cons, pleavesGo, List.mem_append] at hes
      rcases hes with hes | hes
      · have hb := wfN_entry_bounds ch hseq.1 e (mem_toListN_of_pleaves hes he)
        rcases hloIs with hcon | hge
        · cases loI with
          | none => rfl
          | some a =>
            rw [inLo] at hcon
            rw [inHi_some]
            rw [inHi_some] at hb
            simp at hcon
            omega
        · cases loI with
          | none => rfl
          | some a =>
            rw [inHi_some]
            have := hge a (by rw [inLo_some])
            rw [inHi_some] at hb
            omega
      · exact h6 es hes e he
    · intro es hes e he
      rw [List.drop_succ_cons] at hes
      exact h7 es hes e he
    · intro ch2 hch2
      rw [List.set_cons_succ, wfSeq, Bool.and_eq_true]
      exact ⟨hseq.1, h8 ch2 hch2⟩
    · intro sk chL chR hL hR
      rw [List.take_succ_cons, List.drop_succ_cons, List.take_succ_cons,
        List.drop_succ_cons, List.cons_append, List.cons_append, wfSeq,
        Bool.and_eq_true]
      exact ⟨hseq.1, h9 sk chL chR hL hR⟩

/-- Strict lower bound check (used for promoted keys, which always lie
strictly inside their child's window). -/
def inLoStrict (lo : Option Int) (k : Int) : Bool :=
  match lo with
  | none => true
  | some a => a < k

theorem inLoStrict_le {lo : Option Int} {k : Int}
    (h : inLoStrict lo k = true) : inLo lo k = true := by
  cases lo with
  | none => rfl
  | some a =>
    rw [inLo_some]
    rw [show inLoStrict (some a) k = decide (a < k) from rfl,
      decide_eq_true_eq] at h
    omega

theorem list_eq_take_getD_drop {α : Type} (d : α) :
    ∀ (l : List α) (i : Nat), i < l.length →
      l = l.take i ++ l.getD i d :: l.drop (i + 1)
  | a :: t, 0, _ => rfl
  | a :: t, i + 1, h => by
    rw [List.take_succ_cons, List.drop_succ_cons, List.cons_append]
    have := list_eq_take_getD_drop d t i (Nat.succ_lt_succ_iff.mp h)
    rw [show (a :: t).getD (i + 1) d = t.getD i d from rfl]
    exact congrArg (a :: ·) this

theorem getD_mem_of_lt {α : Type} (d : α) {l : List α} {i : Nat}
    (h : i < l.length) : l.getD i d ∈ l := by
  rw [List.getD_eq_getElem l d h]
  exact List.getElem_mem h

/-- Inserting a key strictly between its neighbours keeps strict
sortedness. -/
theorem pairwise_insert_at {ks : List Int} {x : Int} {i : Nat}
    (hs : ks.Pairwise (· < ·))
    (htake : ∀ y ∈ ks.take i, y < x) (hdrop : ∀ y ∈ ks.drop i, x < y) :
    (ks.take i ++ x :: ks.drop i).Pairwise (· < ·) := by
  rw [List.pairwise_append]
  refine ⟨List.Pairwise.sublist (List.take_sublist i ks) hs, ?_, ?_⟩
  · rw [List.pairwise_cons]
    exact ⟨hdrop, List.Pairwise.sublist (List.drop_sublist i ks) hs⟩
  · intro y hy z hz
    rcases List.mem_cons.mp hz with rfl | hz
    · exact htake y hy
    · exact lt_trans (htake y hy) (hdrop z hz)

/-- Cutting a separator/child sequence at a separator yields two
well-formed sequences around it. -/
theorem wfSeq_cut {c : Nat} {hi : Option Int} {m : Int} {suffix : List Int} :
    ∀ (prefix2 : List Int) (tcs : List PNode) (lo : Option Int),
      wfSeq c lo hi (prefix2 ++ m :: suffix) tcs = true →
      wfSeq c lo (some m) prefix2 (tcs.take (prefix2.length + 1)) = true ∧
      wfSeq c (some m) hi suffix (tcs.drop (prefix2.length + 1)) = true
  | [], tcs, lo, hseq => by
    match tcs, hseq with
    | ch :: cs2, hseq =>
      rw [List.nil_append, wfSeq, Bool.and_eq_true] at hseq
      constructor
      · rw [List.length_nil, List.take_succ_cons, List.take_zero, wfSeq]
        exact hseq.1
      · rw [List.length_nil, List.drop_succ_cons, List.drop_zero]
        exact hseq.2
  | x :: prefix2, tcs, lo, hseq => by
    match tcs, hseq with
    | ch :: cs2, hseq =>
      rw [List.cons_append, wfSeq, Bool.and_eq_true] at hseq
      have ih := wfSeq_cut prefix2 cs2 (some x) hseq.2
      constructor
      · rw [List.length_cons, List.take_succ_cons, wfSeq, Bool.and_eq_true]
        exact ⟨hseq.1, ih.1⟩
      · rw [List.length_cons, List.drop_succ_cons]
        exact ih.2

/-- Keys of the two halves of a sorted entry list around the cut. -/
theorem entries_take_drop_lt {l : List (Int × Int)} {m : Nat}
    (hs : (l.map Prod.fst).Pairwise (· < ·)) :
    ∀ e ∈ l.take m, ∀ e2 ∈ l.drop m, e.1 < e2.1 := by
  intro e he e2 he2
  have hsplit : (l.map Prod.fst).take m ++ (l.map Prod.fst).drop m =
      l.map Prod.fst := List.take_append_drop _ _
  have hpw : ((l.map Prod.fst).take m ++ (l.map Prod.fst).drop m).Pairwise
      (· < ·) := by
    rw [hsplit]
    exact hs
  have := (List.pairwise_append.mp hpw).2.2 e.1
    (by
      rw [← List.map_take]
      exact List.mem_map_of_mem _ he) e2.1
    (by
      rw [← List.map_drop]
      exact List.mem_map_of_mem _ he2)
  exact this

/-- Full functional characterisation of `node_insert_leaf` on a
well-formed leaf: updates hit existing keys, plain inserts keep the
window, and a split cuts the merged `C+1`-entry sequence at
`mid = capacity / 2`, promoting the first key of the right half. -/
theorem node_insert_leaf_spec {c : Nat} {lo hi : Option Int}
    {es : List (Int × Int)} {k v : Int}
    (hc : 4 ≤ c) (hwf : wfN c lo hi (.leaf es) = true)
    (hklo : inLo lo k = true) (hkhi : inHi hi k = true) :
    match node_insert_leaf c es k v with
    | .updated es2 => wfN c lo hi (.leaf es2) = true ∧
        k ∈ es.map Prod.fst ∧ es2 = linsert k v es
    | .inserted es2 => wfN c lo hi (.leaf es2) = true ∧
        k ∉ es.map Prod.fst ∧ es2 = linsert k v es ∧ es.length < c
    | .split l r sk => wfN c lo (some sk) (.leaf l) = true ∧
        wfN c (some sk) hi (.leaf r) = true ∧
        inLoStrict lo sk = true ∧ inHi hi sk = true ∧
        k ∉ es.map Prod.fst ∧ c ≤ es.length ∧
        l = (linsert k v es).take (c / 2) ∧
        r = (linsert k v es).drop (c / 2) := by
  obtain ⟨hsort, hlen, hbounds⟩ := wfN_leaf_iff.mp hwf
  have hmerged_bounds : ∀ x ∈ (linsert k v es).map Prod.fst,
      inLo lo x = true ∧ inHi hi x = true := by
    intro x hx
    rcases mem_keys_linsert.mp hx with rfl | hx
    · exact ⟨hklo, hkhi⟩
    · exact hbounds x hx
  rw [node_insert_leaf]
  simp only []
  set pos := node_find_position (es.map Prod.fst) k with hposdef
  by_cases hhit : pos < es.length ∧ (es.map Prod.fst).getD pos 0 = k
  · rw [if_pos (by
      simp only [Bool.and_eq_true, decide_eq_true_eq, beq_iff_eq]
      exact ⟨hhit.1, hhit.2⟩)]
    have hmaplen : pos < (es.map Prod.fst).length := by
      rw [List.length_map]
      exact hhit.1
    have hmem : k ∈ es.map Prod.fst := by
      rw [mem_iff_lowerBound _ _ hsort]
      exact ⟨by rw [hposdef] at hmaplen; exact hmaplen, hhit.2⟩
    have hget : (es.get ⟨pos, hhit.1⟩).1 = k := by
      have h2 := hhit.2
      rw [List.getD_eq_getElem _ 0 hmaplen, List.getElem_map] at h2
      exact h2
    have hset_eq : es.set pos (k, v) = linsert k v es := by
      rw [List.set_eq_take_cons_drop (k, v) hhit.1,
        linsert_eq_set hsort hhit.1 hget]
    refine ⟨?_, hmem, hset_eq⟩
    rw [hset_eq, wfN_leaf_iff]
    refine ⟨linsert_sorted hsort, ?_, hmerged_bounds⟩
    rw [length_linsert_of_mem hsort hmem]
    exact hlen
  · have hcond : ¬ (pos < es.length && (es.map Prod.fst).getD pos 0 == k) = true := by
      simp only [Bool.and_eq_true, decide_eq_true_eq, beq_iff_eq]
      tauto
    rw [if_neg hcond]
    have hnm : k ∉ es.map Prod.fst := by
      have hbspos : binary_search_keys (es.map Prod.fst) k = pos := by
        rw [hposdef]
        rfl
      rw [mem_iff_lowerBound _ _ hsort, List.length_map, hbspos]
      tauto
    have htemp : es.take pos ++ (k, v) :: es.drop pos = linsert k v es := by
      rw [hposdef]
      exact (linsert_eq_insert_at hsort hnm).symm
    have hmsort := linsert_sorted (k := k) (v := v) hsort
    have hmlen : (linsert k v es).length = es.length + 1 :=
      length_linsert_of_not_mem hnm
    by_cases hfull : c ≤ es.length
    · rw [if_pos (by exact hfull)]
      rw [htemp]
      set merged := linsert k v es with hmergeddef
      set mid := c / 2 with hmiddef
      have hmidlt : mid < merged.length := by omega
      obtain ⟨hd, tl, hdrop⟩ : ∃ hd tl, merged.drop mid = hd :: tl := by
        rcases h : merged.drop mid with _ | ⟨hd, tl⟩
        · have := List.length_drop mid merged
          rw [h] at this
          simp at this
          omega
        · exact ⟨hd, tl, rfl⟩
      have hcross := entries_take_drop_lt (m := mid) hmsort
      have hsk_take : ∀ e ∈ merged.take mid, e.1 < hd.1 := by
        intro e he
        exact hcross e he hd (by rw [hdrop]; simp)
      have hdropsorted : ((merged.drop mid).map Prod.fst).Pairwise (· < ·) :=
        List.Pairwise.sublist
          (List.Sublist.map _ (List.drop_sublist mid merged)) hmsort
      have hsk_drop : ∀ e ∈ merged.drop mid, hd.1 ≤ e.1 := by
        intro e he
        rw [hdrop] at he
        rcases List.mem_cons.mp he with rfl | he2
        · exact le_refl _
        · rw [hdrop, List.map_cons, List.pairwise_cons] at hdropsorted
          exact le_of_lt (hdropsorted.1 e.1 (List.mem_map_of_mem _ he2))
      have hskmem : hd ∈ merged := by
        have : hd ∈ merged.drop mid := by
          rw [hdrop]
          simp
        exact List.mem_of_mem_drop this
      have hskb := hmerged_bounds hd.1 (List.mem_map_of_mem _ hskmem)
      have htake_bounds : ∀ x ∈ (merged.take mid).map Prod.fst,
          inLo lo x = true ∧ inHi (some hd.1) x = true := by
        intro x hx
        obtain ⟨e, he, rfl⟩ := List.mem_map.mp hx
        refine ⟨(hmerged_bounds e.1 (List.mem_map_of_mem _
          (List.mem_of_mem_take he))).1, ?_⟩
        rw [inHi_some]
        exact hsk_take e he
      have hdrop_bounds : ∀ x ∈ (merged.drop mid).map Prod.fst,
          inLo (some hd.1) x = true ∧ inHi hi x = true := by
        intro x hx
        obtain ⟨e, he, rfl⟩ := List.mem_map.mp hx
        refine ⟨?_, (hmerged_bounds e.1 (List.mem_map_of_mem _
          (List.mem_of_mem_drop he))).2⟩
        rw [inLo_some]
        exact hsk_drop e he
      have hsk_head : ((merged.drop mid).headD (k, v)).1 = hd.1 := by
        rw [hdrop]
        rfl
      refine ⟨?_, ?_, ?_, ?_, hnm, hfull, rfl, rfl⟩
      · rw [hsk_head, wfN_leaf_iff]
        refine ⟨List.Pairwise.sublist
          (List.Sublist.map _ (List.take_sublist mid merged)) hmsort, ?_,
          htake_bounds⟩
        rw [List.length_take]
        omega
      · rw [hsk_head, wfN_leaf_iff]
        refine ⟨hdropsorted, ?_, hdrop_bounds⟩
        rw [List.length_drop]
        omega
      · rw [hsk_head]
        obtain ⟨m0, mrest, hm0⟩ : ∃ m0 mrest, merged = m0 :: mrest := by
          rcases h : merged with _ | ⟨m0, mrest⟩
          · rw [h] at hmlen
            simp at hmlen
          · exact ⟨m0, mrest, rfl⟩
        have hm0take : m0 ∈ merged.take mid := by
          rw [hm0]
          rcases Nat.exists_eq_add_of_lt (show 0 < mid by omega)
            with ⟨mid2, hmid2⟩
          rw [hmid2]
          simp [List.take_succ_cons]
        have hm0lt : m0.1 < hd.1 := hsk_take m0 hm0take
        have hm0b := hmerged_bounds m0.1
          (List.mem_map_of_mem _ (by rw [hm0]; simp))
        cases lo with
        | none => rfl
        | some a =>
          rw [show inLoStrict (some a) hd.1 = decide (a < hd.1) from rfl,
            decide_eq_true_eq]
          rw [inLo_some] at hm0b
          omega
      · rw [hsk_head]
        exact hskb.2
    · rw [if_neg hfull]
      rw [htemp]
      refine ⟨?_, hnm, rfl, by omega⟩
      rw [wfN_leaf_iff]
      exact ⟨hmsort, by omega, hmerged_bounds⟩

theorem take_mem_of_index {ks : List Int} {i : Nat} {P : Int → Prop}
    (h : ∀ j, j < i → j < ks.length → P (ks.getD j 0)) :
    ∀ y ∈ ks.take i, P y := by
  intro y hy
  obtain ⟨j, hj, hje⟩ := List.mem_take_iff_getElem.mp hy
  have hjlen : j < ks.length := by omega
  have := h j (by omega) hjlen
  rw [List.getD_eq_getElem ks 0 hjlen, hje] at this
  exact this

theorem drop_mem_of_index {ks : List Int} {i : Nat} {P : Int → Prop}
    (h : ∀ j, i ≤ j → j < ks.length → P (ks.getD j 0)) :
    ∀ y ∈ ks.drop i, P y := by
  intro y hy
  obtain ⟨j, hj, hje⟩ := List.mem_iff_getElem.mp hy
  rw [List.length_drop] at hj
  have hlen : i + j < ks.length := by omega
  have := h (i + j) (by omega) hlen
  rw [List.getD_eq_getElem ks 0 hlen] at this
  rw [List.getElem_drop] at hje
  rw [hje] at this
  exact this

theorem length_insert_at {α : Type} {l : List α} {x : α} {i : Nat}
    (h : i ≤ l.length) : (l.take i ++ x :: l.drop i).length = l.length + 1 := by
  rw [List.length_append, List.length_take, List.length_cons, List.length_drop]
  omega

theorem mem_insert_at {α : Type} {l : List α} {x y : α} {i : Nat} :
    y ∈ l.take i ++ x :: l.drop i ↔ y = x ∨ y ∈ l := by
  rw [List.mem_append, List.mem_cons]
  constructor
  · intro h
    rcases h with h | h | h
    · exact Or.inr (List.mem_of_mem_take h)
    · exact Or.inl h
    · exact Or.inr (List.mem_of_mem_drop h)
  · intro h
    rcases h with h | h
    · exact Or.inr (Or.inl h)
    · conv at h => rw [← List.take_append_drop i l]
      rcases List.mem_append.mp h with h | h
      · exact Or.inl h
      · exact Or.inr (Or.inr h)

theorem sorted_take_lt_getD {ks : List Int} {m : Nat}
    (hs : ks.Pairwise (· < ·)) (hm : m < ks.length) :
    ∀ y ∈ ks.take m, y < ks.getD m 0 := by
  refine take_mem_of_index (fun j hj hjlen => ?_)
  have := List.pairwise_iff_getElem.mp hs j m hjlen hm hj
  rw [← List.getD_eq_getElem ks 0 hjlen, ← List.getD_eq_getElem ks 0 hm] at this
  exact this

theorem sorted_drop_gt_getD {ks : List Int} {m : Nat}
    (hs : ks.Pairwise (· < ·)) (hm : m < ks.length) :
    ∀ y ∈ ks.drop (m + 1), ks.getD m 0 < y := by
  refine drop_mem_of_index (fun j hj hjlen => ?_)
  have := List.pairwise_iff_getElem.mp hs m j hm hjlen (by omega)
  rw [← List.getD_eq_getElem ks 0 hjlen, ← List.getD_eq_getElem ks 0 hm] at this
  exact this

/-- Key bound for the leaves strictly left of the insertion path. -/
def keysLtIn (A : List (List (Int × Int))) (k : Int) : Prop :=
  ∀ es ∈ A, ∀ e ∈ es, e.1 < k

/-- Key bound for the leaves strictly right of the insertion path. -/
def keysGtIn (B : List (List (Int × Int))) (k : Int) : Prop :=
  ∀ es ∈ B, ∀ e ∈ es, k < e.1

/-- The inductive contract of `tree_insert_recursive` on a well-formed
subtree: the target leaf (`tree_find_leaf`) is replaced in the leaf
chain either by its merged form or, when it was full, by the two halves
of the merged `C+1`-entry sequence cut at `mid = capacity / 2`; windows
are preserved and a propagated split key separates the two returned
subtrees. -/
def InsSpecAt (c : Nat) (lo hi : Option Int) (n : PNode) (k v : Int) : Prop :=
  match tree_insert_recursive c n k v with
  | .updated n2 =>
      wfN c lo hi n2 = true ∧ k ∈ (tree_find_leaf n k).map Prod.fst ∧
      ∃ A B, pleaves n = A ++ tree_find_leaf n k :: B ∧
        pleaves n2 = A ++ linsert k v (tree_find_leaf n k) :: B ∧
        keysLtIn A k ∧ keysGtIn B k
  | .ok n2 =>
      wfN c lo hi n2 = true ∧ k ∉ (tree_find_leaf n k).map Prod.fst ∧
      ∃ A B, pleaves n = A ++ tree_find_leaf n k :: B ∧
        keysLtIn A k ∧ keysGtIn B k ∧
        (pleaves n2 = A ++ linsert k v (tree_find_leaf n k) :: B ∨
          (pleaves n2 =
              A ++ (linsert k v (tree_find_leaf n k)).take (c / 2) ::
                (linsert k v (tree_find_leaf n k)).drop (c / 2) :: B ∧
            c ≤ (tree_find_leaf n k).length))
  | .split n2 nn sk =>
      wfN c lo (some sk) n2 = true ∧ wfN c (some sk) hi nn = true ∧
      inLoStrict lo sk = true ∧ inHi hi sk = true ∧
      k ∉ (tree_find_leaf n k).map Prod.fst ∧
      c ≤ (tree_find_leaf n k).length ∧
      ∃ A B, pleaves n = A ++ tree_find_leaf n k :: B ∧
        keysLtIn A k ∧ keysGtIn B k ∧
        pleaves n2 ++ pleaves nn =
          A ++ (linsert k v (tree_find_leaf n k)).take (c / 2) ::
            (linsert k v (tree_find_leaf n k)).drop (c / 2) :: B

theorem getD_default_irrel {α : Type} {l : List α} {i : Nat} (d1 d2 : α)
    (h : i < l.length) : l.getD i d1 = l.getD i d2 := by
  rw [List.getD_eq_getElem l d1 h, List.getD_eq_getElem l d2 h]

/-- The master induction: `tree_insert_recursive` satisfies its
contract on every well-formed subtree. -/
theorem insert_rec_spec (c : Nat) (k v : Int) :
    ∀ (n : PNode) (lo hi : Option Int), 4 ≤ c →
      wfN c lo hi n = true → inLo lo k = true → inHi hi k = true →
      InsSpecAt c lo hi n k v := by
  intro n
  induction n using PNode.strongInduction with
  | hleaf es =>
    intro lo hi hc hwf hklo hkhi
    have hspec := node_insert_leaf_spec (k := k) (v := v) hc hwf hklo hkhi
    unfold InsSpecAt
    rw [tree_insert_recursive]
    have hfl : tree_find_leaf (.leaf es) k = es := rfl
    rw [hfl]
    have hplleaf : pleaves (.leaf es) = [es] := rfl
    cases hres : node_insert_leaf c es k v with
    | updated es2 =>
      rw [hres] at hspec
      refine ⟨hspec.1, hspec.2.1, [], [], by rw [hplleaf]; rfl, ?_, ?_, ?_⟩
      · rw [show pleaves (PNode.leaf es2) = [es2] from rfl, hspec.2.2]
        rfl
      · intro es3 hes3
        exact absurd hes3 (List.not_mem_nil es3)
      · intro es3 hes3
        exact absurd hes3 (List.not_mem_nil es3)
    | inserted es2 =>
      rw [hres] at hspec
      refine ⟨hspec.1, hspec.2.1, [], [], by rw [hplleaf]; rfl, ?_, ?_, ?_⟩
      · intro es3 hes3
        exact absurd hes3 (List.not_mem_nil es3)
      · intro es3 hes3
        exact absurd hes3 (List.not_mem_nil es3)
      · left
        rw [show pleaves (PNode.leaf es2) = [es2] from rfl, hspec.2.2.1]
        rfl
    | split l r sk =>
      rw [hres] at hspec
      obtain ⟨hw1, hw2, hstrict, hskhi, hnm, hfull, hleq, hreq⟩ := hspec
      refine ⟨hw1, hw2, hstrict, hskhi, hnm, hfull, [], [],
        by rw [hplleaf]; rfl, ?_, ?_, ?_⟩
      · intro es3 hes3
        exact absurd hes3 (List.not_mem_nil es3)
      · intro es3 hes3
        exact absurd hes3 (List.not_mem_nil es3)
      · rw [show pleaves (PNode.leaf l) = [l] from rfl,
          show pleaves (PNode.leaf r) = [r] from rfl, hleq, hreq]
        rfl
  | hbranch ks cs hih =>
    intro lo hi hc hwf hklo hkhi
    obtain ⟨hks1, hksc, hsort, hksb, hseq⟩ := wfN_branch_iff.mp hwf
    have hcslen := wfSeq_length hseq
    have hispec := childIndex_spec ks k hsort
    have hilt : childIndex ks k < cs.length := by omega
    have hnav : tree_find_leaf (.branch ks cs) k =
        tree_find_leaf (childD cs (childIndex ks k)) k := by
      rw [tree_find_leaf]
      exact findGo_eq k cs (childIndex ks k) hilt
    unfold InsSpecAt
    rw [tree_insert_recursive, insGo_eq c k v cs (childIndex ks k) hilt, hnav]
    set i := childIndex ks k with hidef
    obtain ⟨loI, hiI, hwfI, z2, z3, z4, z5, z6, z7, z8, z9⟩ :=
      wfSeq_zipper cs ks lo i hseq hsort hksb hilt
    have hkloI : inLo loI k = true := by
      rcases Nat.eq_zero_or_pos i with hz | hp
      · rw [z2 hz]
        exact hklo
      · rw [z3 hp, inLo_some]
        exact hispec.2.1 (i - 1) (by omega) (by omega)
    have hkhiI : inHi hiI k = true := by
      rcases Nat.lt_or_ge i ks.length with hlt | hge
      · rw [z5 hlt, inHi_some]
        exact hispec.2.2 i (le_refl _) hlt
      · have hieq : i = ks.length := by omega
        rw [z4 hieq]
        exact hkhi
    have hchmem : childD cs i ∈ cs := getD_mem_of_lt _ hilt
    have hchild := hih (childD cs i) hchmem loI hiI hc hwfI hkloI hkhiI
    unfold InsSpecAt at hchild
    have hcs_decomp : cs = cs.take i ++ childD cs i :: cs.drop (i + 1) :=
      list_eq_take_getD_drop (PNode.leaf []) cs i hilt
    have hpln : pleaves (PNode.branch ks cs) =
        pleavesGo (cs.take i) ++
          (pleaves (childD cs i) ++ pleavesGo (cs.drop (i + 1))) := by
      conv_lhs => rw [pleaves, hcs_decomp]
      rw [pleavesGo_append, pleavesGo]
    have hplset : ∀ ch2 : PNode, pleaves (PNode.branch ks (cs.set i ch2)) =
        pleavesGo (cs.take i) ++
          (pleaves ch2 ++ pleavesGo (cs.drop (i + 1))) := by
      intro ch2
      conv_lhs => rw [pleaves, List.set_eq_take_cons_drop ch2 hilt]
      rw [pleavesGo_append, pleavesGo]
    have hprefixLt : ∀ es ∈ pleavesGo (cs.take i), ∀ e ∈ es, e.1 < k := by
      intro es hes e he
      have h6 := z6 es hes e he
      cases hloI : loI with
      | none =>
        rcases Nat.eq_zero_or_pos i with hz | hp
        · rw [hz, List.take_zero] at hes
          exact absurd hes (by rw [pleavesGo]; exact List.not_mem_nil es)
        · rw [z3 hp] at hloI
          exact absurd hloI (by simp)
      | some a =>
        rw [hloI, inHi_some] at h6
        rw [hloI, inLo_some] at hkloI
        omega
    have hsuffixGt : ∀ es ∈ pleavesGo (cs.drop (i + 1)), ∀ e ∈ es, k < e.1 := by
      intro es hes e he
      have h7 := z7 es hes e he
      cases hhiI : hiI with
      | none =>
        rcases Nat.lt_or_ge i ks.length with hlt | hge
        · rw [z5 hlt] at hhiI
          exact absurd hhiI (by simp)
        · have hdropnil : cs.drop (i + 1) = [] := by
            apply List.drop_eq_nil_of_le
            omega
          rw [hdropnil] at hes
          exact absurd hes (by rw [pleavesGo]; exact List.not_mem_nil es)
      | some b =>
        rw [hhiI, inLo_some] at h7
        rw [hhiI, inHi_some] at hkhiI
        omega
    cases hres : tree_insert_recursive c (childD cs i) k v with
    | updated ch2 =>
      rw [hres] at hchild
      obtain ⟨hw2, hmem, A0, B0, hpl0, hpl2, hA0, hB0⟩ := hchild
      refine ⟨?_, hmem, pleavesGo (cs.take i) ++ A0,
        B0 ++ pleavesGo (cs.drop (i + 1)), ?_, ?_, ?_, ?_⟩
      · rw [wfN_branch_iff]
        exact ⟨hks1, hksc, hsort, hksb, z8 ch2 hw2⟩
      · rw [hpln, hpl0]
        simp [List.append_assoc]
      · rw [hplset ch2, hpl2]
        simp [List.append_assoc]
      · intro es hes e he
        rcases List.mem_append.mp hes with hes | hes
        · exact hprefixLt es hes e he
        · exact hA0 es hes e he
      · intro es hes e he
        rcases List.mem_append.mp hes with hes | hes
        · exact hB0 es hes e he
        · exact hsuffixGt es hes e he
    | ok ch2 =>
      rw [hres] at hchild
      obtain ⟨hw2, hmem, A0, B0, hpl0, hA0, hB0, hpl2⟩ := hchild
      refine ⟨?_, hmem, pleavesGo (cs.take i) ++ A0,
        B0 ++ pleavesGo (cs.drop (i + 1)), ?_, ?_, ?_, ?_⟩
      · rw [wfN_branch_iff]
        exact ⟨hks1, hksc, hsort, hksb, z8 ch2 hw2⟩
      · rw [hpln, hpl0]
        simp [List.append_assoc]
      · intro es hes e he
        rcases List.mem_append.mp hes with hes | hes
        · exact hprefixLt es hes e he
        · exact hA0 es hes e he
      · intro es hes e he
        rcases List.mem_append.mp hes with hes | hes
        · exact hB0 es hes e he
        · exact hsuffixGt es hes e he
      · rcases hpl2 with hpl2 | ⟨hpl2, hlen0⟩
        · left
          rw [hplset ch2, hpl2]
          simp [List.append_assoc]
        · right
          refine ⟨?_, hlen0⟩
          rw [hplset ch2, hpl2]
          simp [List.append_assoc]
    | split ch2 nn sk =>
      rw [hres] at hchild
      obtain ⟨hwL, hwR, hstrictI, hskhiI, hmem, hfull0, A0, B0, hpl0, hA0,
        hB0, hpl2⟩ := hchild
      -- position of the propagated key among the separators
      have hskpos : node_find_position ks sk = i := by
        apply binary_search_keys_eq_of ks sk i hsort (by omega)
        · intro j hj
          have hp : 0 < i := by omega
          have hstr : ks.getD (i - 1) 0 < sk := by
            have := hstrictI
            rw [z3 hp] at this
            rw [show inLoStrict (some (ks.getD (i - 1) 0)) sk =
              decide (ks.getD (i - 1) 0 < sk) from rfl, decide_eq_true_eq]
              at this
            exact this
          have hmono := sorted_getD_mono hsort (show j ≤ i - 1 by omega)
            (show i - 1 < ks.length by omega)
          omega
        · intro j hj hjlen
          have hlt : i < ks.length := by omega
          have hup : sk < ks.getD i 0 := by
            have := hskhiI
            rw [z5 hlt, inHi_some] at this
            exact this
          have hmono := sorted_getD_mono hsort hj hjlen
          omega
      have htakeMem : ∀ y ∈ ks.take i, y < sk := by
        refine take_mem_of_index (fun j hj hjlen => ?_)
        have hp : 0 < i := by omega
        have hstr : ks.getD (i - 1) 0 < sk := by
          have := hstrictI
          rw [z3 hp] at this
          rw [show inLoStrict (some (ks.getD (i - 1) 0)) sk =
            decide (ks.getD (i - 1) 0 < sk) from rfl, decide_eq_true_eq]
            at this
          exact this
        have hmono := sorted_getD_mono hsort (show j ≤ i - 1 by omega)
          (show i - 1 < ks.length by omega)
        omega
      have hdropMem : ∀ y ∈ ks.drop i, sk < y := by
        refine drop_mem_of_index (fun j hj hjlen => ?_)
        have hlt : i < ks.length := by omega
        have hup : sk < ks.getD i 0 := by
          have := hskhiI
          rw [z5 hlt, inHi_some] at this
          exact this
        have hmono := sorted_getD_mono hsort hj hjlen
        omega
      have hsklo : inLo lo sk = true := by
        rcases Nat.eq_zero_or_pos i with hz | hp
        · have := hstrictI
          rw [z2 hz] at this
          exact inLoStrict_le this
        · have hstr : ks.getD (i - 1) 0 < sk := by
            have := hstrictI
            rw [z3 hp] at this
            rw [show inLoStrict (some (ks.getD (i - 1) 0)) sk =
              decide (ks.getD (i - 1) 0 < sk) from rfl, decide_eq_true_eq]
              at this
            exact this
          have hkm := (hksb (ks.getD (i - 1) 0)
            (getD_mem_of_lt 0 (show i - 1 < ks.length by omega))).1
          exact inLo_weaken (by rw [inLo_some]; omega) hkm
      have hskhi2 : inHi hi sk = true := by
        rcases Nat.lt_or_ge i ks.length with hlt | hge
        · have hup : sk < ks.getD i 0 := by
            have := hskhiI
            rw [z5 hlt, inHi_some] at this
            exact this
          have hkm := (hksb (ks.getD i 0) (getD_mem_of_lt 0 hlt)).2
          exact inHi_weaken (by rw [inHi_some]; omega) hkm
        · have hieq : i = ks.length := by omega
          have := hskhiI
          rw [z4 hieq] at this
          exact this
      unfold node_insert_branch
      simp only []
      rw [hskpos, splice_take_drop cs i ch2 nn hilt]
      have hplspliced : pleavesGo
          (cs.take i ++ ch2 :: nn :: cs.drop (i + 1)) =
          pleavesGo (cs.take i) ++
            (pleaves ch2 ++ (pleaves nn ++ pleavesGo (cs.drop (i + 1)))) := by
        rw [pleavesGo_append, pleavesGo, pleavesGo]
      have hpl2b : pleaves ch2 ++ (pleaves nn ++ pleavesGo (cs.drop (i + 1))) =
          A0 ++ (linsert k v (tree_find_leaf (childD cs i) k)).take (c / 2) ::
            (linsert k v (tree_find_leaf (childD cs i) k)).drop (c / 2) ::
            (B0 ++ pleavesGo (cs.drop (i + 1))) := by
        rw [← List.append_assoc, hpl2]
        simp [List.append_assoc]
      by_cases hksfull : c ≤ ks.length
      · rw [if_pos (by exact hksfull)]
        have hkslen : ks.length = c := by omega
        set tks := ks.take i ++ sk :: ks.drop i with htksdef
        set tcs := cs.take i ++ ch2 :: nn :: cs.drop (i + 1) with htcsdef
        have htkslen : tks.length = c + 1 := by
          rw [htksdef, length_insert_at (by omega)]
          omega
        have hseqT : wfSeq c lo hi tks tcs = true := z9 sk ch2 nn hwL hwR
        have hsortT : tks.Pairwise (· < ·) :=
          pairwise_insert_at hsort htakeMem hdropMem
        have hboundsT : ∀ x ∈ tks, inLo lo x = true ∧ inHi hi x = true := by
          intro x hx
          rcases mem_insert_at.mp hx with rfl | hx
          · exact ⟨hsklo, hskhi2⟩
          · exact hksb x hx
        have hmidlt : c / 2 < tks.length := by omega
        have hsk2mem : tks.getD (c / 2) sk ∈ tks := getD_mem_of_lt sk hmidlt
        have hsk2b := hboundsT _ hsk2mem
        have htakemidlen : (tks.take (c / 2)).length = c / 2 := by
          rw [List.length_take]
          omega
        have hdecompT : tks = tks.take (c / 2) ++
            tks.getD (c / 2) sk :: tks.drop (c / 2 + 1) :=
          list_eq_take_getD_drop sk tks (c / 2) hmidlt
        have hcut := wfSeq_cut (tks.take (c / 2)) tcs lo
          (by rw [← hdecompT]; exact hseqT)
        rw [htakemidlen] at hcut
        have htakelt : ∀ y ∈ tks.take (c / 2), y < tks.getD (c / 2) sk := by
          have := sorted_take_lt_getD hsortT hmidlt
          intro y hy
          rw [getD_default_irrel sk 0 hmidlt]
          exact this y hy
        have hdropgt : ∀ y ∈ tks.drop (c / 2 + 1),
            tks.getD (c / 2) sk < y := by
          have := sorted_drop_gt_getD hsortT hmidlt
          intro y hy
          rw [getD_default_irrel sk 0 hmidlt]
          exact this y hy
        refine ⟨?_, ?_, ?_, hsk2b.2, hmem, hfull0, pleavesGo (cs.take i) ++ A0,
          B0 ++ pleavesGo (cs.drop (i + 1)), ?_, ?_, ?_, ?_⟩
        · rw [wfN_branch_iff]
          refine ⟨by omega, by omega, ?_, ?_, hcut.1⟩
          · exact List.Pairwise.sublist (List.take_sublist _ _) hsortT
          · intro x hx
            refine ⟨(hboundsT x (List.mem_of_mem_take hx)).1, ?_⟩
            rw [inHi_some]
            exact htakelt x hx
        · rw [wfN_branch_iff]
          refine ⟨?_, ?_, ?_, ?_, hcut.2⟩
          · rw [List.length_drop]
            omega
          · rw [List.length_drop]
            omega
          · exact List.Pairwise.sublist (List.drop_sublist _ _) hsortT
          · intro x hx
            refine ⟨?_, (hboundsT x (List.mem_of_mem_drop hx)).2⟩
            rw [inLo_some]
            exact le_of_lt (hdropgt x hx)
        · cases lo with
          | none => rfl
          | some a =>
            obtain ⟨t0, trest, ht0⟩ : ∃ t0 trest, tks = t0 :: trest := by
              rcases hx : tks with _ | ⟨t0, trest⟩
              · rw [hx] at htkslen
                simp at htkslen
              · exact ⟨t0, trest, rfl⟩
            have ht0mem : t0 ∈ tks.take (c / 2) := by
              rw [ht0]
              rcases Nat.exists_eq_add_of_lt (show 0 < c / 2 by omega)
                with ⟨m2, hm2⟩
              rw [hm2]
              simp [List.take_succ_cons]
            have ht0lt := htakelt t0 ht0mem
            have ht0b := (hboundsT t0 (by rw [ht0]; simp)).1
            rw [inLo_some] at ht0b
            rw [show inLoStrict (some a) (tks.getD (c / 2) sk) =
              decide (a < tks.getD (c / 2) sk) from rfl, decide_eq_true_eq]
            omega
        · rw [hpln, hpl0]
          simp [List.append_assoc]
        · intro es hes e he
          rcases List.mem_append.mp hes with hes | hes
          · exact hprefixLt es hes e he
          · exact hA0 es hes e he
        · intro es hes e he
          rcases List.mem_append.mp hes with hes | hes
          · exact hB0 es hes e he
          · exact hsuffixGt es hes e he
        · rw [show pleaves (PNode.branch (tks.take (c / 2))
              (tcs.take (c / 2 + 1))) = pleavesGo (tcs.take (c / 2 + 1))
              from rfl,
            show pleaves (PNode.branch (tks.drop (c / 2 + 1))
              (tcs.drop (c / 2 + 1))) = pleavesGo (tcs.drop (c / 2 + 1))
              from rfl,
            ← pleavesGo_append, List.take_append_drop, htcsdef, hplspliced,
            hpl2b]
          simp [List.append_assoc]
      · rw [if_neg hksfull]
        refine ⟨?_, hmem, pleavesGo (cs.take i) ++ A0,
          B0 ++ pleavesGo (cs.drop (i + 1)), ?_, ?_, ?_, ?_⟩
        · rw [wfN_branch_iff]
          refine ⟨?_, ?_, pairwise_insert_at hsort htakeMem hdropMem, ?_,
            z9 sk ch2 nn hwL hwR⟩
          · rw [length_insert_at (by omega)]
            omega
          · rw [length_insert_at (by omega)]
            omega
          · intro x hx
            rcases mem_insert_at.mp hx with rfl | hx
            · exact ⟨hsklo, hskhi2⟩
            · exact hksb x hx
        · rw [hpln, hpl0]
          simp [List.append_assoc]
        · intro es hes e he
          rcases List.mem_append.mp hes with hes | hes
          · exact hprefixLt es hes e he
          · exact hA0 es hes e he
        · intro es hes e he
          rcases List.mem_append.mp hes with hes | hes
          · exact hB0 es hes e he
          · exact hsuffixGt es hes e he
        · right
          refine ⟨?_, hfull0⟩
          rw [show pleaves (PNode.branch (ks.take i ++ sk :: ks.drop i)
              (cs.take i ++ ch2 :: nn :: cs.drop (i + 1))) =
              pleavesGo (cs.take i ++ ch2 :: nn :: cs.drop (i + 1)) from rfl,
            hplspliced, hpl2b]
          simp [List.append_assoc]

theorem keysLtIn_flatten {A : List (List (Int × Int))} {k : Int}
    (hA : keysLtIn A k) : ∀ e ∈ A.flatten, e.1 < k := by
  intro e he
  obtain ⟨es, hes, hee⟩ := List.mem_flatten.mp he
  exact hA es hes e hee

theorem keysGtIn_flatten {B : List (List (Int × Int))} {k : Int}
    (hB : keysGtIn B k) : ∀ e ∈ B.flatten, k < e.1 := by
  intro e he
  obtain ⟨es, hes, hee⟩ := List.mem_flatten.mp he
  exact hB es hes e hee

theorem linsert_flatten_decomp {A B : List (List (Int × Int))}
    {t0 : List (Int × Int)} {k v : Int}
    (hA : keysLtIn A k) (hB : keysGtIn B k) :
    linsert k v (A.flatten ++ (t0 ++ B.flatten)) =
      A.flatten ++ (linsert k v t0 ++ B.flatten) := by
  rw [linsert_append_left (keysLtIn_flatten hA),
    linsert_append_right (keysGtIn_flatten hB)]

theorem flatten_mid {A B : List (List (Int × Int))} {t0 : List (Int × Int)} :
    (A ++ t0 :: B).flatten = A.flatten ++ (t0 ++ B.flatten) := by
  rw [List.flatten_append, List.flatten_cons]

/-- Entry-level corollary of the master induction: the flattened
contents after an insert are exactly the model insertion. -/
theorem insert_rec_toList {c : Nat} {lo hi : Option Int} {n : PNode}
    {k v : Int} (hc : 4 ≤ c) (hwf : wfN c lo hi n = true)
    (hklo : inLo lo k = true) (hkhi : inHi hi k = true) :
    (match tree_insert_recursive c n k v with
     | .updated n2 => toListN n2 = linsert k v (toListN n)
     | .ok n2 => toListN n2 = linsert k v (toListN n)
     | .split n2 nn _ => toListN n2 ++ toListN nn = linsert k v (toListN n)) ∧
    ((∃ n2, tree_insert_recursive c n k v = .updated n2) ↔
      k ∈ (toListN n).map Prod.fst) := by
  have hspec := insert_rec_spec c k v n lo hi hc hwf hklo hkhi
  unfold InsSpecAt at hspec
  cases hres : tree_insert_recursive c n k v with
  | updated n2 =>
    rw [hres] at hspec
    obtain ⟨hw, hmem, A, B, hpl, hpl2, hA, hB⟩ := hspec
    have hto : toListN n = A.flatten ++ (tree_find_leaf n k ++ B.flatten) := by
      rw [toListN, hpl, flatten_mid]
    constructor
    · show toListN n2 = linsert k v (toListN n)
      rw [toListN, hpl2, flatten_mid, hto, linsert_flatten_decomp hA hB]
    · constructor
      · intro _
        rw [hto]
        obtain ⟨e, hee, hke⟩ := List.mem_map.mp hmem
        refine List.mem_map.mpr ⟨e, ?_, hke⟩
        rw [List.mem_append, List.mem_append]
        exact Or.inr (Or.inl hee)
      · intro _
        exact ⟨n2, rfl⟩
  | ok n2 =>
    rw [hres] at hspec
    obtain ⟨hw, hmem, A, B, hpl, hA, hB, hpl2⟩ := hspec
    have hto : toListN n = A.flatten ++ (tree_find_leaf n k ++ B.flatten) := by
      rw [toListN, hpl, flatten_mid]
    have hnotmem : k ∉ (toListN n).map Prod.fst := by
      intro hcon
      obtain ⟨e, hee, hke⟩ := List.mem_map.mp hcon
      rw [hto, List.mem_append, List.mem_append] at hee
      rcases hee with hee | hee | hee
      · have := keysLtIn_flatten hA e hee
        omega
      · exact hmem (List.mem_map.mpr ⟨e, hee, hke⟩)
      · have := keysGtIn_flatten hB e hee
        omega
    constructor
    · show toListN n2 = linsert k v (toListN n)
      rcases hpl2 with hpl2 | ⟨hpl2, -⟩
      · rw [toListN, hpl2, flatten_mid, hto, linsert_flatten_decomp hA hB]
      · rw [toListN, hpl2, hto, linsert_flatten_decomp hA hB,
          List.flatten_append, List.flatten_cons, List.flatten_cons]
        congr 1
        rw [← List.append_assoc, List.take_append_drop]
    · constructor
      · intro ⟨n3, hn3⟩
        cases hn3
      · intro hcon
        exact absurd hcon hnotmem
  | split n2 nn sk =>
    rw [hres] at hspec
    obtain ⟨hw1, hw2, hst, hsh, hmem, hful, A, B, hpl, hA, hB, hpl2⟩ := hspec
    have hto : toListN n = A.flatten ++ (tree_find_leaf n k ++ B.flatten) := by
      rw [toListN, hpl, flatten_mid]
    have hnotmem : k ∉ (toListN n).map Prod.fst := by
      intro hcon
      obtain ⟨e, hee, hke⟩ := List.mem_map.mp hcon
      rw [hto, List.mem_append, List.mem_append] at hee
      rcases hee with hee | hee | hee
      · have := keysLtIn_flatten hA e hee
        omega
      · exact hmem (List.mem_map.mpr ⟨e, hee, hke⟩)
      · have := keysGtIn_flatten hB e hee
        omega
    constructor
    · show toListN n2 ++ toListN nn = linsert k v (toListN n)
      rw [toListN, toListN, ← List.flatten_append, hpl2, hto,
        linsert_flatten_decomp hA hB, List.flatten_append, List.flatten_cons,
        List.flatten_cons]
      congr 1
      rw [← List.append_assoc, List.take_append_drop]
    · constructor
      · intro ⟨n3, hn3⟩
        cases hn3
      · intro hcon
        exact absurd hcon hnotmem

/-- Navigation decomposes the leaf chain around the target leaf. -/
theorem find_leaf_spec (c : Nat) (k : Int) :
    ∀ (n : PNode) (lo hi : Option Int),
      wfN c lo hi n = true → inLo lo k = true → inHi hi k = true →
      ((tree_find_leaf n k).map Prod.fst).Pairwise (· < ·) ∧
      ∃ A B, pleaves n = A ++ tree_find_leaf n k :: B ∧
        keysLtIn A k ∧ keysGtIn B k := by
  intro n
  induction n using PNode.strongInduction with
  | hleaf es =>
    intro lo hi hwf _ _
    refine ⟨(wfN_leaf_iff.mp hwf).1, [], [], rfl, ?_, ?_⟩
    · intro es3 hes3
      exact absurd hes3 (List.not_mem_nil es3)
    · intro es3 hes3
      exact absurd hes3 (List.not_mem_nil es3)
  | hbranch ks cs hih =>
    intro lo hi hwf hklo hkhi
    obtain ⟨hks1, hksc, hsort, hksb, hseq⟩ := wfN_branch_iff.mp hwf
    have hcslen := wfSeq_length hseq
    have hispec := childIndex_spec ks k hsort
    have hilt : childIndex ks k < cs.length := by omega
    have hnav : tree_find_leaf (.branch ks cs) k =
        tree_find_leaf (childD cs (childIndex ks k)) k := by
      rw [tree_find_leaf]
      exact findGo_eq k cs (childIndex ks k) hilt
    rw [hnav]
    set i := childIndex ks k with hidef
    obtain ⟨loI, hiI, hwfI, z2, z3, z4, z5, z6, z7, z8, z9⟩ :=
      wfSeq_zipper cs ks lo i hseq hsort hksb hilt
    have hkloI : inLo loI k = true := by
      rcases Nat.eq_zero_or_pos i with hz | hp
      · rw [z2 hz]
        exact hklo
      · rw [z3 hp, inLo_some]
        exact hispec.2.1 (i - 1) (by omega) (by omega)
    have hkhiI : inHi hiI k = true := by
      rcases Nat.lt_or_ge i ks.length with hlt | hge
      · rw [z5 hlt, inHi_some]
        exact hispec.2.2 i (le_refl _) hlt
      · have hieq : i = ks.length := by omega
        rw [z4 hieq]
        exact hkhi
    have hchmem : childD cs i ∈ cs := getD_mem_of_lt _ hilt
    obtain ⟨hsort0, A0, B0, hpl0, hA0, hB0⟩ :=
      hih (childD cs i) hchmem loI hiI hwfI hkloI hkhiI
    have hcs_decomp : cs = cs.take i ++ childD cs i :: cs.drop (i + 1) :=
      list_eq_take_getD_drop (PNode.leaf []) cs i hilt
    have hpln : pleaves (PNode.branch ks cs) =
        pleavesGo (cs.take i) ++
          (pleaves (childD cs i) ++ pleavesGo (cs.drop (i + 1))) := by
      conv_lhs => rw [pleaves, hcs_decomp]
      rw [pleavesGo_append, pleavesGo]
    refine ⟨hsort0, pleavesGo (cs.take i) ++ A0,
      B0 ++ pleavesGo (cs.drop (i + 1)), ?_, ?_, ?_⟩
    · rw [hpln, hpl0]
      simp [List.append_assoc]
    · intro es hes e he
      rcases List.mem_append.mp hes with hes | hes
      · have h6 := z6 es hes e he
        cases hloI : loI with
        | none =>
          rcases Nat.eq_zero_or_pos i with hz | hp
          · rw [hz, List.take_zero] at hes
            exact absurd hes (by rw [pleavesGo]; exact List.not_mem_nil es)
          · rw [z3 hp] at hloI
            exact absurd hloI (by simp)
        | some a =>
          rw [hloI, inHi_some] at h6
          rw [hloI, inLo_some] at hkloI
          omega
      · exact hA0 es hes e he
    · intro es hes e he
      rcases List.mem_append.mp hes with hes | hes
      · exact hB0 es hes e he
      · have h7 := z7 es hes e he
        cases hhiI : hiI with
        | none =>
          rcases Nat.lt_or_ge i ks.length with hlt | hge
          · rw [z5 hlt] at hhiI
            exact absurd hhiI (by simp)
          · have hdropnil : cs.drop (i + 1) = [] := by
              apply List.drop_eq_nil_of_le
              omega
            rw [hdropnil] at hes
            exact absurd hes (by rw [pleavesGo]; exact List.not_mem_nil es)
        | some b =>
          rw [hhiI, inLo_some] at h7
          rw [hhiI, inHi_some] at hkhiI
          omega

/-- `node_get` agrees with association-list lookup on a sorted leaf. -/
theorem node_get_eq {es : List (Int × Int)} {k : Int}
    (hs : (es.map Prod.fst).Pairwise (· < ·)) :
    node_get es k = lookupKV es k := by
  simp only [node_get]
  set pos := node_find_position (es.map Prod.fst) k with hposdef
  have hbspos : binary_search_keys (es.map Prod.fst) k = pos := by
    rw [hposdef]
    rfl
  by_cases hhit : pos < es.length ∧ (es.map Prod.fst).getD pos 0 = k
  · rw [if_pos (by
      simp only [Bool.and_eq_true, decide_eq_true_eq, beq_iff_eq]
      exact ⟨hhit.1, hhit.2⟩)]
    have hmaplen : pos < (es.map Prod.fst).length := by
      rw [List.length_map]
      exact hhit.1
    have hget : (es.get ⟨pos, hhit.1⟩).1 = k := by
      have h2 := hhit.2
      rw [List.getD_eq_getElem _ 0 hmaplen, List.getElem_map] at h2
      exact h2
    have hdec : es = es.take pos ++ es.get ⟨pos, hhit.1⟩ :: es.drop (pos + 1) := by
      have := list_eq_take_getD_drop (es.get ⟨pos, hhit.1⟩) es pos hhit.1
      rw [List.getD_eq_getElem _ _ hhit.1] at this
      exact this
    have htake : ∀ e ∈ es.take pos, e.1 ≠ k := by
      intro e he
      have : e.1 < k := by
        apply take_lowerBound_lt (es.map Prod.fst) k hs
        rw [hbspos, ← List.map_take]
        exact List.mem_map_of_mem _ he
      omega
    conv_rhs => rw [hdec]
    rw [lookupKV_append_skip_left htake, lookupKV_cons_pos hget]
    rw [List.getD_eq_getElem _ _ hhit.1]
    rfl
  · have hcond : ¬ (pos < es.length &&
        (es.map Prod.fst).getD pos 0 == k) = true := by
      simp only [Bool.and_eq_true, decide_eq_true_eq, beq_iff_eq]
      tauto
    rw [if_neg hcond]
    have hnm : k ∉ es.map Prod.fst := by
      rw [mem_iff_lowerBound _ _ hs, List.length_map, hbspos]
      tauto
    rw [lookupKV_eq_none_of_not_mem hnm]

/-- `tree_get` agrees with association-list lookup on the flattened
contents of a well-formed tree. -/
theorem tree_get_eq {t : PTree} {k : Int} (h : wfT t = true) :
    tree_get t k = lookupKV (toListN t.root) k := by
  rw [wfT, Bool.and_eq_true, Bool.and_eq_true] at h
  obtain ⟨⟨-, hwf⟩, -⟩ := h
  obtain ⟨hsort0, A, B, hpl, hA, hB⟩ :=
    find_leaf_spec t.capacity k t.root none none hwf rfl rfl
  have hto : toListN t.root =
      A.flatten ++ (tree_find_leaf t.root k ++ B.flatten) := by
    rw [toListN, hpl, flatten_mid]
  rw [tree_get, node_get_eq hsort0, hto,
    lookupKV_append_skip_left (fun e he => by
      have := keysLtIn_flatten hA e he
      omega),
    lookupKV_append_skip_right (fun e he => by
      have := keysGtIn_flatten hB e he
      omega)]

theorem lerase_append_left {k : Int} :
    ∀ {a b : List (Int × Int)}, (∀ e ∈ a, e.1 ≠ k) →
      lerase k (a ++ b) = a ++ lerase k b
  | [], _, _ => rfl
  | e :: t, b, h => by
    rw [List.cons_append, lerase, if_neg (h e (by simp)),
      lerase_append_left (fun x hx => h x (List.mem_cons_of_mem e hx))]
    rfl

theorem lerase_append_right {k : Int} :
    ∀ {a b : List (Int × Int)}, (∀ e ∈ b, e.1 ≠ k) →
      lerase k (a ++ b) = lerase k a ++ b
  | [], b, h => by
    rw [List.nil_append]
    rw [lerase_of_not_mem (by
      intro hc
      obtain ⟨e, he, hfst⟩ := List.mem_map.mp hc
      exact h e he hfst)]
    rfl
  | e :: t, b, h => by
    rw [List.cons_append, lerase, lerase]
    by_cases h1 : e.1 = k
    · rw [if_pos h1, if_pos h1]
    · rw [if_neg h1, if_neg h1, lerase_append_right (b := b) h]
      rfl

theorem toListN_branch_decomp {ks : List Int} {cs : List PNode} {i : Nat}
    (hilt : i < cs.length) :
    toListN (.branch ks cs) =
      (pleavesGo (cs.take i)).flatten ++
        (toListN (childD cs i) ++ (pleavesGo (cs.drop (i + 1))).flatten) := by
  have hcs_decomp : cs = cs.take i ++ childD cs i :: cs.drop (i + 1) :=
    list_eq_take_getD_drop (PNode.leaf []) cs i hilt
  rw [toListN]
  conv_lhs => rw [pleaves, hcs_decomp]
  rw [pleavesGo_append, pleavesGo, List.flatten_append, List.flatten_append,
    toListN]

theorem toListN_branch_set {ks : List Int} {cs : List PNode} {i : Nat}
    (ch2 : PNode) (hilt : i < cs.length) :
    toListN (.branch ks (cs.set i ch2)) =
      (pleavesGo (cs.take i)).flatten ++
        (toListN ch2 ++ (pleavesGo (cs.drop (i + 1))).flatten) := by
  rw [toListN]
  conv_lhs => rw [pleaves, List.set_eq_take_cons_drop ch2 hilt]
  rw [pleavesGo_append, pleavesGo, List.flatten_append, List.flatten_append,
    toListN]

/-- The contract of the recursive deletion: `none` exactly when the key
is absent, otherwise the flattened contents lose exactly that entry. -/
theorem delete_rec_spec (c : Nat) (k : Int) :
    ∀ (n : PNode) (lo hi : Option Int),
      wfN c lo hi n = true → inLo lo k = true → inHi hi k = true →
      match tree_delete_rec n k with
      | none => k ∉ (toListN n).map Prod.fst
      | some n2 => k ∈ (toListN n).map Prod.fst ∧ wfN c lo hi n2 = true ∧
          toListN n2 = lerase k (toListN n) := by
  intro n
  induction n using PNode.strongInduction with
  | hleaf es =>
    intro lo hi hwf hklo hkhi
    obtain ⟨hsort, hlen, hbounds⟩ := wfN_leaf_iff.mp hwf
    rw [tree_delete_rec]
    simp only [node_delete]
    set pos := node_find_position (es.map Prod.fst) k with hposdef
    have hbspos : binary_search_keys (es.map Prod.fst) k = pos := by
      rw [hposdef]
      rfl
    by_cases hhit : pos < es.length ∧ (es.map Prod.fst).getD pos 0 = k
    · rw [if_pos (by
        simp only [Bool.and_eq_true, decide_eq_true_eq, beq_iff_eq]
        exact ⟨hhit.1, hhit.2⟩)]
      have hmem : k ∈ es.map Prod.fst := by
        rw [mem_iff_lowerBound _ _ hsort, List.length_map, hbspos]
        exact ⟨hhit.1, hhit.2⟩
      have hget : (es.get ⟨pos, hhit.1⟩).1 = k := by
        have h2 := hhit.2
        rw [List.getD_eq_getElem _ 0 (by
          rw [List.length_map]
          exact hhit.1), List.getElem_map] at h2
        exact h2
      have herase : lerase k es = es.take pos ++ es.drop (pos + 1) :=
        lerase_eq_remove_at hsort hhit.1 hget
      refine ⟨by rw [toListN_leaf]; exact hmem, ?_, ?_⟩
      · rw [wfN_leaf_iff]
        refine ⟨?_, ?_, ?_⟩
        · rw [← herase]
          exact lerase_sorted hsort
        · have := List.Sublist.length_le
            ((herase ▸ lerase_sublist k es : (es.take pos ++
              es.drop (pos + 1)).Sublist es))
          omega
        · intro x hx
          rw [← herase] at hx
          exact hbounds x ((mem_keys_lerase hsort).mp hx).1
      · rw [toListN_leaf, toListN_leaf, herase]
    · have hcond : ¬ (pos < es.length &&
          (es.map Prod.fst).getD pos 0 == k) = true := by
        simp only [Bool.and_eq_true, decide_eq_true_eq, beq_iff_eq]
        tauto
      rw [if_neg hcond]
      show k ∉ (toListN (PNode.leaf es)).map Prod.fst
      rw [toListN_leaf]
      rw [mem_iff_lowerBound _ _ hsort, List.length_map, hbspos]
      tauto
  | hbranch ks cs hih =>
    intro lo hi hwf hklo hkhi
    obtain ⟨hks1, hksc, hsort, hksb, hseq⟩ := wfN_branch_iff.mp hwf
    have hcslen := wfSeq_length hseq
    have hispec := childIndex_spec ks k hsort
    have hilt : childIndex ks k < cs.length := by omega
    rw [tree_delete_rec, delGo_eq k cs (childIndex ks k) hilt]
    set i := childIndex ks k with hidef
    obtain ⟨loI, hiI, hwfI, z2, z3, z4, z5, z6, z7, z8, z9⟩ :=
      wfSeq_zipper cs ks lo i hseq hsort hksb hilt
    have hkloI : inLo loI k = true := by
      rcases Nat.eq_zero_or_pos i with hz | hp
      · rw [z2 hz]
        exact hklo
      · rw [z3 hp, inLo_some]
        exact hispec.2.1 (i - 1) (by omega) (by omega)
    have hkhiI : inHi hiI k = true := by
      rcases Nat.lt_or_ge i ks.length with hlt | hge
      · rw [z5 hlt, inHi_some]
        exact hispec.2.2 i (le_refl _) hlt
      · have hieq : i = ks.length := by omega
        rw [z4 hieq]
        exact hkhi
    have hchmem : childD cs i ∈ cs := getD_mem_of_lt _ hilt
    have hchild := hih (childD cs i) hchmem loI hiI hwfI hkloI hkhiI
    have hdecomp := @toListN_branch_decomp ks cs i hilt
    have hprefixNe : ∀ e ∈ (pleavesGo (cs.take i)).flatten, e.1 ≠ k := by
      intro e he
      obtain ⟨es, hes, hee⟩ := List.mem_flatten.mp he
      have h6 := z6 es hes e hee
      cases hloI : loI with
      | none =>
        rcases Nat.eq_zero_or_pos i with hz | hp
        · rw [hz, List.take_zero] at hes
          exact absurd hes (by rw [pleavesGo]; exact List.not_mem_nil es)
        · rw [z3 hp] at hloI
          exact absurd hloI (by simp)
      | some a =>
        rw [hloI, inHi_some] at h6
        rw [hloI, inLo_some] at hkloI
        omega
    have hsuffixNe : ∀ e ∈ (pleavesGo (cs.drop (i + 1))).flatten, e.1 ≠ k := by
      intro e he
      obtain ⟨es, hes, hee⟩ := List.mem_flatten.mp he
      have h7 := z7 es hes e hee
      cases hhiI : hiI with
      | none =>
        rcases Nat.lt_or_ge i ks.length with hlt | hge
        · rw [z5 hlt] at hhiI
          exact absurd hhiI (by simp)
        · have hdropnil : cs.drop (i + 1) = [] := by
            apply List.drop_eq_nil_of_le
            omega
          rw [hdropnil] at hes
          exact absurd hes (by rw [pleavesGo]; exact List.not_mem_nil es)
      | some b =>
        rw [hhiI, inLo_some] at h7
        rw [hhiI, inHi_some] at hkhiI
        omega
    cases hres : tree_delete_rec (childD cs i) k with
    | none =>
      rw [hres] at hchild
      show k ∉ (toListN (PNode.branch ks cs)).map Prod.fst
      intro hcon
      obtain ⟨e, hee, hke⟩ := List.mem_map.mp hcon
      rw [hdecomp, List.mem_append, List.mem_append] at hee
      rcases hee with hee | hee | hee
      · exact hprefixNe e hee hke
      · exact hchild (List.mem_map.mpr ⟨e, hee, hke⟩)
      · exact hsuffixNe e hee hke
    | some ch2 =>
      rw [hres] at hchild
      obtain ⟨hmem, hw2, hto2⟩ := hchild
      refine ⟨?_, ?_, ?_⟩
      · obtain ⟨e, hee, hke⟩ := List.mem_map.mp hmem
        refine List.mem_map.mpr ⟨e, ?_, hke⟩
        rw [hdecomp, List.mem_append, List.mem_append]
        exact Or.inr (Or.inl hee)
      · rw [wfN_branch_iff]
        exact ⟨hks1, hksc, hsort, hksb, z8 ch2 hw2⟩
      · rw [toListN_branch_set ch2 hilt, hdecomp,
          lerase_append_left hprefixNe, lerase_append_right hsuffixNe, hto2]

/-- All entries of a tree, in leaf-chain order. -/
def toListT (t : PTree) : List (Int × Int) := toListN t.root

theorem wfT_iff {t : PTree} : wfT t = true ↔
    (4 ≤ t.capacity ∧ wfN t.capacity none none t.root = true ∧
      t.size = (toListN t.root).length) := by
  rw [wfT]
  simp only [Bool.and_eq_true, decide_eq_true_eq]
  tauto

theorem toListN_two_children {sk : Int} {r nn : PNode} :
    toListN (.branch [sk] [r, nn]) = toListN r ++ toListN nn := by
  simp [toListN, pleaves, pleavesGo, List.flatten_append]

/-- Contents of a list of children, in order. -/
def toListC (cs : List PNode) : List (Int × Int) := (pleavesGo cs).flatten

theorem toListC_cons (ch : PNode) (rest : List PNode) :
    toListC (ch :: rest) = toListN ch ++ toListC rest := by
  rw [toListC, pleavesGo, List.flatten_append, toListN, toListC]

/-- The flattened contents of a well-formed subtree are strictly
sorted by key. -/
theorem wfN_toList_sorted :
    ∀ (n : PNode) {c : Nat} {lo hi : Option Int}, wfN c lo hi n = true →
      ((toListN n).map Prod.fst).Pairwise (· < ·) := by
  intro n
  induction n using PNode.strongInduction with
  | hleaf es =>
    intro c lo hi hwf
    rw [toListN_leaf]
    exact (wfN_leaf_iff.mp hwf).1
  | hbranch ks cs hih =>
    intro c lo hi hwf
    obtain ⟨-, -, hsort, hksb, hseq⟩ := wfN_branch_iff.mp hwf
    have inner : ∀ (ks2 : List Int) (cs2 : List PNode) (lo2 : Option Int),
        (∀ ch ∈ cs2, ch ∈ cs) → wfSeq c lo2 hi ks2 cs2 = true →
        (∀ s ∈ ks2, inLo lo2 s = true ∧ inHi hi s = true) →
        ks2.Pairwise (· < ·) →
        ((toListC cs2).map Prod.fst).Pairwise (· < ·) := by
      intro ks2
      induction ks2 with
      | nil =>
        intro cs2 lo2 hmem hseq2 _ _
        match cs2, hseq2 with
        | [ch0], hseq2 =>
          rw [wfSeq] at hseq2
          rw [toListC_cons, show toListC [] = [] from rfl, List.append_nil]
          exact hih ch0 (hmem ch0 (by simp)) hseq2
      | cons s ks2 ihk =>
        intro cs2 lo2 hmem hseq2 hbnd hsort2
        match cs2, hseq2 with
        | ch0 :: cs2, hseq2 =>
          rw [wfSeq, Bool.and_eq_true] at hseq2
          rw [toListC_cons, List.map_append, List.pairwise_append]
          refine ⟨hih ch0 (hmem ch0 (by simp)) hseq2.1, ?_, ?_⟩
          · exact ihk cs2 (some s)
              (fun x hx => hmem x (List.mem_cons_of_mem ch0 hx)) hseq2.2
              (fun x hx => ⟨by
                  rw [inLo_some]
                  exact le_of_lt ((List.pairwise_cons.mp hsort2).1 x hx),
                (hbnd x (List.mem_cons_of_mem s hx)).2⟩)
              (List.pairwise_cons.mp hsort2).2
          · intro x hx y hy
            obtain ⟨e, he, rfl⟩ := List.mem_map.mp hx
            obtain ⟨e2, he2, rfl⟩ := List.mem_map.mp hy
            have h1 := (wfN_entry_bounds ch0 hseq2.1 e he).2
            rw [inHi_some] at h1
            obtain ⟨ch2, hch2, he2b⟩ : ∃ ch2 ∈ cs2, e2 ∈ toListN ch2 := by
              rw [toListC] at he2
              obtain ⟨es2, hes2, hee2⟩ := List.mem_flatten.mp he2
              obtain ⟨ch2, hch2, hes2b⟩ := pleavesGo_mem hes2
              exact ⟨ch2, hch2, mem_toListN_of_pleaves hes2b hee2⟩
            have h2 := (wfSeq_entry_bounds hseq2.2
              (fun x hx => ⟨by
                  rw [inLo_some]
                  exact le_of_lt ((List.pairwise_cons.mp hsort2).1 x hx),
                (hbnd x (List.mem_cons_of_mem s hx)).2⟩)
              (List.pairwise_cons.mp hsort2).2 ch2 hch2 e2 he2b).1
            rw [inLo_some] at h2
            omega
    have : toListN (PNode.branch ks cs) = toListC cs := rfl
    rw [this]
    exact inner ks cs lo (fun x hx => hx) hseq (fun s hsm => hksb s hsm) hsort

/-- Tree-level contract of `tree_insert`: invariant preservation, the
model insertion on contents, and the exact size discipline (`size`
unchanged on update, incremented for a new key). -/
theorem tree_insert_spec (t : PTree) (k v : Int) (h : wfT t = true) :
    wfT (tree_insert t k v) = true ∧
    toListT (tree_insert t k v) = linsert k v (toListT t) ∧
    (tree_insert t k v).capacity = t.capacity ∧
    (k ∈ (toListT t).map Prod.fst → (tree_insert t k v).size = t.size) ∧
    (k ∉ (toListT t).map Prod.fst →
      (tree_insert t k v).size = t.size + 1) := by
  obtain ⟨hc, hwf, hsize⟩ := wfT_iff.mp h
  have hlist := insert_rec_toList (k := k) (v := v) hc hwf rfl rfl
  have hspec := insert_rec_spec t.capacity k v t.root none none hc hwf rfl rfl
  unfold InsSpecAt at hspec
  rw [tree_insert, toListT, toListT]
  cases hres : tree_insert_recursive t.capacity t.root k v with
  | updated r =>
    rw [hres] at hlist hspec
    have hmem : k ∈ (toListN t.root).map Prod.fst :=
      hlist.2.mp ⟨r, rfl⟩
    have hsort0 := wfN_toList_sorted t.root hwf
    refine ⟨?_, hlist.1, rfl, fun _ => rfl, fun hcon => absurd hmem hcon⟩
    rw [wfT_iff]
    refine ⟨hc, hspec.1, ?_⟩
    show t.size = (toListN r).length
    rw [hlist.1, length_linsert_of_mem hsort0 hmem, hsize]
  | ok r =>
    rw [hres] at hlist hspec
    have hnm : k ∉ (toListN t.root).map Prod.fst := by
      intro hcon
      obtain ⟨r2, hr2⟩ := hlist.2.mpr hcon
      cases hr2
    refine ⟨?_, hlist.1, rfl, fun hcon => absurd hcon hnm, fun _ => rfl⟩
    rw [wfT_iff]
    refine ⟨hc, hspec.1, ?_⟩
    rw [show (⟨r, t.capacity, t.size + 1⟩ : PTree).size = t.size + 1 from rfl,
      hsize, show (⟨r, t.capacity, t.size + 1⟩ : PTree).root = r from rfl,
      hlist.1, length_linsert_of_not_mem hnm]
  | split r nn sk =>
    rw [hres] at hlist hspec
    have hnm : k ∉ (toListN t.root).map Prod.fst := by
      intro hcon
      obtain ⟨r2, hr2⟩ := hlist.2.mpr hcon
      cases hr2
    have hto : toListN (.branch [sk] [r, nn]) = linsert k v (toListN t.root) := by
      rw [toListN_two_children]
      exact hlist.1
    refine ⟨?_, hto, rfl, fun hcon => absurd hcon hnm, fun _ => rfl⟩
    rw [wfT_iff]
    refine ⟨hc, ?_, ?_⟩
    · rw [wfN_branch_iff]
      refine ⟨by simp, by simp; omega, by simp, by simp [inLo, inHi], ?_⟩
      rw [wfSeq, Bool.and_eq_true, wfSeq]
      exact ⟨hspec.1, hspec.2.1⟩
    · rw [show (⟨PNode.branch [sk] [r, nn], t.capacity, t.size + 1⟩ :
        PTree).size = t.size + 1 from rfl, hsize,
        show (⟨PNode.branch [sk] [r, nn], t.capacity, t.size + 1⟩ :
          PTree).root = PNode.branch [sk] [r, nn] from rfl, hto,
        length_linsert_of_not_mem hnm]

/-- Tree-level contract of `tree_delete`. -/
theorem tree_delete_spec (t : PTree) (k : Int) (h : wfT t = true) :
    ((tree_delete t k).2 = false → (tree_delete t k).1 = t ∧
      k ∉ (toListT t).map Prod.fst) ∧
    ((tree_delete t k).2 = true → wfT (tree_delete t k).1 = true ∧
      toListT (tree_delete t k).1 = lerase k (toListT t) ∧
      k ∈ (toListT t).map Prod.fst ∧
      (tree_delete t k).1.size + 1 = t.size ∧
      (tree_delete t k).1.capacity = t.capacity) := by
  obtain ⟨hc, hwf, hsize⟩ := wfT_iff.mp h
  have hspec := delete_rec_spec t.capacity k t.root none none hwf rfl rfl
  rw [tree_delete]
  cases hres : tree_delete_rec t.root k with
  | none =>
    rw [hres] at hspec
    exact ⟨fun _ => ⟨rfl, hspec⟩, fun hcon => by cases hcon⟩
  | some r =>
    rw [hres] at hspec
    obtain ⟨hmem, hw2, hto2⟩ := hspec
    refine ⟨fun hcon => (by cases hcon), fun _ => ⟨?_, hto2, hmem, ?_, rfl⟩⟩
    · rw [wfT_iff]
      refine ⟨hc, hw2, ?_⟩
      show t.size - 1 = (toListN r).length
      rw [hto2, hsize]
      have hlen2 := length_lerase_of_mem (l := toListN t.root) hmem
      omega
    · rw [show (⟨r, t.capacity, t.size - 1⟩ : PTree).size = t.size - 1 from rfl,
        hsize]
      have hlen := length_lerase_of_mem (k := k) hmem
      omega

/-- A run of insertions, as the driver scripts and tests perform it. -/
def prun (t : PTree) : List (Int × Int) → PTree
  | [] => t
  | (k, v) :: ops => prun (tree_insert t k v) ops

/-- The same run on the association-list model. -/
def lrun (l : List (Int × Int)) : List (Int × Int) → List (Int × Int)
  | [] => l
  | (k, v) :: ops => lrun (linsert k v l) ops

theorem pnew_wfT {cap : Nat} (hc : 4 ≤ cap) : wfT (pnew cap) = true := by
  rw [wfT_iff]
  refine ⟨hc, ?_, rfl⟩
  rw [pnew, wfN_leaf_iff]
  exact ⟨by simp, by simp, by simp⟩

theorem prun_spec : ∀ (ops : List (Int × Int)) (t : PTree), wfT t = true →
    wfT (prun t ops) = true ∧ toListT (prun t ops) = lrun (toListT t) ops
  | [], t, h => ⟨h, rfl⟩
  | (k, v) :: ops, t, h => by
    have hstep := tree_insert_spec t k v h
    have hrec := prun_spec ops (tree_insert t k v) hstep.1
    rw [prun, lrun]
    exact ⟨hrec.1, by rw [hrec.2, hstep.2.1]⟩

theorem mem_keys_lrun_mono {k : Int} :
    ∀ (ops : List (Int × Int)) (l : List (Int × Int)),
      k ∈ l.map Prod.fst → k ∈ (lrun l ops).map Prod.fst
  | [], _, h => h
  | (k2, v2) :: ops, l, h => by
    rw [lrun]
    exact mem_keys_lrun_mono ops _ (mem_keys_linsert.mpr (Or.inr h))

theorem mem_keys_lrun {k v : Int} :
    ∀ (ops : List (Int × Int)) (l : List (Int × Int)), (k, v) ∈ ops →
      k ∈ (lrun l ops).map Prod.fst
  | [], _, h => absurd h (List.not_mem_nil _)
  | (k2, v2) :: ops, l, h => by
    rcases List.mem_cons.mp h with heq | hmem
    · rw [lrun]
      injection heq with h1 h2
      subst h1
      exact mem_keys_lrun_mono ops _ (mem_keys_linsert.mpr (Or.inl rfl))
    · rw [lrun]
      exact mem_keys_lrun ops _ hmem

/-!
### The standalone C engine (`src/c/src/bplustree.c`)

The stub engine stores `int` keys and values in `bptree_node_t` nodes
(a tagged union of leaf and branch, the same shape as `PNode`), under a
`bplustree` struct holding `root` (NULL when empty), `capacity` and
`size`.  Parent pointers are represented by the navigation path
(`cnav` returns the stack of branch frames crossed, deepest first) and
in-place node mutation by rebuilding along that path (`crebuild`).
`malloc` is modelled as always succeeding, so
`BPTREE_ERROR_OUT_OF_MEMORY` is unreachable in the embedding.  The
leaf chain (`leaf.next` / `tree->first_leaf`) is represented by the
left-to-right list of leaves of the root (`cchainOf`), which is what
the pointer chain equals in every state the embedded operations
produce.  The navigation step of `bptree_insert` / `bptree_get`
(bplustree.c:203-209 etc.) computes the lower bound and advances one
child when the separator equals the key, which is the same
`childIndex` rule the Python engine uses; `binary_search_keys` and
`binary_search_exact` above already embed this file's two searches
(bplustree.c:129-156).
-/

/-- `bptree_result_t` (bplustree.h:26-33). -/
inductive CResult where
  | ok
  | errNullPointer
  | errInvalidCapacity
  | errKeyNotFound
  | errOutOfMemory
  | errInvalidState
deriving DecidableEq

/-- `struct bplustree` (bplustree.c:35-40); `first_leaf` is derived
(see `cchainOf`). -/
structure bplustree where
  root : Option PNode
  capacity : Nat
  size : Nat

/-- One branch crossed during navigation: its separators, its children
array, and the child index taken.  This is the functional rendering of
the `parent` pointer of `bptree_node_t`. -/
structure CFrame where
  ks : List Int
  cs : List PNode
  i : Nat

mutual

/-- The descent loop of `bptree_insert` / `bptree_get`
(bplustree.c:203-209): walk to the leaf owning `key`, returning the
branch frames crossed (deepest first) and the leaf's entries. -/
def cnav : PNode → Int → List CFrame × List (Int × Int)
  | .leaf es, _ => ([], es)
  | .branch ks cs, k => cnavGo ks cs cs (childIndex ks k) k

def cnavGo (ks : List Int) (cs0 : List PNode) :
    List PNode → Nat → Int → List CFrame × List (Int × Int)
  | [], _, _ => ([], [])
  | ch :: _, 0, k =>
      let r := cnav ch k
      (r.1 ++ [⟨ks, cs0, childIndex ks k⟩], r.2)
  | _ :: rest, n + 1, k => cnavGo ks cs0 rest n k

end

/-- Rebuild the tree after mutating the navigated node in place. -/
def crebuild : PNode → List CFrame → PNode
  | n, [] => n
  | n, f :: rest => crebuild (.branch f.ks (f.cs.set f.i n)) rest

/-- The linear scan of bplustree.c:259-267 locating where the promoted
split key goes in the parent: the first index whose separator exceeds
it, else `key_count`. -/
def cInsertPos : List Int → Int → Nat
  | [], _ => 0
  | x :: rest, skey => if skey < x then 0 else cInsertPos rest skey + 1

/-- The final insertion step of `bptree_insert` (bplustree.c:300-316):
shift the leaf's entries right of the lower bound and write the new
entry, bumping `size`. -/
def cfinalInsert (t : bplustree) (path : List CFrame)
    (es : List (Int × Int)) (k v : Int) : bplustree × CResult :=
  let pos := binary_search_keys (es.map Prod.fst) k
  let es2 := es.take pos ++ (k, v) :: es.drop pos
  (⟨some (crebuild (.leaf es2) path), t.capacity, t.size + 1⟩, .ok)

/-- Re-navigate from the (possibly new) root after a split
(bplustree.c:288-298) and perform the final insertion. -/
def cfinishInsert (t : bplustree) (k v : Int) : bplustree × CResult :=
  let nav := cnav (t.root.getD (.leaf [])) k
  cfinalInsert t nav.1 nav.2 k v

/-- `bptree_insert` (bplustree.c:192-318) on a non-NULL tree.  An empty
tree first gets a fresh leaf root.  A full target leaf is split in
place at `split_point = capacity / 2` (`split_leaf_node`,
bplustree.c:159-190): the left half stays in the truncated original
leaf, the right half goes to a new leaf.  When the leaf was the root a
new branch root is built; otherwise the promoted key (the right
half's first key) goes into the parent — unless the parent is full,
in which case the new right leaf is freed and the call fails with
`BPTREE_ERROR_INVALID_STATE`, leaving the original leaf already
truncated (bplustree.c:250-257). -/
def bptree_insert_t (t : bplustree) (k v : Int) : bplustree × CResult :=
  let root0 := t.root.getD (.leaf [])
  let nav := cnav root0 k
  let es := nav.2
  match binary_search_exact (es.map Prod.fst) k with
  | some pos =>
      (⟨some (crebuild (.leaf (es.set pos ((es.getD pos (0, 0)).1, v))) nav.1),
        t.capacity, t.size⟩, .ok)
  | none =>
      if t.capacity ≤ es.length then
        let sp := t.capacity / 2
        let leftEs := es.take sp
        let rightEs := es.drop sp
        let skey := (rightEs.headD (0, 0)).1
        match nav.1 with
        | [] =>
            cfinishInsert
              ⟨some (.branch [skey] [.leaf leftEs, .leaf rightEs]),
                t.capacity, t.size⟩ k v
        | f :: rest =>
            if t.capacity ≤ f.ks.length then
              (⟨some (crebuild (.leaf leftEs) (f :: rest)), t.capacity, t.size⟩,
                .errInvalidState)
            else
              let ipos := cInsertPos f.ks skey
              let pks2 := f.ks.take ipos ++ skey :: f.ks.drop ipos
              let pcs1 := f.cs.set f.i (.leaf leftEs)
              let pcs2 :=
                pcs1.take (ipos + 1) ++ PNode.leaf rightEs :: pcs1.drop (ipos + 1)
              cfinishInsert
                ⟨some (crebuild (.branch pks2 pcs2) rest), t.capacity, t.size⟩ k v
      else
        cfinalInsert ⟨some root0, t.capacity, t.size⟩ nav.1 es k v

/-- `bptree_get` (bplustree.c:319-344) on a non-NULL tree, returning
the looked-up value alongside the result code (the C function writes
through an out-pointer). -/
def bptree_get_t (t : bplustree) (k : Int) : Option Int × CResult :=
  match t.root with
  | none => (none, .errKeyNotFound)
  | some r =>
      let es := (cnav r k).2
      match binary_search_exact (es.map Prod.fst) k with
      | some pos => (some ((es.getD pos (0, 0)).2), .ok)
      | none => (none, .errKeyNotFound)

/-- `bptree_remove` (bplustree.c:348-377) on a non-NULL tree: only
implemented when the root is a leaf; a branch root yields
`BPTREE_ERROR_INVALID_STATE` ("TODO" in the source). -/
def bptree_remove_t (t : bplustree) (k : Int) : bplustree × CResult :=
  match t.root with
  | none => (t, .errKeyNotFound)
  | some (.branch ks cs) => (t, .errInvalidState)
  | some (.leaf es) =>
      match binary_search_exact (es.map Prod.fst) k with
      | none => (t, .errKeyNotFound)
      | some pos =>
          (⟨some (.leaf (es.take pos ++ es.drop (pos + 1))), t.capacity,
            t.size - 1⟩, .ok)

/-- `bptree_clear` (bplustree.c:404-413) on a non-NULL tree. -/
def bptree_clear_t (t : bplustree) : bplustree :=
  match t.root with
  | none => t
  | some _ => ⟨none, t.capacity, 0⟩

/-- `bptree_new` (bplustree.c:42-57): NULL for a capacity below
`BPTREE_MIN_CAPACITY = 4`. -/
def bptree_new (capacity : Nat) : Option bplustree :=
  if capacity < 4 then none else some ⟨none, capacity, 0⟩

/-- `bptree_insert` at the handle level (bplustree.c:192-193): a NULL
tree yields `BPTREE_ERROR_NULL_POINTER`. -/
def bptree_insert : Option bplustree → Int → Int → Option bplustree × CResult
  | none, _, _ => (none, .errNullPointer)
  | some t, k, v =>
      let r := bptree_insert_t t k v
      (some r.1, r.2)

/-- `bptree_get` at the handle level (bplustree.c:319-321). -/
def bptree_get : Option bplustree → Int → Option Int × CResult
  | none, _ => (none, .errNullPointer)
  | some t, k => bptree_get_t t k

/-- `bptree_contains` (bplustree.c:341-344). -/
def bptree_contains (t : Option bplustree) (k : Int) : Bool :=
  match (bptree_get t k).2 with
  | .ok => true
  | _ => false

/-- `bptree_remove` at the handle level (bplustree.c:348-349). -/
def bptree_remove : Option bplustree → Int → Option bplustree × CResult
  | none, _ => (none, .errNullPointer)
  | some t, k =>
      let r := bptree_remove_t t k
      (some r.1, r.2)

/-- `bptree_size` (bplustree.c:379-382): 0 for a NULL tree. -/
def bptree_size : Option bplustree → Nat
  | none => 0
  | some t => t.size

/-- `bptree_is_empty` (bplustree.c:384-387): true for a NULL tree. -/
def bptree_is_empty : Option bplustree → Bool
  | none => true
  | some t => t.size == 0

/-- The leaf chain as reachable from `tree->first_leaf`: the leaves of
the root left to right, `[]` when the root is NULL. -/
def cchainOf (t : bplustree) : List (List (Int × Int)) :=
  match t.root with
  | none => []
  | some r => pleaves r

/-- All entries of the tree in chain order. -/
def ctoList (t : bplustree) : List (Int × Int) :=
  match t.root with
  | none => []
  | some r => toListN r

/-- `struct bptree_iterator` (bplustree.c:413-422): the current node
and the unvisited remainder of the leaf chain, the index inside the
current node, and the optional `[start_key, end_key)` range. -/
structure CIter where
  chain : List (List (Int × Int))
  idx : Nat
  startKey : Int
  endKey : Int
  hasRange : Bool
deriving DecidableEq

/-- `bptree_iterator_new` (bplustree.c:424-436); the C code leaves
`start_key` / `end_key` uninitialized when `has_range` is false, the
embedding puts 0. -/
def bptree_iterator_new : Option bplustree → Option CIter
  | none => none
  | some t => some ⟨cchainOf t, 0, 0, 0, false⟩

/-- Within one leaf, the skip loop of `bptree_range_iterator_new`:
first index whose key is `≥ start`, if any. -/
def cseekIn (start : Int) : List (Int × Int) → Option Nat
  | [] => none
  | e :: rest => if start ≤ e.1 then some 0 else (cseekIn start rest).map (· + 1)

/-- The skip-to-`start_key` loop of `bptree_range_iterator_new`
(bplustree.c:452-463): advance entry by entry, hopping to the next
leaf at each node end; stop at the first key `≥ start`, at a node
whose count the index has reached (only an empty node, as the loop
re-enters every non-empty node at index 0), or at the chain's end. -/
def cseek (start : Int) : List (List (Int × Int)) → List (List (Int × Int)) × Nat
  | [] => ([], 0)
  | es :: rest =>
      match cseekIn start es with
      | some i => (es :: rest, i)
      | none => if es.isEmpty then (es :: rest, 0) else cseek start rest

/-- `bptree_range_iterator_new` (bplustree.c:438-466). -/
def bptree_range_iterator_new : Option bplustree → Int → Int → Option CIter
  | none, _, _ => none
  | some t, a, b =>
      let s := cseek a (cchainOf t)
      some ⟨s.1, s.2, a, b, true⟩

/-- `bptree_iterator_has_next` (bplustree.c:468-478). -/
def bptree_iterator_has_next (it : CIter) : Bool :=
  match it.chain with
  | [] => false
  | es :: _ =>
      if es.length ≤ it.idx then false
      else if it.hasRange then decide ((es.getD it.idx (0, 0)).1 < it.endKey)
      else true

/-- `bptree_iterator_next` (bplustree.c:480-495): `none` is the
`BPTREE_ERROR_INVALID_STATE` return when the iterator is exhausted. -/
def bptree_iterator_next (it : CIter) : Option ((Int × Int) × CIter) :=
  if bptree_iterator_has_next it then
    match it.chain with
    | [] => none
    | es :: rest =>
        let e := es.getD it.idx (0, 0)
        if es.length ≤ it.idx + 1 then
          some (e, ⟨rest, 0, it.startKey, it.endKey, it.hasRange⟩)
        else
          some (e, ⟨es :: rest, it.idx + 1, it.startKey, it.endKey, it.hasRange⟩)
  else none

/-- The client iteration loop (`while has_next: next`), fueled. -/
def citerCollect : Nat → CIter → List (Int × Int)
  | 0, _ => []
  | fuel + 1, it =>
      match bptree_iterator_next it with
      | none => []
      | some (e, it2) => e :: citerCollect fuel it2

/-- A node the C engine hangs under a branch root: always a non-empty
leaf (branch splits are unimplemented, so the tree never grows past
height 2, and split halves hold at least `capacity / 2 ≥ 2` entries). -/
def leafOnly : PNode → Bool
  | .leaf es => !es.isEmpty
  | .branch _ _ => false

/-- Invariant of every tree the C engine's successful operations
produce: capacity at least the module minimum, a well-formed root
whose branch children (if any) are non-empty leaves, and `size`
agreeing with the entry count. -/
def cwf (t : bplustree) : Bool :=
  4 ≤ t.capacity &&
    match t.root with
    | none => t.size == 0
    | some (.leaf es) =>
        wfN t.capacity none none (.leaf es) && t.size == es.length
    | some (.branch ks cs) =>
        wfN t.capacity none none (.branch ks cs) && cs.all leafOnly &&
          t.size == (toListN (.branch ks cs)).length

/-- A run of C-engine insertions that aborts at the first failure. -/
def crun (t : bplustree) : List (Int × Int) → Option bplustree
  | [] => some t
  | (k, v) :: ops =>
      match bptree_insert_t t k v with
      | (t2, .ok) => crun t2 ops
      | _ => none

/-- One scripted C-engine operation. -/
inductive COp where
  | ins (k v : Int)
  | del (k : Int)
  | clear
deriving DecidableEq

/-- A run of C-engine operations that aborts as soon as one fails
(`BPTREE_ERROR_INVALID_STATE`; a remove of an absent key is the benign
`BPTREE_ERROR_KEY_NOT_FOUND` and the run continues). -/
def crunOps (t : bplustree) : List COp → Option bplustree
  | [] => some t
  | op :: ops =>
      match op with
      | .ins k v =>
          match bptree_insert_t t k v with
          | (t2, .ok) => crunOps t2 ops
          | _ => none
      | .del k =>
          match bptree_remove_t t k with
          | (_, .errInvalidState) => none
          | (t2, _) => crunOps t2 ops
      | .clear => crunOps (bptree_clear_t t) ops

/-! ### Helper facts for the C engine proofs -/

theorem getD_map_fst : ∀ (es : List (Int × Int)) (p : Nat), p < es.length →
    (es.map Prod.fst).getD p 0 = (es.getD p (0, 0)).1
  | e :: t, 0, _ => rfl
  | e :: t, p + 1, h => by
    rw [List.map_cons, List.getD_cons_succ, List.getD_cons_succ]
    exact getD_map_fst t p (by simpa using h)
  | [], p, h => by simp at h

theorem headD_drop {α : Type} (d : α) :
    ∀ (l : List α) (n : Nat), (l.drop n).headD d = l.getD n d
  | [], n => by simp
  | a :: t, 0 => rfl
  | a :: t, n + 1 => by
    rw [List.drop_succ_cons, List.getD_cons_succ]
    exact headD_drop d t n

/-- The navigation index is determined by the bisect-right bracketing
conditions. -/
theorem childIndex_unique {ks : List Int} {k : Int} {i : Nat}
    (hs : ks.Pairwise (· < ·)) (hle : i ≤ ks.length)
    (hlo : ∀ j, j < i → j < ks.length → ks.getD j 0 ≤ k)
    (hhi : i < ks.length → k < ks.getD i 0) :
    childIndex ks k = i := by
  have hspec := childIndex_spec ks k hs
  rcases Nat.lt_trichotomy (childIndex ks k) i with hlt | heq | hgt
  · have h1 := hlo (childIndex ks k) hlt (by omega)
    have h2 := hspec.2.2 (childIndex ks k) (le_refl _) (by omega)
    omega
  · exact heq
  · have h1 := hspec.2.1 i hgt (by omega)
    have h2 := hhi (by omega)
    omega

/-- Characterization of the parent's linear scan `cInsertPos`. -/
theorem cInsertPos_eq :
    ∀ (ks : List Int) (s : Int) (i : Nat), i ≤ ks.length →
      (∀ j, j < i → ks.getD j 0 ≤ s) →
      (i < ks.length → s < ks.getD i 0) →
      cInsertPos ks s = i
  | [], s, i, hle, _, _ => by
    simp only [List.length_nil, Nat.le_zero] at hle
    rw [cInsertPos, hle]
  | x :: rest, s, 0, _, _, hhi => by
    have hx : s < x := by simpa using hhi (by simp)
    rw [cInsertPos, if_pos hx]
  | x :: rest, s, i + 1, hle, hlo, hhi => by
    have hx : x ≤ s := by simpa using hlo 0 (by omega)
    rw [cInsertPos, if_neg (by omega)]
    have hrec := cInsertPos_eq rest s i (by simpa using hle)
      (fun j hj => by simpa using hlo (j + 1) (by omega))
      (fun hlt => by simpa using hhi (by simpa using Nat.succ_lt_succ hlt))
    omega

theorem getD_insert_at_lt {α : Type} (d : α) :
    ∀ (l : List α) (x : α) (i j : Nat), j < i → i ≤ l.length →
      (l.take i ++ x :: l.drop i).getD j d = l.getD j d
  | _, _, 0, j, hj, _ => by omega
  | a :: t, x, i + 1, 0, _, _ => rfl
  | a :: t, x, i + 1, j + 1, hj, hle => by
    rw [List.take_succ_cons, List.drop_succ_cons, List.cons_append,
      List.getD_cons_succ, List.getD_cons_succ]
    exact getD_insert_at_lt d t x i j (by omega) (by simpa using hle)
  | [], _, i + 1, _, _, hle => by simp at hle

theorem getD_insert_at_self {α : Type} (d : α) :
    ∀ (l : List α) (x : α) (i : Nat), i ≤ l.length →
      (l.take i ++ x :: l.drop i).getD i d = x
  | l, x, 0, _ => by simp
  | a :: t, x, i + 1, h => by
    rw [List.take_succ_cons, List.drop_succ_cons, List.cons_append,
      List.getD_cons_succ]
    exact getD_insert_at_self d t x i (by simpa using h)
  | [], x, i + 1, h => by simp at h

theorem getD_splice_self {α : Type} (d : α) :
    ∀ (l : List α) (a b : α) (i : Nat), i ≤ l.length →
      (l.take i ++ a :: b :: l.drop (i + 1)).getD i d = a
  | l, a, b, 0, _ => by simp
  | x :: t, a, b, i + 1, h => by
    rw [List.take_succ_cons, List.drop_succ_cons, List.cons_append,
      List.getD_cons_succ]
    exact getD_splice_self d t a b i (by simpa using h)
  | [], a, b, i + 1, h => by simp at h

theorem getD_splice_succ {α : Type} (d : α) :
    ∀ (l : List α) (a b : α) (i : Nat), i ≤ l.length →
      (l.take i ++ a :: b :: l.drop (i + 1)).getD (i + 1) d = b
  | l, a, b, 0, _ => by simp
  | x :: t, a, b, i + 1, h => by
    rw [List.take_succ_cons, List.drop_succ_cons, List.cons_append,
      List.getD_cons_succ]
    exact getD_splice_succ d t a b i (by simpa using h)
  | [], a, b, i + 1, h => by simp at h

theorem all_set_of_all {α : Type} (p : α → Bool) :
    ∀ (l : List α) (i : Nat) (x : α), l.all p = true → p x = true →
      (l.set i x).all p = true
  | [], _, _, h, _ => h
  | a :: t, 0, x, h, hx => by
    rw [List.set_cons_zero, List.all_cons, hx, Bool.true_and]
    rw [List.all_cons, Bool.and_eq_true] at h
    exact h.2
  | a :: t, i + 1, x, h, hx => by
    rw [List.set_cons_succ, List.all_cons]
    rw [List.all_cons, Bool.and_eq_true] at h
    rw [h.1, Bool.true_and]
    exact all_set_of_all p t i x h.2 hx

theorem all_splice_of_all {α : Type} (p : α → Bool) (l : List α) (a b : α)
    (i : Nat) (h : l.all p = true) (ha : p a = true) (hb : p b = true) :
    (l.take i ++ a :: b :: l.drop (i + 1)).all p = true := by
  rw [List.all_eq_true] at h ⊢
  intro x hx
  rcases List.mem_append.mp hx with hx | hx
  · exact h x (List.mem_of_mem_take hx)
  · rcases List.mem_cons.mp hx with rfl | hx
    · exact ha
    rcases List.mem_cons.mp hx with rfl | hx
    · exact hb
    · exact h x (List.mem_of_mem_drop hx)

/-- In a sorted association list, the value at the position holding
key `k` is what lookup returns. -/
theorem lookupKV_at_pos {k : Int} :
    ∀ {es : List (Int × Int)} {pos : Nat},
      (es.map Prod.fst).Pairwise (· < ·) → pos < es.length →
      (es.map Prod.fst).getD pos 0 = k →
      lookupKV es k = some ((es.getD pos (0, 0)).2)
  | [], pos, _, h, _ => by simp at h
  | e :: t, 0, _, _, hk => by
    rw [List.map_cons, List.getD_cons_zero] at hk
    rw [lookupKV_cons_pos hk, List.getD_cons_zero]
  | e :: t, pos + 1, hs, hlen, hk => by
    rw [List.map_cons, List.getD_cons_succ] at hk
    have hkt : k ∈ t.map Prod.fst := by
      rw [← hk]
      exact getD_mem_of_lt 0 (by rw [List.length_map]; simpa using hlen)
    have hlt : e.1 < k := by
      rw [List.map_cons, List.pairwise_cons] at hs
      exact hs.1 k hkt
    rw [lookupKV_cons_neg (by omega), List.getD_cons_succ]
    rw [List.map_cons, List.pairwise_cons] at hs
    exact lookupKV_at_pos hs.2 (by simpa using hlen) hk

/-! ### Navigation of the C engine -/

theorem cnavGo_eq (k : Int) (ks : List Int) (cs0 : List PNode) :
    ∀ (rest : List PNode) (n : Nat), n < rest.length →
      cnavGo ks cs0 rest n k =
        ((cnav (childD rest n) k).1 ++ [⟨ks, cs0, childIndex ks k⟩],
          (cnav (childD rest n) k).2)
  | ch :: _, 0, _ => rfl
  | _ :: rest, n + 1, h => by
    rw [cnavGo, childD_cons_succ]
    exact cnavGo_eq k ks cs0 rest n (by simpa using h)
  | [], n, h => by simp at h

theorem cnavGo_oob (k : Int) (ks : List Int) (cs0 : List PNode) :
    ∀ (rest : List PNode) (n : Nat), rest.length ≤ n →
      cnavGo ks cs0 rest n k = ([], [])
  | [], _, _ => by rw [cnavGo]
  | ch :: rest, 0, h => by simp at h
  | _ :: rest, n + 1, h => by
    rw [cnavGo]
    exact cnavGo_oob k ks cs0 rest n (by simpa using h)

theorem findGo_oob (k : Int) : ∀ (cs : List PNode) (n : Nat), cs.length ≤ n →
    findGo cs n k = []
  | [], _, _ => by rw [findGo]
  | ch :: rest, 0, h => by simp at h
  | _ :: rest, n + 1, h => by
    rw [findGo]
    exact findGo_oob k rest n (by simpa using h)

theorem cnav_branch {ks : List Int} {cs : List PNode} (k : Int)
    (h : childIndex ks k < cs.length) :
    cnav (.branch ks cs) k =
      ((cnav (childD cs (childIndex ks k)) k).1 ++ [⟨ks, cs, childIndex ks k⟩],
        (cnav (childD cs (childIndex ks k)) k).2) := by
  rw [cnav]
  exact cnavGo_eq k ks cs cs (childIndex ks k) h

/-- The C descent loop visits the same leaf as the Python engine's
`tree_find_leaf`: both use the bisect-right child rule. -/
theorem cnav_snd_eq : ∀ (n : PNode) (k : Int),
    (cnav n k).2 = tree_find_leaf n k := by
  intro n
  induction n using PNode.strongInduction with
  | hleaf es => intro k; rfl
  | hbranch ks cs hih =>
    intro k
    by_cases h : childIndex ks k < cs.length
    · rw [cnav_branch k h, tree_find_leaf, findGo_eq k cs _ h]
      exact hih (childD cs (childIndex ks k)) (getD_mem_of_lt _ h) k
    · rw [cnav, cnavGo_oob k ks cs cs _ (by omega), tree_find_leaf,
        findGo_oob k cs _ (by omega)]

theorem cwf_dest {t : bplustree} (h : cwf t = true) :
    4 ≤ t.capacity ∧
    ((t.root = none ∧ t.size = 0) ∨
      (∃ r, t.root = some r ∧ wfN t.capacity none none r = true ∧
        (∀ ks cs, r = .branch ks cs → cs.all leafOnly = true) ∧
        t.size = (toListN r).length)) := by
  rw [cwf, Bool.and_eq_true] at h
  refine ⟨by simpa using h.1, ?_⟩
  have h2 := h.2
  cases hroot : t.root with
  | none =>
    rw [hroot] at h2
    exact Or.inl ⟨rfl, by simpa using h2⟩
  | some r =>
    cases r with
    | leaf es =>
      rw [hroot] at h2
      rw [Bool.and_eq_true] at h2
      refine Or.inr ⟨.leaf es, rfl, h2.1, ?_, ?_⟩
      · intro ks cs hcon
        cases hcon
      · rw [toListN_leaf]
        simpa using h2.2
    | branch ks cs =>
      rw [hroot] at h2
      rw [Bool.and_eq_true, Bool.and_eq_true] at h2
      refine Or.inr ⟨.branch ks cs, rfl, h2.1.1, fun ks2 cs2 hcon => ?_,
        by simpa using h2.2⟩
      cases hcon
      exact h2.1.2

theorem cwf_build {cap sz : Nat} {r : PNode} (hc : 4 ≤ cap)
    (hwf : wfN cap none none r = true)
    (hlo : ∀ ks cs, r = .branch ks cs → cs.all leafOnly = true)
    (hsz : sz = (toListN r).length) :
    cwf ⟨some r, cap, sz⟩ = true := by
  rw [cwf, Bool.and_eq_true]
  refine ⟨by simpa using hc, ?_⟩
  cases r with
  | leaf es =>
    rw [Bool.and_eq_true]
    refine ⟨hwf, ?_⟩
    rw [toListN_leaf] at hsz
    simpa using hsz
  | branch ks cs =>
    rw [Bool.and_eq_true, Bool.and_eq_true]
    exact ⟨⟨hwf, hlo ks cs rfl⟩, by simpa using hsz⟩

/-- The key-ordered decomposition of a well-formed subtree's contents
around the navigated leaf. -/
theorem nav_decomp {c : Nat} (k : Int) {r : PNode} {lo hi : Option Int}
    (hwf : wfN c lo hi r = true) (hklo : inLo lo k = true)
    (hkhi : inHi hi k = true) :
    ∃ Af Bf : List (Int × Int),
      toListN r = Af ++ (tree_find_leaf r k ++ Bf) ∧
      (∀ e ∈ Af, e.1 < k) ∧ (∀ e ∈ Bf, k < e.1) ∧
      ((tree_find_leaf r k).map Prod.fst).Pairwise (· < ·) := by
  obtain ⟨hsort, A, B, hpl, hA, hB⟩ := find_leaf_spec c k r lo hi hwf hklo hkhi
  refine ⟨A.flatten, B.flatten, ?_, ?_, ?_, hsort⟩
  · rw [toListN, hpl, List.flatten_append, List.flatten_cons]
  · intro e he
    obtain ⟨es, hes, hee⟩ := List.mem_flatten.mp he
    exact hA es hes e hee
  · intro e he
    obtain ⟨es, hes, hee⟩ := List.mem_flatten.mp he
    exact hB es hes e hee

theorem nav_mem_total_iff {c : Nat} {r : PNode} {lo hi : Option Int} {k : Int}
    (hwf : wfN c lo hi r = true) (hklo : inLo lo k = true)
    (hkhi : inHi hi k = true) :
    (k ∈ (toListN r).map Prod.fst ↔ k ∈ (tree_find_leaf r k).map Prod.fst) := by
  obtain ⟨Af, Bf, hto, hAf, hBf, hsort⟩ := nav_decomp k hwf hklo hkhi
  rw [hto]
  simp only [List.map_append, List.mem_append]
  constructor
  · rintro (h | h | h)
    · obtain ⟨e, he, rfl⟩ := List.mem_map.mp h
      exact absurd (hAf e he) (by omega)
    · exact h
    · obtain ⟨e, he, rfl⟩ := List.mem_map.mp h
      exact absurd (hBf e he) (by omega)
  · intro h
    exact Or.inr (Or.inl h)

theorem nav_lookup_eq {c : Nat} {r : PNode} {lo hi : Option Int} {k : Int}
    (hwf : wfN c lo hi r = true) (hklo : inLo lo k = true)
    (hkhi : inHi hi k = true) :
    lookupKV (toListN r) k = lookupKV (tree_find_leaf r k) k := by
  obtain ⟨Af, Bf, hto, hAf, hBf, hsort⟩ := nav_decomp k hwf hklo hkhi
  rw [hto, lookupKV_append_skip_left (fun e he => by have := hAf e he; omega),
    lookupKV_append_skip_right (fun e he => by have := hBf e he; omega)]

/-- `bptree_get` computes association-list lookup on a well-formed
tree: the returned value and the success code match. -/
theorem bptree_get_t_spec {t : bplustree} {k : Int} (h : cwf t = true) :
    (bptree_get_t t k).1 = lookupKV (ctoList t) k ∧
    ((bptree_get_t t k).2 = CResult.ok ↔ k ∈ (ctoList t).map Prod.fst) := by
  obtain ⟨hc, hcase⟩ := cwf_dest h
  rcases hcase with ⟨hroot, hsz⟩ | ⟨r, hroot, hwf, hlo, hsz⟩
  · simp only [bptree_get_t, ctoList, hroot]
    refine ⟨rfl, ?_, ?_⟩
    · intro hcon
      cases hcon
    · intro hcon
      simp at hcon
  · simp only [bptree_get_t, ctoList, hroot, cnav_snd_eq r k]
    obtain ⟨Af, Bf, hto, hAf, hBf, hsrt⟩ := nav_decomp k hwf rfl rfl
    have hbse := binary_search_exact_spec
      ((tree_find_leaf r k).map Prod.fst) k hsrt
    cases hres : binary_search_exact ((tree_find_leaf r k).map Prod.fst) k with
    | some pos =>
      rw [hres] at hbse
      obtain ⟨hplen, hpkey⟩ := hbse
      have hplen2 : pos < (tree_find_leaf r k).length := by
        rw [List.length_map] at hplen
        exact hplen
      have hmem := getD_mem_of_lt (0 : Int) hplen
      rw [hpkey] at hmem
      refine ⟨?_, ?_⟩
      · rw [nav_lookup_eq hwf rfl rfl, lookupKV_at_pos hsrt hplen2 hpkey]
      · exact ⟨fun _ => (nav_mem_total_iff hwf rfl rfl).mpr hmem, fun _ => rfl⟩
    | none =>
      rw [hres] at hbse
      have hnm : k ∉ (tree_find_leaf r k).map Prod.fst := by
        intro hcon
        obtain ⟨i, hi, hie⟩ := List.mem_iff_getElem.mp hcon
        exact hbse i hi (by rw [List.getD_eq_getElem _ 0 hi, hie])
      refine ⟨?_, ?_, ?_⟩
      · rw [nav_lookup_eq hwf rfl rfl, lookupKV_eq_none_of_not_mem hnm]
      · intro hcon
        cases hcon
      · intro hcon
        exact absurd ((nav_mem_total_iff hwf rfl rfl).mp hcon) hnm

/-- Every leaf of a well-formed subtree respects the capacity. -/
theorem pleaves_wf_length :
    ∀ (n : PNode) {c : Nat} {lo hi : Option Int}, wfN c lo hi n = true →
      ∀ es ∈ pleaves n, es.length ≤ c := by
  intro n
  induction n using PNode.strongInduction with
  | hleaf es0 =>
    intro c lo hi hwf es hes
    have : es = es0 := by simpa [pleaves] using hes
    subst this
    exact (wfN_leaf_iff.mp hwf).2.1
  | hbranch ks cs hih =>
    intro c lo hi hwf es hes
    obtain ⟨-, -, -, -, hseq⟩ := wfN_branch_iff.mp hwf
    have inner : ∀ (ks2 : List Int) (cs2 : List PNode) (lo2 : Option Int),
        (∀ ch ∈ cs2, ch ∈ cs) → wfSeq c lo2 hi ks2 cs2 = true →
        ∀ es1 ∈ pleavesGo cs2, es1.length ≤ c := by
      intro ks2
      induction ks2 with
      | nil =>
        intro cs2 lo2 hmem hseq2 es1 hes1
        match cs2, hseq2, hes1 with
        | [ch0], hseq2, hes1 =>
          rw [wfSeq] at hseq2
          rw [pleavesGo] at hes1
          rcases List.mem_append.mp hes1 with h1 | h1
          · exact hih ch0 (hmem ch0 (by simp)) hseq2 es1 h1
          · rw [show pleavesGo ([] : List PNode) = [] from rfl] at h1
            exact absurd h1 (List.not_mem_nil es1)
      | cons s2 ks2 ihk =>
        intro cs2 lo2 hmem hseq2 es1 hes1
        match cs2, hseq2, hes1 with
        | ch0 :: cs2, hseq2, hes1 =>
          rw [wfSeq, Bool.and_eq_true] at hseq2
          rw [pleavesGo] at hes1
          rcases List.mem_append.mp hes1 with h1 | h1
          · exact hih ch0 (hmem ch0 (by simp)) hseq2.1 es1 h1
          · exact ihk cs2 (some s2)
              (fun x hx => hmem x (List.mem_cons_of_mem ch0 hx)) hseq2.2 es1 h1
    rw [pleaves] at hes
    exact inner ks cs lo (fun x hx => hx) hseq es hes

theorem tree_find_leaf_length_le {c : Nat} {r : PNode}
    (k : Int) (hwf : wfN c none none r = true) :
    (tree_find_leaf r k).length ≤ c := by
  obtain ⟨-, A, B, hpl, -, -⟩ := find_leaf_spec c k r none none hwf rfl rfl
  exact pleaves_wf_length r hwf _ (by rw [hpl]; simp)

theorem map_fst_set_value :
    ∀ (es : List (Int × Int)) (pos : Nat) (v : Int),
      (es.set pos ((es.getD pos (0, 0)).1, v)).map Prod.fst = es.map Prod.fst
  | [], _, _ => rfl
  | e :: t, 0, v => by simp
  | e :: t, pos + 1, v => by
    rw [List.getD_cons_succ, List.set_cons_succ, List.map_cons, List.map_cons,
      map_fst_set_value t pos v]

/-- The navigated child's window contains the key. -/
theorem nav_window {ks : List Int} {k : Int} {lo hi loI hiI : Option Int}
    {i : Nat} (hs : ks.Pairwise (· < ·)) (hidef : i = childIndex ks k)
    (hklo : inLo lo k = true) (hkhi : inHi hi k = true)
    (z2 : i = 0 → loI = lo) (z3 : 0 < i → loI = some (ks.getD (i - 1) 0))
    (z4 : i = ks.length → hiI = hi) (z5 : i < ks.length → hiI = some (ks.getD i 0)) :
    inLo loI k = true ∧ inHi hiI k = true := by
  subst hidef
  have hispec := childIndex_spec ks k hs
  constructor
  · rcases Nat.eq_zero_or_pos (childIndex ks k) with h0 | hpos
    · rw [z2 h0]
      exact hklo
    · rw [z3 hpos, inLo_some]
      exact hispec.2.1 (childIndex ks k - 1) (by omega) (by omega)
  · rcases Nat.lt_or_ge (childIndex ks k) ks.length with hlt | hge
    · rw [z5 hlt, inHi_some]
      exact hispec.2.2 (childIndex ks k) (le_refl _) hlt
    · rw [z4 (by omega)]
      exact hkhi

/-- Replacing the contents of the navigated leaf: the rebuilt tree is
well-formed as soon as the new entries are sorted, within capacity and
keyed either by `k` or by old keys of that leaf, and its contents are
the old tree's with the navigated leaf's entries substituted. -/
theorem cnav_rebuild_spec {cap : Nat} {r : PNode} {k : Int}
    (es2 : List (Int × Int)) (hc : 4 ≤ cap)
    (hwf : wfN cap none none r = true)
    (hlo : ∀ ks cs, r = .branch ks cs → cs.all leafOnly = true)
    (hsort2 : (es2.map Prod.fst).Pairwise (· < ·))
    (hlen2 : es2.length ≤ cap) (hne2 : es2 ≠ [])
    (hbnd2 : ∀ x ∈ es2.map Prod.fst,
      x = k ∨ x ∈ (tree_find_leaf r k).map Prod.fst) :
    ∃ Af Bf : List (Int × Int),
      toListN r = Af ++ (tree_find_leaf r k ++ Bf) ∧
      (∀ e ∈ Af, e.1 < k) ∧ (∀ e ∈ Bf, k < e.1) ∧
      wfN cap none none (crebuild (.leaf es2) (cnav r k).1) = true ∧
      (∀ ks cs, crebuild (.leaf es2) (cnav r k).1 = .branch ks cs →
        cs.all leafOnly = true) ∧
      toListN (crebuild (.leaf es2) (cnav r k).1) = Af ++ (es2 ++ Bf) := by
  cases r with
  | leaf es =>
    refine ⟨[], [], by simp [toListN_leaf, tree_find_leaf], by simp, by simp,
      ?_, ?_, by simp [toListN_leaf, crebuild, cnav]⟩
    · rw [show (cnav (PNode.leaf es) k).1 = [] from rfl, crebuild, wfN_leaf_iff]
      exact ⟨hsort2, hlen2, fun x _ => ⟨rfl, rfl⟩⟩
    · intro ks cs hcon
      rw [show (cnav (PNode.leaf es) k).1 = [] from rfl, crebuild] at hcon
      cases hcon
  | branch ks cs =>
    obtain ⟨hks1, hksc, hsort, hksb, hseq⟩ := wfN_branch_iff.mp hwf
    have hcslen := wfSeq_length hseq
    have hispec := childIndex_spec ks k hsort
    have hilt : childIndex ks k < cs.length := by omega
    have hall := hlo ks cs rfl
    have hchmem : childD cs (childIndex ks k) ∈ cs := getD_mem_of_lt _ hilt
    have hchleaf := List.all_eq_true.mp hall _ hchmem
    obtain ⟨es0, hch⟩ : ∃ es0, childD cs (childIndex ks k) = .leaf es0 := by
      cases hcd : childD cs (childIndex ks k) with
      | leaf es0 => exact ⟨es0, rfl⟩
      | branch ks2 cs2 =>
        rw [hcd, leafOnly] at hchleaf
        cases hchleaf
    have hnav : cnav (.branch ks cs) k = ([⟨ks, cs, childIndex ks k⟩], es0) := by
      rw [cnav_branch k hilt, hch]
      rfl
    have hfl : tree_find_leaf (.branch ks cs) k = es0 := by
      rw [tree_find_leaf, findGo_eq k cs _ hilt, hch]
      rfl
    obtain ⟨loI, hiI, hwfI, z2, z3, z4, z5, z6, z7, z8, z9⟩ :=
      wfSeq_zipper cs ks none (childIndex ks k) hseq hsort hksb hilt
    rw [hch] at hwfI
    obtain ⟨hsort0, hlen0, hbnd0⟩ := wfN_leaf_iff.mp hwfI
    have hwindow := nav_window hsort rfl (inLo_none k) (inHi_none k) z2 z3 z4 z5
    have hAk : ∀ e ∈ (pleavesGo (cs.take (childIndex ks k))).flatten, e.1 < k := by
      intro e he
      obtain ⟨es1, hes1, hee⟩ := List.mem_flatten.mp he
      have hz := z6 es1 hes1 e hee
      rcases Nat.eq_zero_or_pos (childIndex ks k) with h0 | hpos
      · rw [h0] at hes1
        simp [pleavesGo] at hes1
      · rw [z3 hpos, inHi_some] at hz
        have hk := hwindow.1
        rw [z3 hpos, inLo_some] at hk
        omega
    have hBk : ∀ e ∈ (pleavesGo (cs.drop (childIndex ks k + 1))).flatten,
        k < e.1 := by
      intro e he
      obtain ⟨es1, hes1, hee⟩ := List.mem_flatten.mp he
      have hz := z7 es1 hes1 e hee
      rcases Nat.lt_or_ge (childIndex ks k) ks.length with hlt | hge
      · rw [z5 hlt, inLo_some] at hz
        have hk := hwindow.2
        rw [z5 hlt, inHi_some] at hk
        omega
      · have hdrop : cs.drop (childIndex ks k + 1) = [] :=
          List.drop_eq_nil_of_le (by omega)
        rw [hdrop] at hes1
        simp [pleavesGo] at hes1
    have hwf2 : wfN cap loI hiI (.leaf es2) = true := by
      rw [wfN_leaf_iff]
      refine ⟨hsort2, hlen2, ?_⟩
      intro x hx
      rcases hbnd2 x hx with rfl | hx2
      · exact hwindow
      · rw [hfl] at hx2
        exact hbnd0 x hx2
    refine ⟨(pleavesGo (cs.take (childIndex ks k))).flatten,
      (pleavesGo (cs.drop (childIndex ks k + 1))).flatten, ?_, hAk, hBk,
      ?_, ?_, ?_⟩
    · rw [@toListN_branch_decomp ks cs (childIndex ks k) hilt, hch, toListN_leaf,
        hfl]
    · rw [hnav]
      show wfN cap none none (.branch ks (cs.set (childIndex ks k) (.leaf es2))) = true
      rw [wfN_branch_iff]
      exact ⟨hks1, hksc, hsort, hksb, z8 _ hwf2⟩
    · rw [hnav]
      intro ks2 cs2 hcon
      show cs2.all leafOnly = true
      have : PNode.branch ks (cs.set (childIndex ks k) (.leaf es2)) =
          .branch ks2 cs2 := hcon
      cases this
      refine all_set_of_all leafOnly cs _ _ hall ?_
      rw [leafOnly]
      cases hes2 : es2 with
      | nil => exact absurd hes2 hne2
      | cons a l => rfl
    · rw [hnav]
      show toListN (.branch ks (cs.set (childIndex ks k) (.leaf es2))) = _
      rw [toListN_branch_set _ hilt, toListN_leaf]

/-- Re-navigating and inserting `k`: correct whenever the leaf that
owns `k` has room. -/
theorem cfinishInsert_spec {cap : Nat} (sz : Nat) {r : PNode} {k v : Int}
    (hc : 4 ≤ cap) (hwf : wfN cap none none r = true)
    (hlo : ∀ ks cs, r = .branch ks cs → cs.all leafOnly = true)
    (hnm : k ∉ (toListN r).map Prod.fst)
    (hroom : (tree_find_leaf r k).length < cap) :
    ∃ r2, cfinishInsert ⟨some r, cap, sz⟩ k v = (⟨some r2, cap, sz + 1⟩, .ok) ∧
      wfN cap none none r2 = true ∧
      (∀ ks cs, r2 = .branch ks cs → cs.all leafOnly = true) ∧
      toListN r2 = linsert k v (toListN r) := by
  have hsortL := (find_leaf_spec cap k r none none hwf rfl rfl).1
  have hnmL : k ∉ (tree_find_leaf r k).map Prod.fst :=
    fun hcon => hnm ((nav_mem_total_iff hwf rfl rfl).mpr hcon)
  have hlen2 : (linsert k v (tree_find_leaf r k)).length ≤ cap := by
    rw [length_linsert_of_not_mem hnmL]
    omega
  have hne2 : linsert k v (tree_find_leaf r k) ≠ [] := by
    intro hcon
    have := length_linsert_of_not_mem (v := v) hnmL
    rw [hcon] at this
    simp at this
  obtain ⟨Af, Bf, hto, hAf, hBf, hwf2, hlo2, hto2⟩ :=
    cnav_rebuild_spec (linsert k v (tree_find_leaf r k)) hc hwf hlo
      (linsert_sorted hsortL) hlen2 hne2 (fun x hx => mem_keys_linsert.mp hx)
  refine ⟨crebuild (.leaf (linsert k v (tree_find_leaf r k))) (cnav r k).1,
    ?_, hwf2, hlo2, ?_⟩
  · simp only [cfinishInsert, Option.getD_some, cfinalInsert]
    rw [cnav_snd_eq r k, ← linsert_eq_insert_at hsortL hnmL]
  · rw [hto2, hto, linsert_append_left hAf, linsert_append_right hBf]

theorem leafOnly_leaf {es : List (Int × Int)} (h : es ≠ []) :
    leafOnly (.leaf es) = true := by
  cases es with
  | nil => exact absurd rfl h
  | cons a l => rfl

theorem getD_insert_at_next {α : Type} (d : α) :
    ∀ (l : List α) (x : α) (i : Nat), i ≤ l.length →
      (l.take i ++ x :: l.drop i).getD (i + 1) d = l.getD i d
  | l, x, 0, _ => by simp
  | a :: t, x, i + 1, h => by
    rw [List.take_succ_cons, List.drop_succ_cons, List.cons_append,
      List.getD_cons_succ, List.getD_cons_succ]
    exact getD_insert_at_next d t x i (by simpa using h)
  | [], x, i + 1, h => by simp at h

theorem toListN_splice {ks2 : List Int} {cs : List PNode} {i : Nat}
    (la lb : List (Int × Int)) :
    toListN (.branch ks2 (cs.take i ++ .leaf la :: .leaf lb :: cs.drop (i + 1))) =
      (pleavesGo (cs.take i)).flatten ++
        ((la ++ lb) ++ (pleavesGo (cs.drop (i + 1))).flatten) := by
  rw [toListN, pleaves, pleavesGo_append, pleavesGo, pleavesGo, pleaves, pleaves,
    List.flatten_append]
  simp [List.append_assoc]

theorem skey_eq {es0 : List (Int × Int)} {sp : Nat} (h : sp < es0.length) :
    ((es0.drop sp).headD (0, 0)).1 = (es0.map Prod.fst).getD sp 0 := by
  rw [headD_drop, getD_map_fst es0 sp h]

/-- The two halves of a full leaf cut at `capacity / 2` are well-formed
on the windows split at the cut key. -/
theorem leaf_halves_wf {cap : Nat} {es0 : List (Int × Int)} {loI hiI : Option Int}
    (hc : 4 ≤ cap) (hsort0 : (es0.map Prod.fst).Pairwise (· < ·))
    (hlen0 : es0.length = cap)
    (hbnd0 : ∀ x ∈ es0.map Prod.fst, inLo loI x = true ∧ inHi hiI x = true) :
    wfN cap loI (some ((es0.map Prod.fst).getD (cap / 2) 0))
      (.leaf (es0.take (cap / 2))) = true ∧
    wfN cap (some ((es0.map Prod.fst).getD (cap / 2) 0)) hiI
      (.leaf (es0.drop (cap / 2))) = true := by
  have hmaplen : cap / 2 < (es0.map Prod.fst).length := by
    rw [List.length_map]
    omega
  constructor
  · rw [wfN_leaf_iff]
    refine ⟨?_, ?_, ?_⟩
    · rw [List.map_take]
      exact List.Pairwise.sublist (List.take_sublist _ _) hsort0
    · rw [List.length_take]
      omega
    · intro x hx
      rw [List.map_take] at hx
      refine ⟨(hbnd0 x (List.mem_of_mem_take hx)).1, ?_⟩
      rw [inHi_some]
      exact sorted_take_lt_getD hsort0 hmaplen x hx
  · rw [wfN_leaf_iff]
    refine ⟨?_, ?_, ?_⟩
    · rw [List.map_drop]
      exact List.Pairwise.sublist (List.drop_sublist _ _) hsort0
    · rw [List.length_drop]
      omega
    · intro x hx
      rw [List.map_drop] at hx
      refine ⟨?_, (hbnd0 x (List.mem_of_mem_drop hx)).2⟩
      rw [inLo_some]
      exact drop_mem_of_index
        (fun j hj hjlen => sorted_getD_mono hsort0 hj hjlen) x hx

/-- Splitting a full root leaf and inserting through the fresh branch
root (bplustree.c:228-247 followed by the re-navigation). -/
theorem csplit_root_spec {cap : Nat} (sz : Nat) {es : List (Int × Int)} {k v : Int}
    (hc : 4 ≤ cap) (hwf : wfN cap none none (.leaf es) = true)
    (hnm : k ∉ es.map Prod.fst) (hfull : es.length = cap) :
    ∃ r2, cfinishInsert
        ⟨some (.branch [((es.drop (cap / 2)).headD (0, 0)).1]
          [.leaf (es.take (cap / 2)), .leaf (es.drop (cap / 2))]), cap, sz⟩ k v =
        (⟨some r2, cap, sz + 1⟩, .ok) ∧
      wfN cap none none r2 = true ∧
      (∀ ks2 cs2, r2 = .branch ks2 cs2 → cs2.all leafOnly = true) ∧
      toListN r2 = linsert k v es := by
  obtain ⟨hsort0, hlen0, -⟩ := wfN_leaf_iff.mp hwf
  have hsplen : cap / 2 < es.length := by omega
  have hskey : ((es.drop (cap / 2)).headD (0, 0)).1 =
      (es.map Prod.fst).getD (cap / 2) 0 := skey_eq hsplen
  obtain ⟨hwfL, hwfR⟩ :=
    leaf_halves_wf hc hsort0 hfull (fun x _ => ⟨inLo_none x, inHi_none x⟩)
  have hwfpre : wfN cap none none
      (.branch [((es.drop (cap / 2)).headD (0, 0)).1]
        [.leaf (es.take (cap / 2)), .leaf (es.drop (cap / 2))]) = true := by
    rw [wfN_branch_iff]
    refine ⟨by simp, by simp; omega, by simp, fun x _ => ⟨rfl, rfl⟩, ?_⟩
    rw [wfSeq, wfSeq, Bool.and_eq_true, hskey]
    exact ⟨hwfL, hwfR⟩
  have hloPre : ∀ ks2 cs2,
      (PNode.branch [((es.drop (cap / 2)).headD (0, 0)).1]
        [.leaf (es.take (cap / 2)), .leaf (es.drop (cap / 2))]) =
        .branch ks2 cs2 → cs2.all leafOnly = true := by
    intro ks2 cs2 hcon
    cases hcon
    rw [List.all_cons, List.all_cons, List.all_nil, Bool.and_true,
      Bool.and_eq_true]
    constructor
    · exact leafOnly_leaf (List.length_pos.mp (by rw [List.length_take]; omega))
    · exact leafOnly_leaf (List.length_pos.mp (by rw [List.length_drop]; omega))
  have htoPre : toListN
      (.branch [((es.drop (cap / 2)).headD (0, 0)).1]
        [.leaf (es.take (cap / 2)), .leaf (es.drop (cap / 2))]) = es := by
    rw [toListN_two_children, toListN_leaf, toListN_leaf, List.take_append_drop]
  have hsmem : (es.map Prod.fst).getD (cap / 2) 0 ∈ es.map Prod.fst :=
    getD_mem_of_lt 0 (by rw [List.length_map]; omega)
  have hks : k ≠ (es.map Prod.fst).getD (cap / 2) 0 := by
    intro hcon
    rw [hcon] at hnm
    exact hnm hsmem
  have hroom : (tree_find_leaf
      (.branch [((es.drop (cap / 2)).headD (0, 0)).1]
        [.leaf (es.take (cap / 2)), .leaf (es.drop (cap / 2))]) k).length <
      cap := by
    rcases lt_or_gt_of_ne hks with hlt | hgt
    · have hci : childIndex [((es.drop (cap / 2)).headD (0, 0)).1] k = 0 :=
        childIndex_unique (by simp) (by simp)
          (fun j hj _ => absurd hj (Nat.not_lt_zero j))
          (fun _ => by rw [List.getD_cons_zero, hskey]; exact hlt)
      rw [tree_find_leaf, hci]
      show (es.take (cap / 2)).length < cap
      rw [List.length_take]
      omega
    · have hci : childIndex [((es.drop (cap / 2)).headD (0, 0)).1] k = 1 :=
        childIndex_unique (by simp) (by simp)
          (fun j hj _ => by
            interval_cases j
            rw [List.getD_cons_zero, hskey]
            omega)
          (fun hcon => by simp at hcon)
      rw [tree_find_leaf, hci]
      show (es.drop (cap / 2)).length < cap
      rw [List.length_drop]
      omega
  obtain ⟨r2, hcomp, hwf2, hlo2, hto2⟩ :=
    cfinishInsert_spec sz (v := v) hc hwfpre hloPre
      (by rw [htoPre]; exact hnm) hroom
  exact ⟨r2, hcomp, hwf2, hlo2, by rw [hto2, htoPre]⟩

theorem length_splice {α : Type} (l : List α) (a b : α) (i : Nat)
    (h : i < l.length) :
    (l.take i ++ a :: b :: l.drop (i + 1)).length = l.length + 1 := by
  rw [List.length_append, List.length_take, List.length_cons, List.length_cons,
    List.length_drop]
  omega

/-- Splitting a full non-root leaf whose parent has room: the promoted
key and the new right leaf are inserted into the parent
(bplustree.c:248-284) and the re-navigated insert succeeds. -/
theorem csplit_parent_spec {cap : Nat} (sz : Nat) {ks : List Int}
    {cs : List PNode} {es0 : List (Int × Int)} {k v skey : Int} {i ipos : Nat}
    {pks2 : List Int} {pcs2 : List PNode}
    (hc : 4 ≤ cap) (hwf : wfN cap none none (.branch ks cs) = true)
    (hall : cs.all leafOnly = true)
    (hidef : i = childIndex ks k)
    (hch : childD cs i = .leaf es0)
    (hnm : k ∉ (toListN (.branch ks cs)).map Prod.fst)
    (hfull : es0.length = cap) (hpar : ks.length < cap)
    (hskey : skey = ((es0.drop (cap / 2)).headD (0, 0)).1)
    (hipos : ipos = cInsertPos ks skey)
    (hpks2 : pks2 = ks.take ipos ++ skey :: ks.drop ipos)
    (hpcs2 : pcs2 = (cs.set i (.leaf (es0.take (cap / 2)))).take (ipos + 1) ++
      PNode.leaf (es0.drop (cap / 2)) ::
        (cs.set i (.leaf (es0.take (cap / 2)))).drop (ipos + 1)) :
    ∃ r2, cfinishInsert ⟨some (.branch pks2 pcs2), cap, sz⟩ k v =
        (⟨some r2, cap, sz + 1⟩, .ok) ∧
      wfN cap none none r2 = true ∧
      (∀ ks2 cs2, r2 = .branch ks2 cs2 → cs2.all leafOnly = true) ∧
      toListN r2 = linsert k v (toListN (.branch ks cs)) := by
  obtain ⟨hks1, hksc, hsort, hksb, hseq⟩ := wfN_branch_iff.mp hwf
  have hcslen := wfSeq_length hseq
  have hispec := childIndex_spec ks k hsort
  rw [← hidef] at hispec
  have hilt : i < cs.length := by omega
  obtain ⟨loI, hiI, hwfI, z2, z3, z4, z5, z6, z7, z8, z9⟩ :=
    wfSeq_zipper cs ks none i hseq hsort hksb hilt
  rw [hch] at hwfI
  obtain ⟨hsort0, hlen0, hbnd0⟩ := wfN_leaf_iff.mp hwfI
  have hsplen : cap / 2 < es0.length := by omega
  have hmaplen0 : cap / 2 < (es0.map Prod.fst).length := by
    rw [List.length_map]
    omega
  have hskey2 : skey = (es0.map Prod.fst).getD (cap / 2) 0 := by
    rw [hskey]
    exact skey_eq hsplen
  have hsmem : skey ∈ es0.map Prod.fst := by
    rw [hskey2]
    exact getD_mem_of_lt 0 hmaplen0
  have hsbnd := hbnd0 skey hsmem
  have hfirstmem : (es0.map Prod.fst).getD 0 0 ∈ es0.map Prod.fst :=
    getD_mem_of_lt 0 (by omega)
  have hfirstlt : (es0.map Prod.fst).getD 0 0 < skey := by
    rw [hskey2]
    have h2 := List.pairwise_iff_getElem.mp hsort0 0 (cap / 2) (by omega)
      (by omega) (by omega)
    rw [← List.getD_eq_getElem _ 0
        (by omega : (0 : Nat) < (es0.map Prod.fst).length),
      ← List.getD_eq_getElem _ 0 hmaplen0] at h2
    exact h2
  have hfirstbnd := hbnd0 _ hfirstmem
  have hipos_eq : ipos = i := by
    rw [hipos]
    apply cInsertPos_eq ks skey i (by omega)
    · intro j hj
      have hz3 := z3 (by omega)
      have hloI := hsbnd.1
      rw [hz3, inLo_some] at hloI
      have hmono := sorted_getD_mono hsort (by omega : j ≤ i - 1) (by omega)
      omega
    · intro hlt2
      have hz5 := z5 hlt2
      have hhiI := hsbnd.2
      rw [hz5, inHi_some] at hhiI
      exact hhiI
  rw [hipos_eq] at hpks2 hpcs2
  have htakes : ∀ y ∈ ks.take i, y < skey := by
    refine take_mem_of_index (fun j hj hjlen => ?_)
    have hz3 := z3 (by omega)
    have hfb := hfirstbnd.1
    rw [hz3, inLo_some] at hfb
    have hmono := sorted_getD_mono hsort (by omega : j ≤ i - 1) (by omega)
    omega
  have hdrops : ∀ y ∈ ks.drop i, skey < y := by
    refine drop_mem_of_index (fun j hj hjlen => ?_)
    have hz5 := z5 (by omega)
    have hhiI := hsbnd.2
    rw [hz5, inHi_some] at hhiI
    have hmono := sorted_getD_mono hsort (by omega : i ≤ j) hjlen
    omega
  obtain ⟨hwfL, hwfR⟩ := leaf_halves_wf hc hsort0 hfull hbnd0
  rw [← hskey2] at hwfL hwfR
  have hseq2 := z9 skey _ _ hwfL hwfR
  have hwfpre : wfN cap none none (.branch pks2 pcs2) = true := by
    rw [wfN_branch_iff]
    refine ⟨?_, ?_, ?_, fun x _ => ⟨rfl, rfl⟩, ?_⟩
    · rw [hpks2, length_insert_at (by omega : i ≤ ks.length)]
      omega
    · rw [hpks2, length_insert_at (by omega : i ≤ ks.length)]
      omega
    · rw [hpks2]
      exact pairwise_insert_at hsort htakes hdrops
    · rw [hpks2, hpcs2, splice_take_drop cs i _ _ hilt]
      exact hseq2
  have hloPre : ∀ ks2 cs2, (PNode.branch pks2 pcs2) = .branch ks2 cs2 →
      cs2.all leafOnly = true := by
    intro ks2 cs2 hcon
    cases hcon
    rw [hpcs2, splice_take_drop cs i _ _ hilt]
    exact all_splice_of_all leafOnly cs _ _ i hall
      (leafOnly_leaf (List.length_pos.mp (by rw [List.length_take]; omega)))
      (leafOnly_leaf (List.length_pos.mp (by rw [List.length_drop]; omega)))
  have htoPre : toListN (.branch pks2 pcs2) = toListN (.branch ks cs) := by
    rw [hpcs2, splice_take_drop cs i _ _ hilt, toListN_splice,
      @toListN_branch_decomp ks cs i hilt, hch, toListN_leaf,
      List.take_append_drop]
  have hsmemT : skey ∈ (toListN (.branch ks cs)).map Prod.fst := by
    rw [@toListN_branch_decomp ks cs i hilt, hch, toListN_leaf]
    simp only [List.map_append, List.mem_append]
    exact Or.inr (Or.inl hsmem)
  have hkne : k ≠ skey := fun hcon => hnm (hcon ▸ hsmemT)
  have hsort2 : pks2.Pairwise (· < ·) := by
    rw [hpks2]
    exact pairwise_insert_at hsort htakes hdrops
  have hlen2 : pks2.length = ks.length + 1 := by
    rw [hpks2]
    exact length_insert_at (by omega)
  have hplen : i + 1 < pcs2.length := by
    rw [hpcs2, splice_take_drop cs i _ _ hilt, length_splice cs _ _ i hilt]
    omega
  have hroom : (tree_find_leaf (.branch pks2 pcs2) k).length < cap := by
    rcases lt_or_gt_of_ne hkne with hlt | hgt
    · have hci : childIndex pks2 k = i := by
        apply childIndex_unique hsort2 (by omega)
        · intro j hj hjlen
          rw [hpks2, getD_insert_at_lt _ ks skey i j hj (by omega)]
          exact hispec.2.1 j hj (by omega)
        · intro hilen
          rw [hpks2, getD_insert_at_self _ ks skey i (by omega)]
          exact hlt
      have hchd : childD pcs2 i = .leaf (es0.take (cap / 2)) := by
        rw [hpcs2, splice_take_drop cs i _ _ hilt]
        exact getD_splice_self _ cs _ _ i (by omega)
      rw [tree_find_leaf, hci, findGo_eq k pcs2 i (by omega), hchd]
      show (es0.take (cap / 2)).length < cap
      rw [List.length_take]
      omega
    · have hci : childIndex pks2 k = i + 1 := by
        apply childIndex_unique hsort2 (by omega)
        · intro j hj hjlen
          rcases Nat.lt_or_ge j i with hji | hji
          · rw [hpks2, getD_insert_at_lt _ ks skey i j hji (by omega)]
            exact hispec.2.1 j hji (by omega)
          · have hj_eq : j = i := by omega
            subst hj_eq
            rw [hpks2, getD_insert_at_self _ ks skey j (by omega)]
            omega
        · intro hilen
          rw [hpks2, getD_insert_at_next _ ks skey i (by omega)]
          refine hispec.2.2 i (le_refl _) ?_
          rw [hpks2, length_insert_at (by omega : i ≤ ks.length)] at hilen
          omega
      have hchd : childD pcs2 (i + 1) = .leaf (es0.drop (cap / 2)) := by
        rw [hpcs2, splice_take_drop cs i _ _ hilt]
        exact getD_splice_succ _ cs _ _ i (by omega)
      rw [tree_find_leaf, hci, findGo_eq k pcs2 (i + 1) hplen, hchd]
      show (es0.drop (cap / 2)).length < cap
      rw [List.length_drop]
      omega
  obtain ⟨r2, hcomp, hwf2, hlo2, hto2⟩ :=
    cfinishInsert_spec sz (v := v) hc hwfpre hloPre
      (by rw [htoPre]; exact hnm) hroom
  exact ⟨r2, hcomp, hwf2, hlo2, by rw [hto2, htoPre]⟩

/-- Under the C invariant, navigation crosses at most one branch. -/
theorem cnav_shape {cap : Nat} {r : PNode} (k : Int)
    (hwf : wfN cap none none r = true)
    (hlo : ∀ ks cs, r = .branch ks cs → cs.all leafOnly = true) :
    (∃ es, r = .leaf es ∧ cnav r k = ([], es) ∧ tree_find_leaf r k = es) ∨
    (∃ ks cs es0, r = .branch ks cs ∧ childIndex ks k < cs.length ∧
      childD cs (childIndex ks k) = .leaf es0 ∧
      cnav r k = ([⟨ks, cs, childIndex ks k⟩], es0) ∧
      tree_find_leaf r k = es0) := by
  cases r with
  | leaf es => exact Or.inl ⟨es, rfl, rfl, rfl⟩
  | branch ks cs =>
    obtain ⟨hks1, hksc, hsort, hksb, hseq⟩ := wfN_branch_iff.mp hwf
    have hcslen := wfSeq_length hseq
    have hispec := childIndex_spec ks k hsort
    have hilt : childIndex ks k < cs.length := by omega
    have hall := hlo ks cs rfl
    obtain ⟨es0, hch⟩ : ∃ es0, childD cs (childIndex ks k) = .leaf es0 := by
      cases hcd : childD cs (childIndex ks k) with
      | leaf es0 => exact ⟨es0, rfl⟩
      | branch ks2 cs2 =>
        have hmm : childD cs (childIndex ks k) ∈ cs := getD_mem_of_lt _ hilt
        have hmem := List.all_eq_true.mp hall _ hmm
        rw [hcd, leafOnly] at hmem
        cases hmem
    refine Or.inr ⟨ks, cs, es0, rfl, hilt, hch, ?_, ?_⟩
    · rw [cnav_branch k hilt, hch]
      rfl
    · rw [tree_find_leaf, findGo_eq k cs _ hilt, hch]
      rfl

/-! Branch-wise evaluation equations of `bptree_insert_t`. -/

theorem cinsert_eq_found {cap sz : Nat} {r : PNode} {k v : Int} {pos : Nat}
    (hres : binary_search_exact ((cnav r k).2.map Prod.fst) k = some pos) :
    bptree_insert_t ⟨some r, cap, sz⟩ k v =
      (⟨some (crebuild (.leaf ((cnav r k).2.set pos
        (((cnav r k).2.getD pos (0, 0)).1, v))) (cnav r k).1), cap, sz⟩,
        .ok) := by
  simp only [bptree_insert_t, Option.getD_some, hres]

theorem cinsert_eq_room {cap sz : Nat} {r : PNode} {k v : Int}
    (hres : binary_search_exact ((cnav r k).2.map Prod.fst) k = none)
    (hroom : ¬ cap ≤ (cnav r k).2.length) :
    bptree_insert_t ⟨some r, cap, sz⟩ k v =
      cfinalInsert ⟨some r, cap, sz⟩ (cnav r k).1 (cnav r k).2 k v := by
  simp only [bptree_insert_t, Option.getD_some, hres, if_neg hroom]

theorem cinsert_eq_rootsplit {cap sz : Nat} {r : PNode} {k v : Int}
    (hres : binary_search_exact ((cnav r k).2.map Prod.fst) k = none)
    (hfull : cap ≤ (cnav r k).2.length)
    (hpath : (cnav r k).1 = []) :
    bptree_insert_t ⟨some r, cap, sz⟩ k v =
      cfinishInsert ⟨some (.branch
        [(((cnav r k).2.drop (cap / 2)).headD (0, 0)).1]
        [.leaf ((cnav r k).2.take (cap / 2)),
          .leaf ((cnav r k).2.drop (cap / 2))]), cap, sz⟩ k v := by
  simp only [bptree_insert_t, Option.getD_some, hres, if_pos hfull, hpath]

theorem cinsert_eq_parentfull {cap sz : Nat} {r : PNode} {k v : Int}
    {fks : List Int} {fcs : List PNode} {fi : Nat} {rest : List CFrame}
    (hres : binary_search_exact ((cnav r k).2.map Prod.fst) k = none)
    (hfull : cap ≤ (cnav r k).2.length)
    (hpath : (cnav r k).1 = ⟨fks, fcs, fi⟩ :: rest)
    (hpf : cap ≤ fks.length) :
    bptree_insert_t ⟨some r, cap, sz⟩ k v =
      (⟨some (crebuild (.leaf ((cnav r k).2.take (cap / 2)))
        (⟨fks, fcs, fi⟩ :: rest)), cap, sz⟩, .errInvalidState) := by
  simp only [bptree_insert_t, Option.getD_some, hres, if_pos hfull, hpath,
    if_pos hpf]

theorem cinsert_eq_parentroom {cap sz : Nat} {r : PNode} {k v : Int}
    {fks : List Int} {fcs : List PNode} {fi : Nat} {rest : List CFrame}
    (hres : binary_search_exact ((cnav r k).2.map Prod.fst) k = none)
    (hfull : cap ≤ (cnav r k).2.length)
    (hpath : (cnav r k).1 = ⟨fks, fcs, fi⟩ :: rest)
    (hpf : ¬ cap ≤ fks.length) :
    bptree_insert_t ⟨some r, cap, sz⟩ k v =
      cfinishInsert ⟨some (crebuild (.branch
        (fks.take (cInsertPos fks (((cnav r k).2.drop (cap / 2)).headD (0, 0)).1) ++
          (((cnav r k).2.drop (cap / 2)).headD (0, 0)).1 ::
          fks.drop (cInsertPos fks (((cnav r k).2.drop (cap / 2)).headD (0, 0)).1))
        ((fcs.set fi (.leaf ((cnav r k).2.take (cap / 2)))).take
            (cInsertPos fks (((cnav r k).2.drop (cap / 2)).headD (0, 0)).1 + 1) ++
          PNode.leaf ((cnav r k).2.drop (cap / 2)) ::
          (fcs.set fi (.leaf ((cnav r k).2.take (cap / 2)))).drop
            (cInsertPos fks (((cnav r k).2.drop (cap / 2)).headD (0, 0)).1 + 1)))
        rest), cap, sz⟩ k v := by
  simp only [bptree_insert_t, Option.getD_some, hres, if_pos hfull, hpath,
    if_neg hpf]

/-- The master correctness theorem for a successful `bptree_insert`
on a non-NULL, well-formed tree. -/
theorem cinsert_root_spec {cap : Nat} (sz : Nat) {r : PNode} {k v : Int}
    (hc : 4 ≤ cap) (hwf : wfN cap none none r = true)
    (hlo : ∀ ks cs, r = .branch ks cs → cs.all leafOnly = true)
    (hok : (bptree_insert_t ⟨some r, cap, sz⟩ k v).2 = CResult.ok) :
    ∃ r2, bptree_insert_t ⟨some r, cap, sz⟩ k v =
        (⟨some r2, cap,
          if k ∈ (toListN r).map Prod.fst then sz else sz + 1⟩, .ok) ∧
      wfN cap none none r2 = true ∧
      (∀ ks2 cs2, r2 = .branch ks2 cs2 → cs2.all leafOnly = true) ∧
      toListN r2 = linsert k v (toListN r) := by
  have hLsnd := cnav_snd_eq r k
  have hsortL := (find_leaf_spec cap k r none none hwf rfl rfl).1
  have hbse := binary_search_exact_spec ((tree_find_leaf r k).map Prod.fst) k
    hsortL
  cases hres : binary_search_exact ((tree_find_leaf r k).map Prod.fst) k with
  | some pos =>
    rw [hres] at hbse
    obtain ⟨hplen, hpkey⟩ := hbse
    have hplen2 : pos < (tree_find_leaf r k).length := by
      rw [List.length_map] at hplen
      exact hplen
    have hmemk := getD_mem_of_lt (0 : Int) hplen
    rw [hpkey] at hmemk
    have hmemT := (nav_mem_total_iff hwf rfl rfl).mpr hmemk
    have hlenL := tree_find_leaf_length_le k hwf
    have hk1 : ((tree_find_leaf r k).getD pos (0, 0)).1 = k := by
      rw [← getD_map_fst _ pos hplen2]
      exact hpkey
    obtain ⟨Af, Bf, hto, hAf, hBf, hwf2, hlo2, hto2⟩ :=
      cnav_rebuild_spec
        ((tree_find_leaf r k).set pos
          (((tree_find_leaf r k).getD pos (0, 0)).1, v))
        hc hwf hlo
        (by rw [map_fst_set_value]; exact hsortL)
        (by rw [List.length_set]; exact hlenL)
        (by
          intro hcon
          have h2 := congrArg List.length hcon
          rw [List.length_set, List.length_nil] at h2
          omega)
        (by rw [map_fst_set_value]; exact fun x hx => Or.inr hx)
    have hget : ((tree_find_leaf r k).get ⟨pos, hplen2⟩).1 = k := by
      rw [List.get_eq_getElem, ← List.getD_eq_getElem _ (0, 0) hplen2]
      exact hk1
    have hes2 : (tree_find_leaf r k).set pos
        (((tree_find_leaf r k).getD pos (0, 0)).1, v) =
        linsert k v (tree_find_leaf r k) := by
      rw [hk1, linsert_eq_set hsortL hplen2 hget]
      exact List.set_eq_take_cons_drop (k, v) hplen2
    have hres2 : binary_search_exact ((cnav r k).2.map Prod.fst) k = some pos := by
      rw [hLsnd]
      exact hres
    rw [cinsert_eq_found hres2, hLsnd, if_pos hmemT]
    exact ⟨crebuild (.leaf ((tree_find_leaf r k).set pos
        (((tree_find_leaf r k).getD pos (0, 0)).1, v))) (cnav r k).1,
      rfl, hwf2, hlo2, by
        rw [hto2, hes2, hto, linsert_append_left hAf,
          linsert_append_right hBf]⟩
  | none =>
    rw [hres] at hbse
    have hnmL : k ∉ (tree_find_leaf r k).map Prod.fst := by
      intro hcon
      obtain ⟨j, hj, hje⟩ := List.mem_iff_getElem.mp hcon
      exact hbse j hj (by rw [List.getD_eq_getElem _ 0 hj, hje])
    have hnmT : k ∉ (toListN r).map Prod.fst :=
      fun hcon => hnmL ((nav_mem_total_iff hwf rfl rfl).mp hcon)
    have hres2 : binary_search_exact ((cnav r k).2.map Prod.fst) k = none := by
      rw [hLsnd]
      exact hres
    by_cases hfull : cap ≤ (tree_find_leaf r k).length
    · have hfull2 : cap ≤ (cnav r k).2.length := by
        rw [hLsnd]
        exact hfull
      rcases cnav_shape k hwf hlo with
        ⟨es, hreq, hnav, hfl⟩ | ⟨ks, cs, es0, hreq, hilt, hch, hnav, hfl⟩
      · subst hreq
        have hpath : (cnav (PNode.leaf es) k).1 = [] := by rw [hnav]
        rw [cinsert_eq_rootsplit hres2 hfull2 hpath, hLsnd, hfl, if_neg hnmT]
        rw [hfl] at hnmL
        have hlen_eq : es.length = cap := by
          have h2 := (wfN_leaf_iff.mp hwf).2.1
          rw [hfl] at hfull
          omega
        obtain ⟨r2, hcomp, hwf2, hlo2, hto2⟩ :=
          csplit_root_spec sz (v := v) hc hwf hnmL hlen_eq
        exact ⟨r2, hcomp, hwf2, hlo2, by rw [hto2, toListN_leaf]⟩
      · subst hreq
        have hpath : (cnav (PNode.branch ks cs) k).1 =
            (⟨ks, cs, childIndex ks k⟩ : CFrame) :: [] := by rw [hnav]
        by_cases hpf : cap ≤ ks.length
        · rw [cinsert_eq_parentfull hres2 hfull2 hpath hpf] at hok
          exact absurd (show CResult.errInvalidState = CResult.ok from hok)
            (by decide)
        · rw [cinsert_eq_parentroom hres2 hfull2 hpath hpf, hLsnd, hfl,
            if_neg hnmT,
            show ∀ n : PNode, crebuild n [] = n from fun _ => rfl]
          have hlen_eq : es0.length = cap := by
            have hle := tree_find_leaf_length_le k hwf
            rw [hfl] at hle hfull
            omega
          obtain ⟨r2, hcomp, hwf2, hlo2, hto2⟩ :=
            csplit_parent_spec sz (v := v) hc hwf (hlo ks cs rfl) rfl hch hnmT
              hlen_eq (by omega) rfl rfl rfl rfl
          exact ⟨r2, hcomp, hwf2, hlo2, hto2⟩
    · have hroom2 : ¬ cap ≤ (cnav r k).2.length := by
        rw [hLsnd]
        exact hfull
      rw [cinsert_eq_room hres2 hroom2, hLsnd, if_neg hnmT]
      have heq : cfinalInsert ⟨some r, cap, sz⟩ (cnav r k).1
          (tree_find_leaf r k) k v = cfinishInsert ⟨some r, cap, sz⟩ k v := by
        simp only [cfinishInsert, Option.getD_some, hLsnd]
      rw [heq]
      obtain ⟨r2, hcomp, hwf2, hlo2, hto2⟩ :=
        cfinishInsert_spec sz (v := v) hc hwf hlo hnmT (by omega)
      exact ⟨r2, hcomp, hwf2, hlo2, hto2⟩

/-- Successful inserts preserve the C invariant and act as
association-list insertion, with the size discipline. -/
theorem bptree_insert_t_ok {t : bplustree} {k v : Int} (h : cwf t = true)
    (hok : (bptree_insert_t t k v).2 = CResult.ok) :
    cwf (bptree_insert_t t k v).1 = true ∧
    ctoList (bptree_insert_t t k v).1 = linsert k v (ctoList t) ∧
    (bptree_insert_t t k v).1.capacity = t.capacity ∧
    (bptree_insert_t t k v).1.size =
      (if k ∈ (ctoList t).map Prod.fst then t.size else t.size + 1) := by
  obtain ⟨troot, tcap, tsz⟩ := t
  obtain ⟨hc, hcase⟩ := cwf_dest h
  rcases hcase with ⟨hroot, hsz⟩ | ⟨r, hroot, hwf, hlo, hsz⟩
  · obtain rfl : troot = none := hroot
    obtain rfl : tsz = 0 := hsz
    have hwf0 : wfN tcap none none (.leaf []) = true := by
      rw [wfN_leaf_iff]
      exact ⟨by simp, by simp, by simp⟩
    have hok2 : (bptree_insert_t ⟨some (.leaf []), tcap, 0⟩ k v).2 =
        CResult.ok := hok
    obtain ⟨r2, hcomp, hwf2, hlo2, hto2⟩ :=
      cinsert_root_spec 0 hc hwf0 (fun ks cs hcon => nomatch hcon) hok2
    rw [if_neg (by simp [toListN_leaf])] at hcomp
    have hcomp2 : bptree_insert_t ⟨none, tcap, 0⟩ k v =
        (⟨some r2, tcap, 0 + 1⟩, .ok) := hcomp
    rw [hcomp2]
    refine ⟨?_, ?_, rfl, ?_⟩
    · apply cwf_build hc hwf2 hlo2
      rw [hto2, toListN_leaf]
      rfl
    · show toListN r2 = linsert k v []
      rw [hto2, toListN_leaf]
    · show 0 + 1 = if k ∈ ([] : List Int) then 0 else 0 + 1
      rw [if_neg (by simp)]
  · obtain rfl : troot = some r := hroot
    have hsz2 : tsz = (toListN r).length := hsz
    obtain ⟨r2, hcomp, hwf2, hlo2, hto2⟩ := cinsert_root_spec tsz hc hwf hlo hok
    rw [hcomp]
    refine ⟨?_, ?_, rfl, ?_⟩
    · apply cwf_build hc hwf2 hlo2
      rw [hto2]
      by_cases hm : k ∈ (toListN r).map Prod.fst
      · rw [if_pos hm, length_linsert_of_mem (wfN_toList_sorted r hwf) hm, hsz2]
      · rw [if_neg hm, length_linsert_of_not_mem hm, hsz2]
    · exact hto2
    · rfl

/-- Inserting an already-present key always succeeds (the update-in-
place path, bplustree.c:214-219). -/
theorem bptree_insert_t_present {t : bplustree} {k v : Int} (h : cwf t = true)
    (hmem : k ∈ (ctoList t).map Prod.fst) :
    (bptree_insert_t t k v).2 = CResult.ok := by
  obtain ⟨troot, tcap, tsz⟩ := t
  obtain ⟨hc, hcase⟩ := cwf_dest h
  rcases hcase with ⟨hroot, hsz⟩ | ⟨r, hroot, hwf, hlo, hsz⟩
  · obtain rfl : troot = none := hroot
    have hmem2 : k ∈ ([] : List (Int × Int)).map Prod.fst := hmem
    simp at hmem2
  · obtain rfl : troot = some r := hroot
    have hLsnd := cnav_snd_eq r k
    have hsortL := (find_leaf_spec tcap k r none none hwf rfl rfl).1
    have hmemL := (nav_mem_total_iff hwf rfl rfl).mp hmem
    have hbse := binary_search_exact_spec ((tree_find_leaf r k).map Prod.fst) k
      hsortL
    simp only [bptree_insert_t, Option.getD_some, hLsnd]
    cases hres : binary_search_exact ((tree_find_leaf r k).map Prod.fst) k with
    | some pos => rfl
    | none =>
      rw [hres] at hbse
      exfalso
      obtain ⟨j, hj, hje⟩ := List.mem_iff_getElem.mp hmemL
      exact hbse j hj (by rw [List.getD_eq_getElem _ 0 hj, hje])

/-- `bptree_remove` on a well-formed tree: not-found and
invalid-state leave the tree untouched; success removes exactly the
one entry (only reachable on a leaf root). -/
theorem bptree_remove_t_spec {t : bplustree} {k : Int} (h : cwf t = true) :
    ((bptree_remove_t t k).2 = CResult.errKeyNotFound →
      (bptree_remove_t t k).1 = t ∧ k ∉ (ctoList t).map Prod.fst) ∧
    ((bptree_remove_t t k).2 = CResult.errInvalidState →
      (bptree_remove_t t k).1 = t) ∧
    ((bptree_remove_t t k).2 = CResult.ok →
      cwf (bptree_remove_t t k).1 = true ∧
      ctoList (bptree_remove_t t k).1 = lerase k (ctoList t) ∧
      k ∈ (ctoList t).map Prod.fst ∧
      (bptree_remove_t t k).1.size + 1 = t.size ∧
      (bptree_remove_t t k).1.capacity = t.capacity) ∧
    (∀ es, t.root = some (.leaf es) → k ∈ (ctoList t).map Prod.fst →
      (bptree_remove_t t k).2 = CResult.ok) := by
  obtain ⟨troot, tcap, tsz⟩ := t
  obtain ⟨hc, hcase⟩ := cwf_dest h
  rcases hcase with ⟨hroot, hsz⟩ | ⟨r, hroot, hlow, hlo, hsz⟩
  · obtain rfl : troot = none := hroot
    obtain rfl : tsz = 0 := hsz
    refine ⟨fun _ => ⟨rfl, by intro hcon; simp [ctoList] at hcon⟩,
      fun _ => rfl,
      fun hcon => absurd
        (show CResult.errKeyNotFound = CResult.ok from hcon) (by decide), ?_⟩
    intro es hcon
    exact absurd hcon (by simp)
  · obtain rfl : troot = some r := hroot
    cases r with
    | branch ks cs =>
      refine ⟨fun hcon => absurd
          (show CResult.errInvalidState = CResult.errKeyNotFound from hcon)
          (by decide),
        fun _ => rfl,
        fun hcon => absurd
          (show CResult.errInvalidState = CResult.ok from hcon) (by decide),
        ?_⟩
      intro es hcon
      exact absurd hcon (by simp)
    | leaf es =>
      obtain ⟨hsort, hlen, -⟩ := wfN_leaf_iff.mp hlow
      have hcto : ctoList ⟨some (.leaf es), tcap, tsz⟩ = es := toListN_leaf es
      have hbse := binary_search_exact_spec (es.map Prod.fst) k hsort
      cases hres : binary_search_exact (es.map Prod.fst) k with
      | none =>
        rw [hres] at hbse
        have hnm : k ∉ es.map Prod.fst := by
          intro hcon
          obtain ⟨j, hj, hje⟩ := List.mem_iff_getElem.mp hcon
          exact hbse j hj (by rw [List.getD_eq_getElem _ 0 hj, hje])
        have hrw : bptree_remove_t ⟨some (.leaf es), tcap, tsz⟩ k =
            (⟨some (.leaf es), tcap, tsz⟩, .errKeyNotFound) := by
          simp only [bptree_remove_t, hres]
        rw [hrw]
        refine ⟨fun _ => ⟨rfl, by rw [hcto]; exact hnm⟩,
          fun hcon => absurd
            (show CResult.errKeyNotFound = CResult.errInvalidState from hcon)
            (by decide),
          fun hcon => absurd
            (show CResult.errKeyNotFound = CResult.ok from hcon) (by decide),
          ?_⟩
        intro es2 hcon hmem
        rw [hcto] at hmem
        have h2 := PNode.leaf.inj (Option.some.inj hcon)
        subst h2
        exact absurd hmem hnm
      | some pos =>
        rw [hres] at hbse
        obtain ⟨hplen, hpkey⟩ := hbse
        have hplen2 : pos < es.length := by
          rw [List.length_map] at hplen
          exact hplen
        have hmemk := getD_mem_of_lt (0 : Int) hplen
        rw [hpkey] at hmemk
        have hget : (es.get ⟨pos, hplen2⟩).1 = k := by
          rw [List.get_eq_getElem, ← List.getD_eq_getElem _ (0, 0) hplen2,
            ← getD_map_fst _ pos hplen2]
          exact hpkey
        have hes2 : es.take pos ++ es.drop (pos + 1) = lerase k es :=
          (lerase_eq_remove_at hsort hplen2 hget).symm
        have hrw : bptree_remove_t ⟨some (.leaf es), tcap, tsz⟩ k =
            (⟨some (.leaf (es.take pos ++ es.drop (pos + 1))), tcap,
              tsz - 1⟩, .ok) := by
          simp only [bptree_remove_t, hres]
        rw [hrw]
        have hlel : (lerase k es).length + 1 = es.length :=
          (length_lerase_of_mem hmemk).symm
        refine ⟨fun hcon => absurd
            (show CResult.ok = CResult.errKeyNotFound from hcon) (by decide),
          fun hcon => absurd
            (show CResult.ok = CResult.errInvalidState from hcon) (by decide),
          fun _ => ?_, fun _ _ _ => rfl⟩
        have hsz2 : tsz = es.length := by
          have h3 := hsz
          rw [toListN_leaf] at h3
          exact h3
        refine ⟨?_, ?_, by rw [hcto]; exact hmemk, ?_, rfl⟩
        · have hlen2 : es.length ≤ tcap := hlen
          refine cwf_build hc ?_ ?_ ?_
          · rw [wfN_leaf_iff, hes2]
            refine ⟨lerase_sorted hsort,
              by show (lerase k es).length ≤ tcap; omega,
              fun x _ => ⟨rfl, rfl⟩⟩
          · intro ks2 cs2 hcon
            cases hcon
          · rw [toListN_leaf, hes2]
            omega
        · show toListN (.leaf (es.take pos ++ es.drop (pos + 1))) =
            lerase k (ctoList ⟨some (.leaf es), tcap, tsz⟩)
          rw [toListN_leaf, hes2, hcto]
        · show tsz - 1 + 1 = tsz
          omega

/-- `bptree_remove` returns one of three result codes. -/
theorem bptree_remove_t_cases (t : bplustree) (k : Int) :
    (bptree_remove_t t k).2 = CResult.ok ∨
    (bptree_remove_t t k).2 = CResult.errKeyNotFound ∨
    (bptree_remove_t t k).2 = CResult.errInvalidState := by
  obtain ⟨troot, tcap, tsz⟩ := t
  cases troot with
  | none => exact Or.inr (Or.inl rfl)
  | some r =>
    cases r with
    | branch ks cs => exact Or.inr (Or.inr rfl)
    | leaf es =>
      cases hres : binary_search_exact (es.map Prod.fst) k with
      | none =>
        have hrw : bptree_remove_t ⟨some (.leaf es), tcap, tsz⟩ k =
            (⟨some (.leaf es), tcap, tsz⟩, .errKeyNotFound) := by
          simp only [bptree_remove_t, hres]
        rw [hrw]
        exact Or.inr (Or.inl rfl)
      | some pos =>
        have hrw : bptree_remove_t ⟨some (.leaf es), tcap, tsz⟩ k =
            (⟨some (.leaf (es.take pos ++ es.drop (pos + 1))), tcap,
              tsz - 1⟩, .ok) := by
          simp only [bptree_remove_t, hres]
        rw [hrw]
        exact Or.inl rfl

theorem bptree_clear_t_spec {t : bplustree} (h : cwf t = true) :
    cwf (bptree_clear_t t) = true ∧
    (bptree_clear_t t).capacity = t.capacity ∧
    ctoList (bptree_clear_t t) = [] ∧ (bptree_clear_t t).size = 0 := by
  obtain ⟨troot, tcap, tsz⟩ := t
  obtain ⟨hc, hcase⟩ := cwf_dest h
  rcases hcase with ⟨hroot, hsz⟩ | ⟨r, hroot, -, -, -⟩
  · obtain rfl : troot = none := hroot
    obtain rfl : tsz = 0 := hsz
    exact ⟨h, rfl, rfl, rfl⟩
  · obtain rfl : troot = some r := hroot
    have hrw : bptree_clear_t ⟨some r, tcap, tsz⟩ = ⟨none, tcap, 0⟩ := by
      simp only [bptree_clear_t]
    rw [hrw]
    refine ⟨?_, rfl, rfl, rfl⟩
    rw [cwf]
    simp only [Bool.and_eq_true]
    exact ⟨by simpa using hc, by simp⟩

/-- Stored size and scan order facts of the invariant. -/
theorem cwf_scan {t : bplustree} (h : cwf t = true) :
    t.size = (ctoList t).length ∧
    ((ctoList t).map Prod.fst).Pairwise (· < ·) := by
  obtain ⟨hc, hcase⟩ := cwf_dest h
  rcases hcase with ⟨hroot, hsz⟩ | ⟨r, hroot, hwf, -, hsz⟩
  · constructor
    · rw [hsz]
      simp [ctoList, hroot]
    · simp [ctoList, hroot]
  · constructor
    · rw [hsz]
      simp [ctoList, hroot]
    · have := wfN_toList_sorted r hwf
      simpa [ctoList, hroot] using this

/-- Aborting insert runs preserve the invariant and compute `lrun`. -/
theorem crun_spec : ∀ (ops : List (Int × Int)) (t t2 : bplustree),
    cwf t = true → crun t ops = some t2 →
    cwf t2 = true ∧ ctoList t2 = lrun (ctoList t) ops ∧
      t2.capacity = t.capacity
  | [], t, t2, h, hrun => by
    rw [crun] at hrun
    cases hrun
    exact ⟨h, rfl, rfl⟩
  | (k, v) :: ops, t, t2, h, hrun => by
    rw [crun] at hrun
    cases hins : bptree_insert_t t k v with
    | mk t1 res =>
      rw [hins] at hrun
      cases res with
      | ok =>
        have hok : (bptree_insert_t t k v).2 = CResult.ok := by
          rw [hins]
        obtain ⟨hwf1, hto1, hcap1, -⟩ := bptree_insert_t_ok h hok
        rw [hins] at hwf1 hto1 hcap1
        have hrun2 : crun t1 ops = some t2 := hrun
        obtain ⟨hwf2, hto2, hcap2⟩ := crun_spec ops t1 t2 hwf1 hrun2
        refine ⟨hwf2, ?_, by rw [hcap2]; exact hcap1⟩
        rw [lrun, hto2, hto1]
      | errNullPointer => exact Option.noConfusion hrun
      | errInvalidCapacity => exact Option.noConfusion hrun
      | errKeyNotFound => exact Option.noConfusion hrun
      | errOutOfMemory => exact Option.noConfusion hrun
      | errInvalidState => exact Option.noConfusion hrun

/-- Runs of scripted operations that never fail keep the invariant. -/
theorem crunOps_wf : ∀ (ops : List COp) (t t2 : bplustree),
    cwf t = true → crunOps t ops = some t2 → cwf t2 = true
  | [], t, t2, h, hrun => by
    rw [crunOps] at hrun
    cases hrun
    exact h
  | .ins k v :: ops, t, t2, h, hrun => by
    rw [crunOps] at hrun
    cases hins : bptree_insert_t t k v with
    | mk t1 res =>
      rw [hins] at hrun
      cases res with
      | ok =>
        have hok : (bptree_insert_t t k v).2 = CResult.ok := by
          rw [hins]
        obtain ⟨hwf1, -, -, -⟩ := bptree_insert_t_ok h hok
        rw [hins] at hwf1
        exact crunOps_wf ops t1 t2 hwf1 hrun
      | errNullPointer => exact Option.noConfusion hrun
      | errInvalidCapacity => exact Option.noConfusion hrun
      | errKeyNotFound => exact Option.noConfusion hrun
      | errOutOfMemory => exact Option.noConfusion hrun
      | errInvalidState => exact Option.noConfusion hrun
  | .del k :: ops, t, t2, h, hrun => by
    rw [crunOps] at hrun
    have hspec := bptree_remove_t_spec (k := k) h
    have hcases := bptree_remove_t_cases t k
    cases hrem : bptree_remove_t t k with
    | mk t1 res =>
      rw [hrem] at hrun hspec hcases
      cases res with
      | ok =>
        obtain ⟨hwf1, -, -, -, -⟩ := hspec.2.2.1 rfl
        exact crunOps_wf ops t1 t2 hwf1 hrun
      | errKeyNotFound =>
        obtain ⟨heq, -⟩ := hspec.1 rfl
        rw [show ((t1, CResult.errKeyNotFound).1 : bplustree) = t1 from rfl]
          at heq
        rw [← heq] at h
        exact crunOps_wf ops t1 t2 h hrun
      | errInvalidState => exact Option.noConfusion hrun
      | errNullPointer =>
        rcases hcases with hcon | hcon | hcon <;>
          exact absurd (show CResult.errNullPointer = _ from hcon) (by decide)
      | errInvalidCapacity =>
        rcases hcases with hcon | hcon | hcon <;>
          exact absurd (show CResult.errInvalidCapacity = _ from hcon)
            (by decide)
      | errOutOfMemory =>
        rcases hcases with hcon | hcon | hcon <;>
          exact absurd (show CResult.errOutOfMemory = _ from hcon) (by decide)
  | .clear :: ops, t, t2, h, hrun => by
    rw [crunOps] at hrun
    exact crunOps_wf ops (bptree_clear_t t) t2 (bptree_clear_t_spec h).1 hrun

/-! ### Iterator semantics -/

theorem drop_eq_getD_cons {α : Type} (d : α) {l : List α} {i : Nat}
    (h : i < l.length) : l.drop i = l.getD i d :: l.drop (i + 1) := by
  rw [List.getD_eq_getElem l d h]
  exact List.drop_eq_getElem_cons h

theorem citerCollect_nil (fuel idx : Nat) (a b : Int) (hr : Bool) :
    citerCollect fuel ⟨[], idx, a, b, hr⟩ = [] := by
  cases fuel with
  | zero => rfl
  | succ fuel => rfl

theorem has_next_cons (es : List (Int × Int)) (rest : List (List (Int × Int)))
    (idx : Nat) (a b : Int) (hr : Bool) :
    bptree_iterator_has_next ⟨es :: rest, idx, a, b, hr⟩ =
      if es.length ≤ idx then false
      else if hr then decide ((es.getD idx (0, 0)).1 < b) else true := rfl

theorem next_cons (es : List (Int × Int)) (rest : List (List (Int × Int)))
    (idx : Nat) (a b : Int) (hr : Bool) :
    bptree_iterator_next ⟨es :: rest, idx, a, b, hr⟩ =
      if bptree_iterator_has_next ⟨es :: rest, idx, a, b, hr⟩ then
        (if es.length ≤ idx + 1 then
          some (es.getD idx (0, 0), ⟨rest, 0, a, b, hr⟩)
        else some (es.getD idx (0, 0), ⟨es :: rest, idx + 1, a, b, hr⟩))
      else none := by
  rw [bptree_iterator_next]

/-- The plain iterator yields the remaining entries of the chain. -/
theorem citerCollect_noRange (a b : Int) :
    ∀ (fuel : Nat) (es : List (Int × Int)) (rest : List (List (Int × Int)))
      (idx : Nat), (∀ es2 ∈ rest, es2 ≠ []) → idx < es.length →
      es.length - idx + rest.flatten.length < fuel →
      citerCollect fuel ⟨es :: rest, idx, a, b, false⟩ =
        es.drop idx ++ rest.flatten
  | 0, es, rest, idx, _, hidx, hfuel => absurd hfuel (by omega)
  | fuel + 1, es, rest, idx, hne, hidx, hfuel => by
    have hhn : bptree_iterator_has_next ⟨es :: rest, idx, a, b, false⟩ =
        true := by
      rw [has_next_cons, if_neg (by omega)]
      rfl
    have hdropc := drop_eq_getD_cons (0, 0) hidx
    rw [citerCollect, next_cons, if_pos hhn]
    by_cases hadv : es.length ≤ idx + 1
    · rw [if_pos hadv]
      have hdrop : es.drop idx = [es.getD idx (0, 0)] := by
        rw [hdropc, List.drop_eq_nil_of_le hadv]
      cases rest with
      | nil =>
        show es.getD idx (0, 0) :: citerCollect fuel ⟨[], 0, a, b, false⟩ =
          es.drop idx ++ ([] : List (List (Int × Int))).flatten
        rw [citerCollect_nil, hdrop]
        simp
      | cons es2 rest2 =>
        show es.getD idx (0, 0) ::
            citerCollect fuel ⟨es2 :: rest2, 0, a, b, false⟩ =
          es.drop idx ++ (es2 :: rest2).flatten
        have hfl2 : (es2 :: rest2).flatten.length =
            es2.length + rest2.flatten.length := by
          rw [List.flatten_cons, List.length_append]
        rw [citerCollect_noRange a b fuel es2 rest2 0
          (fun x hx => hne x (List.mem_cons_of_mem es2 hx))
          (List.length_pos.mpr (hne es2 (by simp))) (by omega), hdrop]
        simp [List.flatten_cons]
    · rw [if_neg hadv]
      show es.getD idx (0, 0) ::
          citerCollect fuel ⟨es :: rest, idx + 1, a, b, false⟩ =
        es.drop idx ++ rest.flatten
      rw [citerCollect_noRange a b fuel es rest (idx + 1) hne (by omega)
        (by omega), hdropc, List.cons_append]

theorem citerCollect_chain (a b : Int)
    (chain : List (List (Int × Int))) (fuel : Nat)
    (hne : ∀ es2 ∈ chain, es2 ≠ []) (hfuel : chain.flatten.length < fuel) :
    citerCollect fuel ⟨chain, 0, a, b, false⟩ = chain.flatten := by
  cases chain with
  | nil => rw [citerCollect_nil]; rfl
  | cons es rest =>
    have hfl : (es :: rest).flatten.length = es.length + rest.flatten.length := by
      rw [List.flatten_cons, List.length_append]
    rw [citerCollect_noRange a b fuel es rest 0
      (fun x hx => hne x (List.mem_cons_of_mem es hx))
      (List.length_pos.mpr (hne es (by simp))) (by omega)]
    simp [List.flatten_cons]

/-- The contents of the tree are the flattened leaf chain. -/
theorem ctoList_eq_flatten (t : bplustree) :
    ctoList t = (cchainOf t).flatten := by
  obtain ⟨troot, tcap, tsz⟩ := t
  cases troot with
  | none => rfl
  | some r => rfl

/-- All leaves below a C-invariant branch root are non-empty. -/
theorem chain_nonempty {ks : List Int} {cs : List PNode}
    (hall : cs.all leafOnly = true) :
    ∀ es2 ∈ pleaves (.branch ks cs), es2 ≠ [] := by
  intro es2 hes2
  rw [pleaves] at hes2
  obtain ⟨ch, hch2, hes3⟩ := pleavesGo_mem hes2
  have hleaf := List.all_eq_true.mp hall ch hch2
  cases ch with
  | leaf es3 =>
    have he : es2 = es3 := by simpa [pleaves] using hes3
    subst he
    rw [leafOnly] at hleaf
    intro hcon
    subst hcon
    simp at hleaf
  | branch ks3 cs3 =>
    rw [leafOnly] at hleaf
    cases hleaf

/-- `bptree_iterator_new` followed by the client loop performs the
full scan from the leftmost leaf. -/
theorem cwf_fullscan {t : bplustree} (h : cwf t = true) :
    citerCollect (t.size + 1) ⟨cchainOf t, 0, 0, 0, false⟩ = ctoList t := by
  obtain ⟨hc, hcase⟩ := cwf_dest h
  rcases hcase with ⟨hroot, hsz⟩ | ⟨r, hroot, hwf, hlo, hsz⟩
  · have hch : cchainOf t = [] := by simp only [cchainOf, hroot]
    have hcto : ctoList t = [] := by simp only [ctoList, hroot]
    rw [hch, hcto, citerCollect_nil]
  · have hch : cchainOf t = pleaves r := by simp only [cchainOf, hroot]
    have hcto : ctoList t = toListN r := by simp only [ctoList, hroot]
    rw [hch, hcto, hsz]
    cases r with
    | leaf es =>
      cases es with
      | nil => rfl
      | cons e es2 =>
        rw [show pleaves (.leaf (e :: es2)) = [e :: es2] from rfl,
          toListN_leaf]
        have hcol := citerCollect_noRange 0 0 ((e :: es2).length + 1)
          (e :: es2) [] 0 (by simp) (by simp) (by simp)
        rw [hcol]
        simp
    | branch ks cs =>
      have hne : ∀ es2 ∈ pleaves (.branch ks cs), es2 ≠ [] :=
        chain_nonempty (hlo ks cs rfl)
      have hfl : (pleaves (.branch ks cs)).flatten.length <
          (toListN (.branch ks cs)).length + 1 := by
        show (pleaves (.branch ks cs)).flatten.length <
          (pleaves (.branch ks cs)).flatten.length + 1
        omega
      have hcol := citerCollect_chain 0 0 (pleaves (.branch ks cs))
        ((toListN (.branch ks cs)).length + 1) hne hfl
      rw [hcol]
      rfl

/-- The skip loop within one leaf: position of the first key `≥ start`. -/
theorem cseekIn_spec (start : Int) : ∀ es : List (Int × Int),
    match cseekIn start es with
    | some i => i < es.length ∧ start ≤ (es.getD i (0, 0)).1 ∧
        es.drop i = es.dropWhile (fun e => decide (e.1 < start))
    | none => es.dropWhile (fun e => decide (e.1 < start)) = []
  | [] => rfl
  | e :: rest => by
    rw [cseekIn]
    by_cases h : start ≤ e.1
    · rw [if_pos h]
      refine ⟨by simp, by simpa using h, ?_⟩
      rw [List.drop_zero, List.dropWhile_cons, if_neg (by simp; omega)]
    · rw [if_neg h]
      have hrec := cseekIn_spec start rest
      cases hsi : cseekIn start rest with
      | some i =>
        rw [hsi] at hrec
        show i + 1 < (e :: rest).length ∧
          start ≤ ((e :: rest).getD (i + 1) (0, 0)).1 ∧
          (e :: rest).drop (i + 1) =
            (e :: rest).dropWhile (fun e2 => decide (e2.1 < start))
        refine ⟨by simpa using Nat.succ_lt_succ hrec.1,
          by simpa using hrec.2.1, ?_⟩
        rw [List.drop_succ_cons, List.dropWhile_cons, if_pos (by simp; omega)]
        exact hrec.2.2
      | none =>
        rw [hsi] at hrec
        show (e :: rest).dropWhile (fun e2 => decide (e2.1 < start)) = []
        rw [List.dropWhile_cons, if_pos (by simp; omega)]
        exact hrec

/-- The skip-to-start loop of the range iterator drops exactly the
prefix of entries below `start` (on a chain of non-empty leaves). -/
theorem cseek_spec (start : Int) : ∀ chain : List (List (Int × Int)),
    (∀ es2 ∈ chain, es2 ≠ []) →
    (cseek start chain = ([], 0) ∧
      chain.flatten.dropWhile (fun e => decide (e.1 < start)) = []) ∨
    (∃ es rest i, cseek start chain = (es :: rest, i) ∧ i < es.length ∧
      start ≤ (es.getD i (0, 0)).1 ∧
      (∀ x ∈ rest, x ∈ chain) ∧
      es.drop i ++ rest.flatten =
        chain.flatten.dropWhile (fun e => decide (e.1 < start)))
  | [], _ => Or.inl ⟨rfl, rfl⟩
  | es :: rest, hne => by
    rw [cseek]
    have hspec := cseekIn_spec start es
    cases hsi : cseekIn start es with
    | some i =>
      rw [hsi] at hspec
      refine Or.inr ⟨es, rest, i, rfl, hspec.1, hspec.2.1,
        fun x hx => List.mem_cons_of_mem es hx, ?_⟩
      rw [List.flatten_cons, List.dropWhile_append, hspec.2.2]
      have hner : ¬ ((es.dropWhile (fun e => decide (e.1 < start))).isEmpty =
          true) := by
        rw [List.isEmpty_iff, ← hspec.2.2]
        intro hcon
        have h2 := congrArg List.length hcon
        rw [List.length_drop, List.length_nil] at h2
        omega
      rw [if_neg hner, ← hspec.2.2]
    | none =>
      rw [hsi] at hspec
      rw [if_neg (by
        rw [List.isEmpty_iff]
        exact hne es (by simp))]
      rcases cseek_spec start rest
        (fun x hx => hne x (List.mem_cons_of_mem es hx)) with
        ⟨hseq, hdw⟩ | ⟨es2, rest2, i2, hseq, hlt2, hstart2, hsub2, hrem2⟩
      · refine Or.inl ⟨hseq, ?_⟩
        rw [List.flatten_cons, List.dropWhile_append,
          if_pos (by rw [List.isEmpty_iff]; exact hspec), hdw]
      · refine Or.inr ⟨es2, rest2, i2, hseq, hlt2, hstart2,
          fun x hx => List.mem_cons_of_mem es (hsub2 x hx), ?_⟩
        rw [List.flatten_cons, List.dropWhile_append,
          if_pos (by rw [List.isEmpty_iff]; exact hspec), hrem2]

/-- The range iterator yields entries while the current key is below
the end bound. -/
theorem citerCollect_range (a b : Int) :
    ∀ (fuel : Nat) (es : List (Int × Int)) (rest : List (List (Int × Int)))
      (idx : Nat), (∀ es2 ∈ rest, es2 ≠ []) → idx < es.length →
      es.length - idx + rest.flatten.length < fuel →
      citerCollect fuel ⟨es :: rest, idx, a, b, true⟩ =
        (es.drop idx ++ rest.flatten).takeWhile (fun e => decide (e.1 < b))
  | 0, es, rest, idx, _, hidx, hfuel => absurd hfuel (by omega)
  | fuel + 1, es, rest, idx, hne, hidx, hfuel => by
    have hdropc := drop_eq_getD_cons (0, 0) hidx
    by_cases hkey : (es.getD idx (0, 0)).1 < b
    · have hhn : bptree_iterator_has_next ⟨es :: rest, idx, a, b, true⟩ =
          true := by
        rw [has_next_cons, if_neg (by omega), if_pos rfl]
        simpa using hkey
      rw [citerCollect, next_cons, if_pos hhn]
      by_cases hadv : es.length ≤ idx + 1
      · rw [if_pos hadv]
        have hdrop : es.drop idx = [es.getD idx (0, 0)] := by
          rw [hdropc, List.drop_eq_nil_of_le hadv]
        cases rest with
        | nil =>
          show es.getD idx (0, 0) :: citerCollect fuel ⟨[], 0, a, b, true⟩ =
            (es.drop idx ++ ([] : List (List (Int × Int))).flatten).takeWhile
              (fun e => decide (e.1 < b))
          rw [citerCollect_nil, hdrop]
          show [es.getD idx (0, 0)] =
            ([es.getD idx (0, 0)] ++ []).takeWhile (fun e => decide (e.1 < b))
          rw [List.append_nil, List.takeWhile_cons, if_pos (by simpa using hkey)]
          rfl
        | cons es2 rest2 =>
          show es.getD idx (0, 0) ::
              citerCollect fuel ⟨es2 :: rest2, 0, a, b, true⟩ =
            (es.drop idx ++ (es2 :: rest2).flatten).takeWhile
              (fun e => decide (e.1 < b))
          have hfl2 : (es2 :: rest2).flatten.length =
              es2.length + rest2.flatten.length := by
            rw [List.flatten_cons, List.length_append]
          rw [citerCollect_range a b fuel es2 rest2 0
            (fun x hx => hne x (List.mem_cons_of_mem es2 hx))
            (List.length_pos.mpr (hne es2 (by simp))) (by omega), hdrop,
            List.cons_append, List.nil_append, List.takeWhile_cons,
            if_pos (by simpa using hkey), List.drop_zero, List.flatten_cons]
      · rw [if_neg hadv]
        show es.getD idx (0, 0) ::
            citerCollect fuel ⟨es :: rest, idx + 1, a, b, true⟩ =
          (es.drop idx ++ rest.flatten).takeWhile (fun e => decide (e.1 < b))
        rw [citerCollect_range a b fuel es rest (idx + 1) hne (by omega)
          (by omega), hdropc, List.cons_append, List.takeWhile_cons,
          if_pos (by simpa using hkey)]
    · have hhn : bptree_iterator_has_next ⟨es :: rest, idx, a, b, true⟩ =
          false := by
        rw [has_next_cons, if_neg (by omega), if_pos rfl]
        simpa using hkey
      rw [citerCollect, next_cons, if_neg (by rw [hhn]; exact fun hcon => nomatch hcon)]
      rw [hdropc, List.cons_append, List.takeWhile_cons,
        if_neg (by simpa using hkey)]

/-- On a sorted tail that already starts at or above `a`, the range
loop's take-while is the range filter. -/
theorem takeWhile_eq_filter_sorted (a b : Int) :
    ∀ (l : List (Int × Int)), ((l.map Prod.fst).Pairwise (· < ·)) →
      (∀ e ∈ l, a ≤ e.1) →
      l.takeWhile (fun e => decide (e.1 < b)) =
        l.filter (fun e => decide (a ≤ e.1) && decide (e.1 < b))
  | [], _, _ => rfl
  | e :: rest, hsort, hge => by
    rw [List.map_cons, List.pairwise_cons] at hsort
    by_cases hb : e.1 < b
    · rw [List.takeWhile_cons, if_pos (by simpa using hb), List.filter_cons,
        if_pos (by
          simp only [Bool.and_eq_true, decide_eq_true_eq]
          exact ⟨hge e (by simp), hb⟩)]
      rw [takeWhile_eq_filter_sorted a b rest hsort.2
        (fun x hx => hge x (List.mem_cons_of_mem e hx))]
    · rw [List.takeWhile_cons, if_neg (by simpa using hb), List.filter_cons,
        if_neg (by
          simp only [Bool.and_eq_true, decide_eq_true_eq, not_and]
          intro _
          omega)]
      rw [List.filter_eq_nil_iff.mpr]
      intro x hx
      simp only [Bool.and_eq_true, decide_eq_true_eq, not_and]
      intro _
      have hlt := hsort.1 x.1 (List.mem_map_of_mem Prod.fst hx)
      omega

/-- Dropping the keys below `a` and taking those below `b` is the
range filter, on a sorted list. -/
theorem takeWhile_dropWhile_filter (a b : Int) :
    ∀ (l : List (Int × Int)), ((l.map Prod.fst).Pairwise (· < ·)) →
      (l.dropWhile (fun e => decide (e.1 < a))).takeWhile
          (fun e => decide (e.1 < b)) =
        l.filter (fun e => decide (a ≤ e.1) && decide (e.1 < b))
  | [], _ => rfl
  | e :: rest, hsort => by
    have hsort2 := hsort
    rw [List.map_cons, List.pairwise_cons] at hsort2
    by_cases ha : e.1 < a
    · rw [List.dropWhile_cons, if_pos (by simpa using ha), List.filter_cons,
        if_neg (by
          simp only [Bool.and_eq_true, decide_eq_true_eq, not_and]
          intro hcon
          omega)]
      exact takeWhile_dropWhile_filter a b rest hsort2.2
    · rw [List.dropWhile_cons, if_neg (by simpa using ha)]
      refine takeWhile_eq_filter_sorted a b (e :: rest) hsort ?_
      intro x hx
      rcases List.mem_cons.mp hx with rfl | hx2
      · omega
      · have hlt := hsort2.1 x.1 (List.mem_map_of_mem Prod.fst hx2)
        omega

/-- `bptree_range_iterator_new` + the client loop yields exactly the
entries with keys in `[a, b)`, and an inverted or empty range is
immediately exhausted. -/
theorem crange_spec {t : bplustree} (h : cwf t = true) (a b : Int) :
    citerCollect (t.size + 1)
        ⟨(cseek a (cchainOf t)).1, (cseek a (cchainOf t)).2, a, b, true⟩ =
      (ctoList t).filter (fun e => decide (a ≤ e.1) && decide (e.1 < b)) ∧
    (b ≤ a → bptree_iterator_has_next
      ⟨(cseek a (cchainOf t)).1, (cseek a (cchainOf t)).2, a, b, true⟩ =
        false) := by
  have hsorted := (cwf_scan h).2
  have hsize := (cwf_scan h).1
  have hflat := ctoList_eq_flatten t
  obtain ⟨hc, hcase⟩ := cwf_dest h
  have hne : (∃ es2, cchainOf t = [es2] ∧ es2 = []) ∨
      (∀ es2 ∈ cchainOf t, es2 ≠ []) := by
    rcases hcase with ⟨hroot, -⟩ | ⟨r, hroot, hwf, hlo, -⟩
    · refine Or.inr ?_
      simp only [cchainOf, hroot]
      intro es2 hes2
      exact absurd hes2 (List.not_mem_nil es2)
    · cases r with
      | leaf es =>
        cases es with
        | nil => exact Or.inl ⟨[], by simp [cchainOf, hroot, pleaves], rfl⟩
        | cons e es2 =>
          refine Or.inr ?_
          simp only [cchainOf, hroot, pleaves]
          intro es3 hes3
          have he3 : es3 = e :: es2 := by simpa using hes3
          subst he3
          simp
      | branch ks cs =>
        refine Or.inr ?_
        simp only [cchainOf, hroot]
        exact chain_nonempty (hlo ks cs rfl)
  rcases hne with ⟨es2, hch, rfl⟩ | hne
  · rw [hch]
    have hseek : cseek a [([] : List (Int × Int))] = ([[]], 0) := rfl
    rw [hseek]
    have hcol : ∀ fuel, citerCollect fuel
        ⟨[([] : List (Int × Int))], 0, a, b, true⟩ = [] := by
      intro fuel
      cases fuel with
      | zero => rfl
      | succ fuel => rfl
    have hfl0 : ctoList t = [] := by
      rw [hflat, hch]
      rfl
    rw [show ((([[]], 0) :
        List (List (Int × Int)) × Nat)).1 = [([] : List (Int × Int))] from rfl]
    rw [show ((([[]], 0) : List (List (Int × Int)) × Nat)).2 = 0 from rfl]
    rw [hcol, hfl0]
    exact ⟨rfl, fun _ => rfl⟩
  · rcases cseek_spec a (cchainOf t) hne with
      ⟨hseq, hdw⟩ | ⟨es, rest, i, hseq, hlt, hstart, hsub, hrem⟩
    · rw [hseq]
      constructor
      · rw [citerCollect_nil, ← takeWhile_dropWhile_filter a b (ctoList t)
          hsorted, hflat, hdw]
        rfl
      · intro _
        rfl
    · rw [hseq]
      have hrestne : ∀ x ∈ rest, x ≠ [] := fun x hx => hne x (hsub x hx)
      have hlen_rem : (es.drop i ++ rest.flatten).length ≤
          (cchainOf t).flatten.length := by
        rw [hrem]
        exact List.Sublist.length_le (List.dropWhile_sublist _)
      have hfuel : es.length - i + rest.flatten.length < t.size + 1 := by
        have h2 : (es.drop i ++ rest.flatten).length =
            es.length - i + rest.flatten.length := by
          rw [List.length_append, List.length_drop]
        rw [hsize, hflat]
        omega
      constructor
      · rw [citerCollect_range a b (t.size + 1) es rest i hrestne hlt hfuel,
          hrem, ← hflat, takeWhile_dropWhile_filter a b (ctoList t) hsorted]
      · intro hba
        rw [has_next_cons, if_neg (by omega), if_pos rfl]
        simp only [decide_eq_false_iff_not, not_lt]
        omega

/-! ### Scripted scenarios

Concrete runs of the two engines, used below to settle the
spec sentences that concrete behaviour refutes.  `capply`/`cfold`
replay a script the way a C caller that ignores result codes would:
every API function hands back the (possibly mutated) tree whatever the
result code is. -/

/-- One C-API call applied to a tree, keeping the resulting state
whatever the result code is. -/
def capply (t : bplustree) : COp → bplustree
  | .ins k v => (bptree_insert_t t k v).1
  | .del k => (bptree_remove_t t k).1
  | .clear => bptree_clear_t t

/-- A run of C-API calls by a caller that does not stop on failures. -/
def cfold : bplustree → List COp → bplustree
  | t, [] => t
  | t, op :: ops => cfold (capply t op) ops

theorem crun_step {t t2 : bplustree} {k v : Int} (ops : List (Int × Int))
    (h : bptree_insert_t t k v = (t2, .ok)) :
    crun t ((k, v) :: ops) = crun t2 ops := by
  rw [crun, h]

theorem cfold_ins_step {t t2 : bplustree} {k v : Int} {r : CResult}
    (ops : List COp) (h : bptree_insert_t t k v = (t2, r)) :
    cfold t (.ins k v :: ops) = cfold t2 ops := by
  rw [cfold, capply, h]

/-- The C tree after inserting `(1,1) … (12,12)` at capacity 4: a full
root branch whose rightmost leaf is full again. -/
def ct12 : bplustree :=
  ⟨some (.branch [3, 5, 7, 9]
    [.leaf [(1, 1), (2, 2)], .leaf [(3, 3), (4, 4)], .leaf [(5, 5), (6, 6)],
     .leaf [(7, 7), (8, 8)],
     .leaf [(9, 9), (10, 10), (11, 11), (12, 12)]]), 4, 12⟩

/-- The state `bptree_insert` leaves behind when inserting `(13,13)`
into `ct12`: the rightmost leaf was truncated to its left half before
the full parent was noticed (bplustree.c:168-189 and 248-257), the
right half was freed, and `size` still reads 12. -/
def ct13 : bplustree :=
  ⟨some (.branch [3, 5, 7, 9]
    [.leaf [(1, 1), (2, 2)], .leaf [(3, 3), (4, 4)], .leaf [(5, 5), (6, 6)],
     .leaf [(7, 7), (8, 8)], .leaf [(9, 9), (10, 10)]]), 4, 12⟩

/-- The insertion script `(1,1) … (12,12)`. -/
def cpairs12 : List (Int × Int) :=
  [(1, 1), (2, 2), (3, 3), (4, 4), (5, 5), (6, 6), (7, 7), (8, 8), (9, 9),
   (10, 10), (11, 11), (12, 12)]

/-- The same script followed by the insert of `(13,13)`, as operations. -/
def cops13 : List COp :=
  [.ins 1 1, .ins 2 2, .ins 3 3, .ins 4 4, .ins 5 5, .ins 6 6, .ins 7 7,
   .ins 8 8, .ins 9 9, .ins 10 10, .ins 11 11, .ins 12 12, .ins 13 13]

theorem cins1 : bptree_insert_t ⟨none, 4, 0⟩ 1 1 =
    (⟨some (.leaf [(1, 1)]), 4, 1⟩, .ok) := rfl

theorem cins2 : bptree_insert_t ⟨some (.leaf [(1, 1)]), 4, 1⟩ 2 2 =
    (⟨some (.leaf [(1, 1), (2, 2)]), 4, 2⟩, .ok) := rfl

theorem cins3 : bptree_insert_t ⟨some (.leaf [(1, 1), (2, 2)]), 4, 2⟩ 3 3 =
    (⟨some (.leaf [(1, 1), (2, 2), (3, 3)]), 4, 3⟩, .ok) := rfl

theorem cins4 : bptree_insert_t
    ⟨some (.leaf [(1, 1), (2, 2), (3, 3)]), 4, 3⟩ 4 4 =
    (⟨some (.leaf [(1, 1), (2, 2), (3, 3), (4, 4)]), 4, 4⟩, .ok) := rfl

theorem cins5 : bptree_insert_t
    ⟨some (.leaf [(1, 1), (2, 2), (3, 3), (4, 4)]), 4, 4⟩ 5 5 =
    (⟨some (.branch [3] [.leaf [(1, 1), (2, 2)],
      .leaf [(3, 3), (4, 4), (5, 5)]]), 4, 5⟩, .ok) := rfl

theorem cins6 : bptree_insert_t
    ⟨some (.branch [3] [.leaf [(1, 1), (2, 2)],
      .leaf [(3, 3), (4, 4), (5, 5)]]), 4, 5⟩ 6 6 =
    (⟨some (.branch [3] [.leaf [(1, 1), (2, 2)],
      .leaf [(3, 3), (4, 4), (5, 5), (6, 6)]]), 4, 6⟩, .ok) := rfl

theorem cins7 : bptree_insert_t
    ⟨some (.branch [3] [.leaf [(1, 1), (2, 2)],
      .leaf [(3, 3), (4, 4), (5, 5), (6, 6)]]), 4, 6⟩ 7 7 =
    (⟨some (.branch [3, 5] [.leaf [(1, 1), (2, 2)], .leaf [(3, 3), (4, 4)],
      .leaf [(5, 5), (6, 6), (7, 7)]]), 4, 7⟩, .ok) := rfl

theorem cins8 : bptree_insert_t
    ⟨some (.branch [3, 5] [.leaf [(1, 1), (2, 2)], .leaf [(3, 3), (4, 4)],
      .leaf [(5, 5), (6, 6), (7, 7)]]), 4, 7⟩ 8 8 =
    (⟨some (.branch [3, 5] [.leaf [(1, 1), (2, 2)], .leaf [(3, 3), (4, 4)],
      .leaf [(5, 5), (6, 6), (7, 7), (8, 8)]]), 4, 8⟩, .ok) := rfl

theorem cins9 : bptree_insert_t
    ⟨some (.branch [3, 5] [.leaf [(1, 1), (2, 2)], .leaf [(3, 3), (4, 4)],
      .leaf [(5, 5), (6, 6), (7, 7), (8, 8)]]), 4, 8⟩ 9 9 =
    (⟨some (.branch [3, 5, 7] [.leaf [(1, 1), (2, 2)], .leaf [(3, 3), (4, 4)],
      .leaf [(5, 5), (6, 6)], .leaf [(7, 7), (8, 8), (9, 9)]]), 4, 9⟩,
     .ok) := rfl

theorem cins10 : bptree_insert_t
    ⟨some (.branch [3, 5, 7] [.leaf [(1, 1), (2, 2)], .leaf [(3, 3), (4, 4)],
      .leaf [(5, 5), (6, 6)], .leaf [(7, 7), (8, 8), (9, 9)]]), 4, 9⟩ 10 10 =
    (⟨some (.branch [3, 5, 7] [.leaf [(1, 1), (2, 2)], .leaf [(3, 3), (4, 4)],
      .leaf [(5, 5), (6, 6)],
      .leaf [(7, 7), (8, 8), (9, 9), (10, 10)]]), 4, 10⟩, .ok) := rfl

theorem cins11 : bptree_insert_t
    ⟨some (.branch [3, 5, 7] [.leaf [(1, 1), (2, 2)], .leaf [(3, 3), (4, 4)],
      .leaf [(5, 5), (6, 6)],
      .leaf [(7, 7), (8, 8), (9, 9), (10, 10)]]), 4, 10⟩ 11 11 =
    (⟨some (.branch [3, 5, 7, 9] [.leaf [(1, 1), (2, 2)],
      .leaf [(3, 3), (4, 4)], .leaf [(5, 5), (6, 6)], .leaf [(7, 7), (8, 8)],
      .leaf [(9, 9), (10, 10), (11, 11)]]), 4, 11⟩, .ok) := rfl

theorem cins12 : bptree_insert_t
    ⟨some (.branch [3, 5, 7, 9] [.leaf [(1, 1), (2, 2)],
      .leaf [(3, 3), (4, 4)], .leaf [(5, 5), (6, 6)], .leaf [(7, 7), (8, 8)],
      .leaf [(9, 9), (10, 10), (11, 11)]]), 4, 11⟩ 12 12 =
    (ct12, .ok) := rfl

theorem cins13 : bptree_insert_t ct12 13 13 = (ct13, .errInvalidState) := rfl

/-- `ct12` is what the script `cpairs12` builds, every insert
succeeding. -/
theorem crun_inserts12 : crun ⟨none, 4, 0⟩ cpairs12 = some ct12 := by
  show crun ⟨none, 4, 0⟩ [(1, 1), (2, 2), (3, 3), (4, 4), (5, 5), (6, 6),
    (7, 7), (8, 8), (9, 9), (10, 10), (11, 11), (12, 12)] = some ct12
  rw [crun_step _ cins1, crun_step _ cins2, crun_step _ cins3,
    crun_step _ cins4, crun_step _ cins5, crun_step _ cins6,
    crun_step _ cins7, crun_step _ cins8, crun_step _ cins9,
    crun_step _ cins10, crun_step _ cins11, crun_step _ cins12, crun]

/-- `ct13` is what the script `cops13` leaves behind. -/
theorem cfold_inserts13 : cfold ⟨none, 4, 0⟩ cops13 = ct13 := by
  show cfold ⟨none, 4, 0⟩ [.ins 1 1, .ins 2 2, .ins 3 3, .ins 4 4, .ins 5 5,
    .ins 6 6, .ins 7 7, .ins 8 8, .ins 9 9, .ins 10 10, .ins 11 11,
    .ins 12 12, .ins 13 13] = ct13
  rw [cfold_ins_step _ cins1, cfold_ins_step _ cins2, cfold_ins_step _ cins3,
    cfold_ins_step _ cins4, cfold_ins_step _ cins5, cfold_ins_step _ cins6,
    cfold_ins_step _ cins7, cfold_ins_step _ cins8, cfold_ins_step _ cins9,
    cfold_ins_step _ cins10, cfold_ins_step _ cins11, cfold_ins_step _ cins12,
    cfold_ins_step _ cins13, cfold]

/-- The C tree after inserting `(1,1) … (5,5)` at capacity 4: the root
is a branch, so `bptree_remove` can no longer reach any key. -/
def ct5 : bplustree :=
  ⟨some (.branch [3] [.leaf [(1, 1), (2, 2)],
    .leaf [(3, 3), (4, 4), (5, 5)]]), 4, 5⟩

/-- The empty tree at any legal capacity satisfies the C invariant. -/
theorem cwf_empty {cap : Nat} (hc : 4 ≤ cap) : cwf ⟨none, cap, 0⟩ = true := by
  simp [cwf, hc]

/-- The key `node_insert_leaf` promotes on a split is the first key of
the new right node (node_ops.c:252-260). -/
theorem node_insert_leaf_split_sk {c : Nat} {es : List (Int × Int)}
    {k v : Int} {l r : List (Int × Int)} {sk : Int}
    (hres : node_insert_leaf c es k v = .split l r sk) :
    sk = (r.headD (k, v)).1 := by
  simp only [node_insert_leaf] at hres
  split at hres
  · cases hres
  · split at hres
    · injection hres with e1 e2 e3
      rw [← e3, ← e2]
    · cases hres

/-- Inserting a fresh key at its lower-bound position keeps a strictly
sorted key list strictly sorted. -/
theorem insert_lowerBound_sorted {ks : List Int} {key : Int}
    (hs : ks.Pairwise (· < ·)) (hnm : key ∉ ks) :
    (ks.take (node_find_position ks key) ++
      key :: ks.drop (node_find_position ks key)).Pairwise (· < ·) := by
  rw [node_find_position]
  have hs2 : (ks.take (binary_search_keys ks key) ++
      ks.drop (binary_search_keys ks key)).Pairwise (· < ·) := by
    rw [List.take_append_drop]
    exact hs
  obtain ⟨hts, hds, hcross⟩ := List.pairwise_append.mp hs2
  refine List.pairwise_append.mpr ⟨hts, ?_, ?_⟩
  · rw [List.pairwise_cons]
    refine ⟨?_, hds⟩
    intro y hy
    have hge := drop_lowerBound_ge ks key hs y hy
    have hne : key ≠ y := fun he => hnm (he ▸ List.mem_of_mem_drop hy)
    omega
  · intro x hx y hy
    rcases List.mem_cons.mp hy with heq | hy2
    · rw [heq]
      exact take_lowerBound_lt ks key hs x hx
    · exact hcross x hx y hy2

/-- On a strictly sorted list, the element at position `m` does not
occur before position `m`. -/
theorem sorted_getD_not_mem_take {l : List Int} {m : Nat}
    (hs : l.Pairwise (· < ·)) (hm : m < l.length) (d : Int) :
    l.getD m d ∉ l.take m := by
  intro hcon
  obtain ⟨i, hi, hie⟩ := List.mem_take_iff_getElem.mp hcon
  have hilen : i < l.length := by omega
  have hlt := List.pairwise_iff_getElem.mp hs i m hilen hm (by omega)
  rw [List.getD_eq_getElem l d hm] at hie
  omega

/-- On a strictly sorted list, the element at position `m` does not
occur after position `m`. -/
theorem sorted_getD_not_mem_drop {l : List Int} {m : Nat}
    (hs : l.Pairwise (· < ·)) (hm : m < l.length) (d : Int) :
    l.getD m d ∉ l.drop (m + 1) := by
  intro hcon
  obtain ⟨j, hj, hje⟩ := List.mem_iff_getElem.mp hcon
  rw [List.length_drop] at hj
  rw [List.getElem_drop] at hje
  have hlt := List.pairwise_iff_getElem.mp hs m (m + 1 + j) hm (by omega)
    (by omega)
  rw [List.getD_eq_getElem l d hm] at hje
  omega

/-! ### The claims -/

/-- Claim C10: every public operation called with a NULL tree handle is
total and benign: `bptree_size(NULL)` is 0, `bptree_is_empty(NULL)` is
true, `bptree_insert`, `bptree_get` and `bptree_remove` on NULL return
the null-pointer error code without producing a tree, `bptree_contains`
is false, and `bptree_iterator_new(NULL)` is NULL — no tree state is
touched because there is none to touch. -/
theorem claim_C10_null_handles (k v : Int) :
    bptree_size none = 0 ∧ bptree_is_empty none = true ∧
    bptree_insert none k v = (none, CResult.errNullPointer) ∧
    bptree_get none k = (none, CResult.errNullPointer) ∧
    bptree_remove none k = (none, CResult.errNullPointer) ∧
    bptree_contains none k = false ∧
    bptree_iterator_new none = none :=
  ⟨rfl, rfl, rfl, rfl, rfl, rfl, rfl⟩

/-- Claim C2, refuted by the code: a failed insert must leave the tree
in its prior state.  After the twelve successful inserts of `cpairs12`
the tree is `ct12`; the 13th insert fails with
`BPTREE_ERROR_INVALID_STATE`, yet the tree has changed: entries
`(11,11)` and `(12,12)` are gone from the leaf chain
(bplustree.c:168-189 truncates the leaf and 248-257 then frees the new
right node), while `size` still reads 12 over the 10 remaining
entries. -/
theorem claim_C2_failed_insert_mutates :
    crun ⟨none, 4, 0⟩ cpairs12 = some ct12 ∧ cwf ct12 = true ∧
    bptree_insert_t ct12 13 13 = (ct13, CResult.errInvalidState) ∧
    (11, 11) ∈ ctoList ct12 ∧ (12, 12) ∈ ctoList ct12 ∧
    (11, 11) ∉ ctoList ct13 ∧ (12, 12) ∉ ctoList ct13 ∧
    ct13.size = 12 ∧ (ctoList ct13).length = 10 ∧
    ctoList ct13 ≠ ctoList ct12 :=
  ⟨crun_inserts12, by decide, cins13, by decide, by decide, by decide,
   by decide, rfl, by decide, by decide⟩

/-- The Python-engine tree built by inserting `(1,1) … (5,5)` at
capacity 4. -/
def pt5 : PTree := prun (pnew 4) [(1, 1), (2, 2), (3, 3), (4, 4), (5, 5)]

/-- Claim C3, refuted by the code: non-root nodes must keep at least
`floor(capacity/2)` entries, with rebalancing on delete.  In the
Python engine, inserting 1..5 at capacity 4 and then deleting key 1
leaves the non-root left leaf with a single entry, below the minimum
of 2, with no redistribution or merge (tree_ops.c:106-116 just removes
the entry); the standalone C engine cannot even delete under a branch
root, failing with `BPTREE_ERROR_INVALID_STATE` (bplustree.c:361-364). -/
theorem claim_C3_underfull_not_rebalanced :
    (tree_delete pt5 1).2 = true ∧
    (tree_delete pt5 1).1.root =
      .branch [3] [.leaf [(2, 2)], .leaf [(3, 3), (4, 4), (5, 5)]] ∧
    ([(2, 2)] : List (Int × Int)).length < 4 / 2 ∧
    bptree_remove_t ct5 3 = (ct5, CResult.errInvalidState) :=
  ⟨by decide, rfl, by decide, rfl⟩

/-- Claim C4, amended: after a run of insert, delete and clear
operations in which no operation fails, the stored size equals the
length of a full scan from the leftmost leaf and the scan's keys are
strictly ascending (hence duplicate-free). -/
theorem claim_C4_size_matches_scan (cap : Nat) (hc : 4 ≤ cap)
    (ops : List COp) (t2 : bplustree)
    (hrun : crunOps ⟨none, cap, 0⟩ ops = some t2) :
    bptree_size (some t2) =
      (citerCollect (t2.size + 1) ⟨cchainOf t2, 0, 0, 0, false⟩).length ∧
    ((citerCollect (t2.size + 1)
        ⟨cchainOf t2, 0, 0, 0, false⟩).map Prod.fst).Pairwise (· < ·) := by
  have hw2 := crunOps_wf ops ⟨none, cap, 0⟩ t2 (cwf_empty hc) hrun
  rw [cwf_fullscan hw2]
  exact ⟨(cwf_scan hw2).1, (cwf_scan hw2).2⟩

/-- Witness for `claim_C4_size_matches_scan` at a one-insert run. -/
theorem claim_C4_witness :
    bptree_size (some ⟨some (.leaf [(1, 1)]), 4, 1⟩) =
      (citerCollect ((⟨some (.leaf [(1, 1)]), 4, 1⟩ : bplustree).size + 1)
        ⟨cchainOf ⟨some (.leaf [(1, 1)]), 4, 1⟩, 0, 0, 0, false⟩).length ∧
    ((citerCollect ((⟨some (.leaf [(1, 1)]), 4, 1⟩ : bplustree).size + 1)
        ⟨cchainOf ⟨some (.leaf [(1, 1)]), 4, 1⟩, 0, 0, 0, false⟩).map
      Prod.fst).Pairwise (· < ·) :=
  claim_C4_size_matches_scan 4 (by decide) [.ins 1 1]
    ⟨some (.leaf [(1, 1)]), 4, 1⟩ rfl

/-- Counterexample to the unamended claim C4: after the operation
sequence `cops13` — twelve successful inserts and one failed one — the
stored size is 12 but a full scan yields only 10 entries. -/
theorem claim_C4_counterexample :
    cfold ⟨none, 4, 0⟩ cops13 = ct13 ∧
    bptree_size (some ct13) = 12 ∧
    (citerCollect (ct13.size + 1)
      ⟨cchainOf ct13, 0, 0, 0, false⟩).length = 10 :=
  ⟨cfold_inserts13, rfl, by decide⟩

/-- Claim C1: after any sequence of successful inserts at any capacity
at least 4, including sequences long enough to force leaf and branch
splits, every inserted key is still retrievable — in the Python engine
`tree_get` finds it, and in the standalone C engine `bptree_contains`
holds whenever the whole run succeeded. -/
theorem claim_C1_inserted_keys_retrievable (cap : Nat) (hc : 4 ≤ cap)
    (ops : List (Int × Int)) (k v : Int) (hmem : (k, v) ∈ ops)
    (t2 : bplustree) (hrun : crun ⟨none, cap, 0⟩ ops = some t2) :
    (tree_get (prun (pnew cap) ops) k).isSome = true ∧
    bptree_contains (some t2) k = true := by
  constructor
  · have hp := prun_spec ops (pnew cap) (pnew_wfT hc)
    rw [tree_get_eq hp.1, lookupKV_isSome_iff]
    have hto : toListN (prun (pnew cap) ops).root = lrun [] ops := by
      have h2 : toListT (prun (pnew cap) ops) = lrun [] ops := by
        rw [hp.2]
        rfl
      exact h2
    rw [hto]
    exact mem_keys_lrun ops [] hmem
  · obtain ⟨hw2, hto2, -⟩ :=
      crun_spec ops ⟨none, cap, 0⟩ t2 (cwf_empty hc) hrun
    have hmem2 : k ∈ (ctoList t2).map Prod.fst := by
      rw [hto2]
      exact mem_keys_lrun ops (ctoList ⟨none, cap, 0⟩) hmem
    have hok2 : (bptree_get (some t2) k).2 = CResult.ok :=
      (bptree_get_t_spec hw2).2.mpr hmem2
    rw [bptree_contains, hok2]

/-- Witness for `claim_C1_inserted_keys_retrievable`: a two-insert
run. -/
theorem claim_C1_witness :
    (tree_get (prun (pnew 4) [(10, 1), (20, 2)]) 10).isSome = true ∧
    bptree_contains (some ⟨some (.leaf [(10, 1), (20, 2)]), 4, 2⟩) 10 =
      true :=
  claim_C1_inserted_keys_retrievable 4 (by decide) [(10, 1), (20, 2)] 10 1
    (by decide) ⟨some (.leaf [(10, 1), (20, 2)]), 4, 2⟩ rfl

/-- Claim C7: inserting an already-present key overwrites the value in
place — `get` then returns the new value and `size` is unchanged —
while inserting a fresh key grows `size` by exactly one.  This holds in
the Python engine unconditionally, and in the standalone C engine the
update clause holds unconditionally while the fresh-key clause holds
whenever the insert reports success. -/
theorem claim_C7_update_vs_insert (t : PTree) (k v2 : Int)
    (hw : wfT t = true) (ct : bplustree) (ck cv : Int)
    (hcw : cwf ct = true) :
    (k ∈ (toListT t).map Prod.fst →
      tree_get (tree_insert t k v2) k = some v2 ∧
      (tree_insert t k v2).size = t.size) ∧
    (k ∉ (toListT t).map Prod.fst →
      tree_get (tree_insert t k v2) k = some v2 ∧
      (tree_insert t k v2).size = t.size + 1) ∧
    (ck ∈ (ctoList ct).map Prod.fst →
      (bptree_insert_t ct ck cv).2 = CResult.ok ∧
      (bptree_get_t (bptree_insert_t ct ck cv).1 ck).1 = some cv ∧
      (bptree_insert_t ct ck cv).1.size = ct.size) ∧
    ((bptree_insert_t ct ck cv).2 = CResult.ok →
      ck ∉ (ctoList ct).map Prod.fst →
      (bptree_get_t (bptree_insert_t ct ck cv).1 ck).1 = some cv ∧
      (bptree_insert_t ct ck cv).1.size = ct.size + 1) := by
  obtain ⟨hw2, hto2, -, hszmem, hsznew⟩ := tree_insert_spec t k v2 hw
  have hget : tree_get (tree_insert t k v2) k = some v2 := by
    rw [tree_get_eq hw2]
    have hto3 : toListN (tree_insert t k v2).root =
        linsert k v2 (toListT t) := hto2
    rw [hto3]
    exact lookupKV_linsert_self
  refine ⟨fun hm => ⟨hget, hszmem hm⟩, fun hm => ⟨hget, hsznew hm⟩, ?_, ?_⟩
  · intro hm
    have hok := bptree_insert_t_present (v := cv) hcw hm
    obtain ⟨hw3, hto3, -, hsz3⟩ := bptree_insert_t_ok hcw hok
    refine ⟨hok, ?_, ?_⟩
    · rw [(bptree_get_t_spec hw3).1, hto3]
      exact lookupKV_linsert_self
    · rw [hsz3, if_pos hm]
  · intro hok hm
    obtain ⟨hw3, hto3, -, hsz3⟩ := bptree_insert_t_ok hcw hok
    refine ⟨?_, ?_⟩
    · rw [(bptree_get_t_spec hw3).1, hto3]
      exact lookupKV_linsert_self
    · rw [hsz3, if_neg hm]

/-- Witness for `claim_C7_update_vs_insert`: overwriting key 1 in the
Python engine and key 5 in the C engine. -/
theorem claim_C7_witness :
    tree_get (tree_insert ⟨.leaf [(1, 1)], 4, 1⟩ 1 9) 1 = some 9 ∧
    (tree_insert ⟨.leaf [(1, 1)], 4, 1⟩ 1 9).size =
      (⟨.leaf [(1, 1)], 4, 1⟩ : PTree).size ∧
    (bptree_insert_t ⟨some (.leaf [(5, 5)]), 4, 1⟩ 5 7).2 = CResult.ok ∧
    (bptree_get_t (bptree_insert_t ⟨some (.leaf [(5, 5)]), 4, 1⟩ 5 7).1
      5).1 = some 7 ∧
    (bptree_insert_t ⟨some (.leaf [(5, 5)]), 4, 1⟩ 5 7).1.size =
      (⟨some (.leaf [(5, 5)]), 4, 1⟩ : bplustree).size := by
  have h := claim_C7_update_vs_insert ⟨.leaf [(1, 1)], 4, 1⟩ 1 9 (by decide)
    ⟨some (.leaf [(5, 5)]), 4, 1⟩ 5 7 (by decide)
  obtain ⟨h1, -, h3, -⟩ := h
  obtain ⟨ha, hb⟩ := h1 (by decide)
  obtain ⟨hc2, hd, he⟩ := h3 (by decide)
  exact ⟨ha, hb, hc2, hd, he⟩

/-- Claim C8, amended: deleting an absent key reports not-found and
leaves the tree completely unchanged, and deleting a present key
succeeds, makes `contains` false and decrements `size` by one — in the
Python engine for trees of any height, both directions: its delete
reports not-found if and only if the key is absent, and succeeds if
and only if the key is present.  In the standalone C engine this holds
only while the root is a leaf (or still NULL): there an absent key
gets `BPTREE_ERROR_KEY_NOT_FOUND` with the tree untouched, a present
key is removed with success, and success always means the key was
present; with a branch root `bptree_remove` fails with
`BPTREE_ERROR_INVALID_STATE` (leaving the tree unchanged) even when
the key is present. -/
theorem claim_C8_delete_semantics (t : PTree) (k : Int) (hw : wfT t = true)
    (ct : bplustree) (ck : Int) (hcw : cwf ct = true) :
    (k ∉ (toListT t).map Prod.fst →
      (tree_delete t k).2 = false ∧ (tree_delete t k).1 = t ∧
      tree_get t k = none) ∧
    ((tree_delete t k).2 = false →
      (tree_delete t k).1 = t ∧ k ∉ (toListT t).map Prod.fst) ∧
    (k ∈ (toListT t).map Prod.fst → (tree_delete t k).2 = true) ∧
    ((tree_delete t k).2 = true →
      k ∈ (toListT t).map Prod.fst ∧
      tree_get (tree_delete t k).1 k = none ∧
      (tree_delete t k).1.size + 1 = t.size) ∧
    ((bptree_remove_t ct ck).2 = CResult.errKeyNotFound →
      (bptree_remove_t ct ck).1 = ct ∧ ck ∉ (ctoList ct).map Prod.fst) ∧
    ((bptree_remove_t ct ck).2 = CResult.ok →
      ck ∈ (ctoList ct).map Prod.fst ∧
      bptree_contains (some (bptree_remove_t ct ck).1) ck = false ∧
      (bptree_remove_t ct ck).1.size + 1 = ct.size) ∧
    (ct.root = none →
      bptree_remove_t ct ck = (ct, CResult.errKeyNotFound)) ∧
    (∀ es, ct.root = some (.leaf es) → ck ∉ (ctoList ct).map Prod.fst →
      bptree_remove_t ct ck = (ct, CResult.errKeyNotFound)) ∧
    (∀ es, ct.root = some (.leaf es) → ck ∈ (ctoList ct).map Prod.fst →
      (bptree_remove_t ct ck).2 = CResult.ok) ∧
    (∀ ks cs, ct.root = some (.branch ks cs) →
      bptree_remove_t ct ck = (ct, CResult.errInvalidState)) := by
  obtain ⟨hcp, hwfp, hszp⟩ := wfT_iff.mp hw
  have hsort : ((toListT t).map Prod.fst).Pairwise (· < ·) :=
    wfN_toList_sorted t.root hwfp
  obtain ⟨hDnf, hDok⟩ := tree_delete_spec t k hw
  have hCspec := bptree_remove_t_spec (k := ck) hcw
  have hsortc : ((ctoList ct).map Prod.fst).Pairwise (· < ·) :=
    (cwf_scan hcw).2
  refine ⟨?_, hDnf, ?_, ?_, hCspec.1, ?_, ?_, ?_, hCspec.2.2.2, ?_⟩
  · intro hnm
    have hfalse : (tree_delete t k).2 = false := by
      cases hres : (tree_delete t k).2 with
      | true => exact absurd (hDok hres).2.2.1 hnm
      | false => rfl
    refine ⟨hfalse, (hDnf hfalse).1, ?_⟩
    rw [tree_get_eq hw]
    exact lookupKV_eq_none_of_not_mem hnm
  · intro hm
    cases hres : (tree_delete t k).2 with
    | false => exact absurd hm (hDnf hres).2
    | true => rfl
  · intro ht
    obtain ⟨hw2, hto2, hm, hsz2, -⟩ := hDok ht
    refine ⟨hm, ?_, hsz2⟩
    rw [tree_get_eq hw2]
    have hto3 : toListN (tree_delete t k).1.root =
        lerase k (toListT t) := hto2
    rw [hto3]
    exact lookupKV_lerase_self hsort
  · intro hok
    obtain ⟨hw3, hto3, hm3, hsz3, -⟩ := hCspec.2.2.1 hok
    refine ⟨hm3, ?_, hsz3⟩
    have hnm : ck ∉ (ctoList (bptree_remove_t ct ck).1).map Prod.fst := by
      rw [hto3]
      intro hcon
      exact ((mem_keys_lerase hsortc).mp hcon).2 rfl
    have hno : (bptree_get_t (bptree_remove_t ct ck).1 ck).2 ≠
        CResult.ok := by
      intro hcon
      exact hnm ((bptree_get_t_spec hw3).2.mp hcon)
    rw [bptree_contains]
    cases hres : (bptree_get (some (bptree_remove_t ct ck).1) ck).2 with
    | ok => exact absurd hres hno
    | errNullPointer => rfl
    | errInvalidCapacity => rfl
    | errKeyNotFound => rfl
    | errOutOfMemory => rfl
    | errInvalidState => rfl
  · intro hroot
    obtain ⟨cr, ccap, csz⟩ := ct
    have hroot2 : cr = none := hroot
    subst hroot2
    rfl
  · intro es hroot hnm
    obtain ⟨cr, ccap, csz⟩ := ct
    have hroot2 : cr = some (.leaf es) := hroot
    subst hroot2
    have hcto : ctoList ⟨some (.leaf es), ccap, csz⟩ = es := toListN_leaf es
    rw [hcto] at hnm
    have hsort2 : (es.map Prod.fst).Pairwise (· < ·) := by
      have h2 := hsortc
      rw [hcto] at h2
      exact h2
    have hbse := binary_search_exact_spec (es.map Prod.fst) ck hsort2
    cases hres : binary_search_exact (es.map Prod.fst) ck with
    | some pos =>
      rw [hres] at hbse
      have hmem : ck ∈ es.map Prod.fst := by
        rw [← hbse.2]
        exact getD_mem_of_lt 0 hbse.1
      exact absurd hmem hnm
    | none => simp only [bptree_remove_t, hres]
  · intro ks cs hroot
    obtain ⟨cr, ccap, csz⟩ := ct
    have hroot2 : cr = some (.branch ks cs) := hroot
    subst hroot2
    rfl

/-- Witness for `claim_C8_delete_semantics`: on the one-entry leaf
trees of both engines, deleting the present key 1 succeeds and
deleting the absent key 2 reports not-found with the tree unchanged. -/
theorem claim_C8_witness :
    (tree_delete ⟨.leaf [(1, 1)], 4, 1⟩ 1).2 = true ∧
    (bptree_remove_t ⟨some (.leaf [(1, 1)]), 4, 1⟩ 1).2 = CResult.ok ∧
    (tree_delete ⟨.leaf [(1, 1)], 4, 1⟩ 2).2 = false ∧
    (tree_delete ⟨.leaf [(1, 1)], 4, 1⟩ 2).1 = ⟨.leaf [(1, 1)], 4, 1⟩ ∧
    bptree_remove_t ⟨some (.leaf [(1, 1)]), 4, 1⟩ 2 =
      (⟨some (.leaf [(1, 1)]), 4, 1⟩, CResult.errKeyNotFound) := by
  have h := claim_C8_delete_semantics ⟨.leaf [(1, 1)], 4, 1⟩ 1 (by decide)
    ⟨some (.leaf [(1, 1)]), 4, 1⟩ 1 (by decide)
  have h2 := claim_C8_delete_semantics ⟨.leaf [(1, 1)], 4, 1⟩ 2 (by decide)
    ⟨some (.leaf [(1, 1)]), 4, 1⟩ 2 (by decide)
  obtain ⟨hf, hu, -⟩ := h2.1 (by decide)
  exact ⟨h.2.2.1 (by decide), h.2.2.2.2.2.2.2.2.1 [(1, 1)] rfl (by decide),
    hf, hu, h2.2.2.2.2.2.2.2.1 [(1, 1)] rfl (by decide)⟩

/-- Counterexample to the unamended claim C8: in the standalone C
engine the key 3 is present in `ct5` — a tree reached by five
successful inserts — yet `bptree_remove` fails with
`BPTREE_ERROR_INVALID_STATE` because the root is a branch. -/
theorem claim_C8_counterexample :
    crun ⟨none, 4, 0⟩ [(1, 1), (2, 2), (3, 3), (4, 4), (5, 5)] =
      some ct5 ∧
    (3, 3) ∈ ctoList ct5 ∧
    bptree_remove_t ct5 3 = (ct5, CResult.errInvalidState) :=
  ⟨rfl, by decide, rfl⟩

/-- Claim C9: the range iterator over `[a, b)` yields exactly the
entries of the tree whose key satisfies `a ≤ key < b`, in ascending
key order, and an empty or inverted range (`b ≤ a`) is immediately
exhausted and yields nothing. -/
theorem claim_C9_range_iterator (t : bplustree) (h : cwf t = true)
    (a b : Int) (it : CIter)
    (hit : bptree_range_iterator_new (some t) a b = some it) :
    citerCollect (t.size + 1) it =
      (ctoList t).filter (fun e => decide (a ≤ e.1) && decide (e.1 < b)) ∧
    ((citerCollect (t.size + 1) it).map Prod.fst).Pairwise (· < ·) ∧
    (b ≤ a → citerCollect (t.size + 1) it = [] ∧
      bptree_iterator_has_next it = false) := by
  have hit2 : it = ⟨(cseek a (cchainOf t)).1, (cseek a (cchainOf t)).2,
      a, b, true⟩ := by
    have hrw : bptree_range_iterator_new (some t) a b =
        some ⟨(cseek a (cchainOf t)).1, (cseek a (cchainOf t)).2,
          a, b, true⟩ := rfl
    rw [hrw] at hit
    injection hit with h2
    exact h2.symm
  subst hit2
  obtain ⟨hcol, hend⟩ := crange_spec h a b
  refine ⟨hcol, ?_, fun hba => ⟨?_, hend hba⟩⟩
  · rw [hcol]
    exact List.Pairwise.sublist ((List.filter_sublist _).map Prod.fst)
      ((cwf_scan h).2)
  · rw [hcol]
    rw [List.filter_eq_nil_iff]
    intro e he
    simp only [Bool.and_eq_true, decide_eq_true_eq, not_and]
    intro hae
    omega

/-- Witness for `claim_C9_range_iterator`: the range `[2, 4)` over the
three entries 1, 2, 3. -/
theorem claim_C9_witness :
    citerCollect ((⟨some (.leaf [(1, 1), (2, 2), (3, 3)]), 4, 3⟩ :
        bplustree).size + 1) ⟨[[(1, 1), (2, 2), (3, 3)]], 1, 2, 4, true⟩ =
      (ctoList ⟨some (.leaf [(1, 1), (2, 2), (3, 3)]), 4, 3⟩).filter
        (fun e => decide (2 ≤ e.1) && decide (e.1 < 4)) ∧
    ((citerCollect ((⟨some (.leaf [(1, 1), (2, 2), (3, 3)]), 4, 3⟩ :
        bplustree).size + 1)
        ⟨[[(1, 1), (2, 2), (3, 3)]], 1, 2, 4, true⟩).map
      Prod.fst).Pairwise (· < ·) := by
  have h := claim_C9_range_iterator
    ⟨some (.leaf [(1, 1), (2, 2), (3, 3)]), 4, 3⟩ (by decide) 2 4
    ⟨[[(1, 1), (2, 2), (3, 3)]], 1, 2, 4, true⟩ rfl
  exact ⟨h.1, h.2.1⟩

/-- Claim C5, amended: in the Python engine, inserting a fresh key into
a full leaf (count = capacity) merges the `C` existing entries with the
new one into a sorted sequence of `C+1` items, splits it at
`mid = capacity/2` — items `[0,mid)` staying in the original leaf and
items `[mid,C+1)` going to a newly created right leaf — splices the new
leaf into the chain immediately after the original, and promotes the
first key of the new right leaf. -/
theorem claim_C5_leaf_split (c : Nat) (es : List (Int × Int)) (k v : Int)
    (hc : 4 ≤ c) (hwf : wfN c none none (.leaf es) = true)
    (hnm : k ∉ es.map Prod.fst) (hfull : c ≤ es.length) :
    node_insert_leaf c es k v =
      .split ((linsert k v es).take (c / 2)) ((linsert k v es).drop (c / 2))
        (((linsert k v es).drop (c / 2)).headD (k, v)).1 ∧
    (linsert k v es).drop (c / 2) ≠ [] ∧
    (tree_insert ⟨.leaf es, c, es.length⟩ k v).root =
      .branch [(((linsert k v es).drop (c / 2)).headD (k, v)).1]
        [.leaf ((linsert k v es).take (c / 2)),
         .leaf ((linsert k v es).drop (c / 2))] ∧
    pleaves (tree_insert ⟨.leaf es, c, es.length⟩ k v).root =
      [(linsert k v es).take (c / 2), (linsert k v es).drop (c / 2)] := by
  have hspec := node_insert_leaf_spec (k := k) (v := v) hc hwf
    (inLo_none k) (inHi_none k)
  have hdropne : (linsert k v es).drop (c / 2) ≠ [] := by
    have hlen : (linsert k v es).length = es.length + 1 :=
      length_linsert_of_not_mem hnm
    have hdlen : ((linsert k v es).drop (c / 2)).length =
        (linsert k v es).length - c / 2 := by
      rw [List.length_drop]
    intro hcon
    rw [hcon] at hdlen
    simp only [List.length_nil] at hdlen
    omega
  cases hres : node_insert_leaf c es k v with
  | updated es2 =>
    rw [hres] at hspec
    exact absurd hspec.2.1 hnm
  | inserted es2 =>
    rw [hres] at hspec
    exact absurd hspec.2.2.2 (by omega)
  | split l r sk =>
    rw [hres] at hspec
    obtain ⟨-, -, -, -, -, -, hl, hr⟩ := hspec
    have hsk : sk = (((linsert k v es).drop (c / 2)).headD (k, v)).1 := by
      rw [node_insert_leaf_split_sk hres, hr]
    have hres2 : node_insert_leaf c es k v =
        .split ((linsert k v es).take (c / 2))
          ((linsert k v es).drop (c / 2))
          (((linsert k v es).drop (c / 2)).headD (k, v)).1 := by
      rw [hres, hl, hr, hsk]
    have htr : tree_insert_recursive c (.leaf es) k v =
        .split (.leaf ((linsert k v es).take (c / 2)))
          (.leaf ((linsert k v es).drop (c / 2)))
          (((linsert k v es).drop (c / 2)).headD (k, v)).1 := by
      rw [tree_insert_recursive, hres2]
    have hti : tree_insert ⟨.leaf es, c, es.length⟩ k v =
        ⟨.branch [(((linsert k v es).drop (c / 2)).headD (k, v)).1]
          [.leaf ((linsert k v es).take (c / 2)),
           .leaf ((linsert k v es).drop (c / 2))], c, es.length + 1⟩ := by
      simp only [tree_insert, htr]
    refine ⟨by rw [hl, hr, hsk], hdropne, ?_, ?_⟩
    · rw [hti]
    · rw [hti]
      simp [pleaves, pleavesGo]

/-- Witness for `claim_C5_leaf_split`: inserting key 0 into the full
leaf holding 1..4 at capacity 4. -/
theorem claim_C5_witness :
    node_insert_leaf 4 [(1, 1), (2, 2), (3, 3), (4, 4)] 0 0 =
      .split ((linsert 0 0 [(1, 1), (2, 2), (3, 3), (4, 4)]).take (4 / 2))
        ((linsert 0 0 [(1, 1), (2, 2), (3, 3), (4, 4)]).drop (4 / 2))
        (((linsert 0 0 [(1, 1), (2, 2), (3, 3), (4, 4)]).drop
          (4 / 2)).headD (0, 0)).1 ∧
    (linsert 0 0 [(1, 1), (2, 2), (3, 3), (4, 4)]).drop (4 / 2) ≠ [] := by
  have h := claim_C5_leaf_split 4 [(1, 1), (2, 2), (3, 3), (4, 4)] 0 0
    (by decide) (by decide) (by decide) (by decide)
  exact ⟨h.1, h.2.1⟩

/-- Counterexample to the unamended claim C5 for the standalone C
engine: inserting key 0 into the full root leaf 1..4 splits the four
existing entries first (bplustree.c:159-190) and re-navigates to insert
afterwards (bplustree.c:286-316), so the original leaf ends up with
three entries and the promoted key is 3, where the merged-then-split
description predicts two entries left and promoted key 2. -/
theorem claim_C5_counterexample :
    bptree_insert_t ⟨some (.leaf [(1, 1), (2, 2), (3, 3), (4, 4)]), 4, 4⟩
        0 0 =
      (⟨some (.branch [3] [.leaf [(0, 0), (1, 1), (2, 2)],
        .leaf [(3, 3), (4, 4)]]), 4, 5⟩, CResult.ok) ∧
    ((linsert 0 0 [(1, 1), (2, 2), (3, 3), (4, 4)]).take (4 / 2)).length
        = 2 ∧
    (((linsert 0 0 [(1, 1), (2, 2), (3, 3), (4, 4)]).drop (4 / 2)).headD
        (0, 0)).1 = 2 ∧
    (2 : Int) ≠ 3 :=
  ⟨rfl, by decide, by decide, by decide⟩

/-- The `temp_keys` array `node_insert_branch` builds on overflow
(tree_ops.c:150-166): the separators with `key` inserted at its
position. -/
def branchTempKeys (ks : List Int) (key : Int) : List Int :=
  ks.take (node_find_position ks key) ++
    key :: ks.drop (node_find_position ks key)

/-- The matching `temp_children` array: the children with the new right
child inserted after position `pos`. -/
def branchTempChildren (cs : List PNode) (pos : Nat) (rc : PNode) :
    List PNode :=
  cs.take (pos + 1) ++ rc :: cs.drop (pos + 1)

/-- Claim C6, amended: in the Python engine a separator/child insertion
into a full branch splits it at `mid = capacity/2`, and the middle
separator of the merged sequence is promoted to the parent and appears
in neither resulting branch: the left branch keeps separators
`[0,mid)`, the right branch the separators past `mid` with their
children. -/
theorem claim_C6_branch_split (c : Nat) (ks : List Int) (cs : List PNode)
    (key : Int) (rc : PNode) (hs : ks.Pairwise (· < ·)) (hnm : key ∉ ks)
    (hfull : c ≤ ks.length) :
    node_insert_branch c ks cs key rc =
      .split ((branchTempKeys ks key).take (c / 2))
        ((branchTempChildren cs (node_find_position ks key) rc).take
          (c / 2 + 1))
        ((branchTempKeys ks key).drop (c / 2 + 1))
        ((branchTempChildren cs (node_find_position ks key) rc).drop
          (c / 2 + 1))
        ((branchTempKeys ks key).getD (c / 2) key) ∧
    (branchTempKeys ks key).getD (c / 2) key ∉
      (branchTempKeys ks key).take (c / 2) ∧
    (branchTempKeys ks key).getD (c / 2) key ∉
      (branchTempKeys ks key).drop (c / 2 + 1) := by
  have hTs : (branchTempKeys ks key).Pairwise (· < ·) :=
    insert_lowerBound_sorted hs hnm
  have hTlen : (branchTempKeys ks key).length = ks.length + 1 := by
    have hple := binary_search_keys_le ks key hs
    simp only [branchTempKeys, node_find_position, List.length_append,
      List.length_cons, List.length_take, List.length_drop]
    omega
  have hmlt : c / 2 < (branchTempKeys ks key).length := by
    rw [hTlen]
    omega
  refine ⟨?_, sorted_getD_not_mem_take hTs hmlt key,
    sorted_getD_not_mem_drop hTs hmlt key⟩
  simp only [node_insert_branch, branchTempKeys, branchTempChildren]
  rw [if_pos hfull]

/-- Witness for `claim_C6_branch_split`: pushing separator 5 into the
full branch with separators 1..4. -/
theorem claim_C6_witness :
    node_insert_branch 4 [1, 2, 3, 4] [] 5 (.leaf []) =
      .split ((branchTempKeys [1, 2, 3, 4] 5).take (4 / 2))
        ((branchTempChildren [] (node_find_position [1, 2, 3, 4] 5)
          (.leaf [])).take (4 / 2 + 1))
        ((branchTempKeys [1, 2, 3, 4] 5).drop (4 / 2 + 1))
        ((branchTempChildren [] (node_find_position [1, 2, 3, 4] 5)
          (.leaf [])).drop (4 / 2 + 1))
        ((branchTempKeys [1, 2, 3, 4] 5).getD (4 / 2) 5) ∧
    (branchTempKeys [1, 2, 3, 4] 5).getD (4 / 2) 5 ∉
      (branchTempKeys [1, 2, 3, 4] 5).take (4 / 2) ∧
    (branchTempKeys [1, 2, 3, 4] 5).getD (4 / 2) 5 ∉
      (branchTempKeys [1, 2, 3, 4] 5).drop (4 / 2 + 1) :=
  claim_C6_branch_split 4 [1, 2, 3, 4] [] 5 (.leaf []) (by decide)
    (by decide) (by decide)

/-- Counterexample to the unamended claim C6 for the standalone C
engine: when the full root branch of `ct12` needs a new separator, the
branch is not split — `bptree_insert` fails with
`BPTREE_ERROR_INVALID_STATE` (bplustree.c:252-257) and the root keeps
its four separators. -/
theorem claim_C6_counterexample :
    bptree_insert_t ct12 13 13 = (ct13, CResult.errInvalidState) ∧
    ct12.root = some (.branch [3, 5, 7, 9]
      [.leaf [(1, 1), (2, 2)], .leaf [(3, 3), (4, 4)],
       .leaf [(5, 5), (6, 6)], .leaf [(7, 7), (8, 8)],
       .leaf [(9, 9), (10, 10), (11, 11), (12, 12)]]) ∧
    ct13.root = some (.branch [3, 5, 7, 9]
      [.leaf [(1, 1), (2, 2)], .leaf [(3, 3), (4, 4)],
       .leaf [(5, 5), (6, 6)], .leaf [(7, 7), (8, 8)],
       .leaf [(9, 9), (10, 10)]]) :=
  ⟨cins13, rfl, rfl⟩

end BPlusVerify
